import Mathlib

/-!
# A shared-stack coroutine scheduler

Shallow embedding of `coroutine.c` / `coroutine.h` / `main.c`.

* The scheduler `struct schedule` and `struct coroutine` become structures.
  C `int` / `ptrdiff_t` fields are `Int`; an arithmetic step that would leave
  the range of `int` (signed overflow, undefined in C) is a `Fault.undefined`
  result, as is any access outside an allocated array or through `NULL`.
* A failed `assert` is the result `Fault.assertion`.  The functions with the
  suffix `_traced` follow the same statements and also give the scheduler that
  is in memory when the call ends, be it by a `return` or by `abort`.
* `coroutine_yield` gives what the statements of the function do to the
  scheduler; `coroutine_yield_room` adds that the frames of its callees lie on
  the shared stack as well and need room there.
* The locals `start` and `i` of `foo` are `int` objects of four bytes in its
  frame on the shared stack; `foo` reads them from there whenever it uses them.
* The shared stack `char stack[STACK_SIZE]` is a map from byte offsets to bytes.
* A `ucontext_t` is represented by the program that remains to be run when the
  context is switched to (`Prog`).  `swapcontext` inside `coroutine_resume` runs
  that program up to its next `coroutine_yield` or to the return of the body
  (`exec`); `swapcontext` inside `coroutine_yield` stores the remaining program
  in `C->ctx` and hands control back.
-/

namespace Coroutine

/-! ## Constants of `coroutine.c` and `coroutine.h` -/

def STACK_SIZE : Int := 1024 * 1024
def DEFAULT_COROUTINE : Int := 16
def INT_MAX : Int := 2147483647

def COROUTINE_DEAD : Int := 0
def COROUTINE_READY : Int := 1
def COROUTINE_RUNNING : Int := 2
def COROUTINE_SUSPEND : Int := 3

/-- One `char` of stack memory. -/
abbrev Byte := Fin 256

/-- The two ways a call can fail to return: a failed `assert`, or behaviour the
C standard leaves undefined (out-of-bounds access, `NULL` dereference, signed
overflow). -/
inductive Fault where
  | assertion
  | undefined
  deriving DecidableEq, Repr

/-- What a coroutine body (a `coroutine_func` together with its `ud`) can do:
the calls it can make on the scheduler, output, and reads and writes of its
own frame on the shared stack.  In `yield n k` the number `n` is the distance
`top - &dummy` from the stack pointer inside `_save_stack` to the top of the
shared stack, and `k` is what the body does after `coroutine_yield` returns.
`print a b` stands for `printf("coroutine %d : %d\n", a, b)`.  A body that calls
`coroutine_resume` is not represented: a coroutine is running then, so the call
stops at its first assertion.  `overflow` is an `int` operation of the body
whose result is not an `int`. -/
inductive Prog where
  | ret : Prog
  | yield (n : Int) (k : Prog) : Prog
  | running (k : Int → Prog) : Prog
  | status (id : Int) (k : Int → Prog) : Prog
  | print (a b : Int) (k : Prog) : Prog
  | new (func : Prog) (k : Int → Prog) : Prog
  | store (off : Int) (b : Byte) (k : Prog) : Prog
  | load (off : Int) (k : Byte → Prog) : Prog
  | overflow : Prog

/-- The record `struct coroutine`.  The fields `func` and `ud` are the single
`func`; `ctx` is `none` until `makecontext` or `swapcontext` fills it; `stack`
is the saved-stack buffer (`[]` for `NULL`), of `cap` bytes.  The back pointer
`sch` is the scheduler the coroutine is stored in. -/
structure coroutine where
  func : Prog
  ctx : Option Prog
  cap : Int
  size : Int
  status : Int
  stack : List Byte

/-- The record `struct schedule`.  `co` is the slot table, `none` for a `NULL`
entry; its length is the number of allocated entries.  The context `main` is
the caller of `coroutine_resume`, to which control returns. -/
structure schedule where
  stack : Int → Byte
  nco : Int
  cap : Int
  running : Int
  co : List (Option coroutine)

/-- One line of standard output: `main start`, `main end`, or
`coroutine %d : %d`. -/
inductive Line where
  | main_start
  | main_end
  | coroutine (id v : Int)
  deriving DecidableEq, Repr

abbrev Output := List Line

/-- The array read `S->co[id]`. -/
def co_at (S : schedule) (id : Int) : Except Fault (Option coroutine) :=
  if 0 ≤ id ∧ id < S.co.length then .ok (S.co.getD id.toNat none)
  else .error .undefined

/-- The array write `S->co[id] = v` on the table. -/
def co_set (S : schedule) (id : Int) (v : Option coroutine) : List (Option coroutine) :=
  S.co.set id.toNat v

/-! ## `coroutine.c` -/

def _co_new (func : Prog) : coroutine :=
  { func := func, ctx := none, cap := 0, size := 0, status := COROUTINE_READY, stack := [] }

/-- The scheduler `coroutine_open` returns.  The content of the freshly
allocated shared stack is the parameter `mem`. -/
def coroutine_open (mem : Int → Byte) : schedule :=
  { stack := mem, nco := 0, cap := DEFAULT_COROUTINE, running := -1,
    co := List.replicate DEFAULT_COROUTINE.toNat none }

/-- The `for` loop of `coroutine_new`, from index `i` with `fuel` iterations
left (`fuel = S->cap - i`); falling out of the loop reaches `assert(0)`. -/
def coroutine_new_scan (S : schedule) (co : coroutine) : Nat → Int → Except Fault (Int × schedule)
  | 0, _ => .error .assertion
  | fuel + 1, i =>
    if i + S.nco > INT_MAX ∨ S.nco + 1 > INT_MAX then .error .undefined
    else
      let id := (i + S.nco).tmod S.cap
      match co_at S id with
      | .error e => .error e
      | .ok none => .ok (id, { S with co := co_set S id (some co), nco := S.nco + 1 })
      | .ok (some _) => coroutine_new_scan S co fuel (i + 1)

def coroutine_new (S : schedule) (func : Prog) : Except Fault (Int × schedule) :=
  let co := _co_new func
  if S.nco ≥ S.cap then
    let id := S.cap
    if S.cap ≤ 0 ∨ S.cap * 2 > INT_MAX ∨ S.nco + 1 > INT_MAX then .error .undefined
    else
      let grown := S.co.take S.cap.toNat ++ List.replicate S.cap.toNat none
      .ok (id, { S with co := grown.set S.cap.toNat (some co), cap := S.cap * 2, nco := S.nco + 1 })
  else
    coroutine_new_scan S co S.cap.toNat 0

/-- The part of `mainfunc` after `C->func(S, C->ud)` has returned; `id` is the
local read from `S->running` when the trampoline was entered. -/
def mainfunc_return (S : schedule) (id : Int) : Except Fault schedule :=
  match co_at S id with
  | .error e => .error e
  | .ok _ =>
    if S.nco - 1 < -INT_MAX - 1 then .error .undefined
    else .ok { S with co := co_set S id none, nco := S.nco - 1, running := -1 }

/-- The `memcpy(S->stack + STACK_SIZE - C->size, C->stack, C->size)` of
`coroutine_resume`. -/
def restore_stack (stk : Int → Byte) (C : coroutine) : Int → Byte :=
  fun off =>
    if STACK_SIZE - C.size ≤ off ∧ off < STACK_SIZE then
      C.stack.getD (off - (STACK_SIZE - C.size)).toNat 0
    else stk off

/-- `coroutine_resume` up to its `swapcontext`: `none` when it returned at the
`NULL` check, otherwise the context switched to and the scheduler at the
switch. -/
def resume_enter (S : schedule) (id : Int) : Except Fault (Option (Prog × schedule)) :=
  if S.running ≠ -1 then .error .assertion
  else if ¬ (id ≥ 0 ∧ id < S.cap) then .error .assertion
  else
    match co_at S id with
    | .error e => .error e
    | .ok none => .ok none
    | .ok (some C) =>
      if C.status = COROUTINE_READY then
        let C1 := { C with ctx := some C.func, status := COROUTINE_RUNNING }
        .ok (some (C.func, { S with running := id, co := co_set S id (some C1) }))
      else if C.status = COROUTINE_SUSPEND then
        if C.size < 0 ∨ C.size > STACK_SIZE ∨ (C.stack.length : Int) < C.size then .error .undefined
        else
          match C.ctx with
          | none => .error .undefined
          | some k =>
            let C1 := { C with status := COROUTINE_RUNNING }
            .ok (some (k, { S with stack := restore_stack S.stack C, running := id,
                                    co := co_set S id (some C1) }))
      else .error .assertion

/-- The `n` bytes from `&dummy` up to the top of the shared stack, which the
`memcpy` of `_save_stack` reads. -/
def live_bytes (stk : Int → Byte) (n : Int) : List Byte :=
  (List.range n.toNat).map (fun (i : Nat) => stk (STACK_SIZE - n + (i : Int)))

/-- The function `_save_stack(C, top)` with `n = top - &dummy`; `stk` is the
shared stack the bytes are copied from. -/
def _save_stack (stk : Int → Byte) (C : coroutine) (n : Int) : Except Fault coroutine :=
  if ¬ (n ≤ STACK_SIZE) then .error .assertion
  else if n < 0 then .error .undefined
  else
    let C1 := if C.cap < n then { C with cap := n, stack := List.replicate n.toNat 0 } else C
    if (C1.stack.length : Int) < n then .error .undefined
    else
      .ok { C1 with size := n, stack := live_bytes stk n ++ C1.stack.drop n.toNat }

/-- The function `coroutine_yield` up to and including its `swapcontext`, which
stores the rest of the body `k` in `C->ctx`; `n` is the depth `top - &dummy` of
the stack inside `_save_stack`.  The local `C` of `coroutine_yield` lies above
`dummy`, the local of its callee, so `assert((char *)&C > S->stack)` cannot fail
when `n <= STACK_SIZE`, and when `n > STACK_SIZE` one of the two assertions
fails: the check of `_save_stack` decides.  This is what the statements of the
function do to the scheduler; that the frames of `_save_stack` and of the
functions it calls need stack of their own below `dummy` is added in
`coroutine_yield_room`. -/
def coroutine_yield (S : schedule) (n : Int) (k : Prog) : Except Fault schedule :=
  let id := S.running
  if ¬ (id ≥ 0) then .error .assertion
  else
    match co_at S id with
    | .error e => .error e
    | .ok none => .error .undefined
    | .ok (some C) =>
      match _save_stack S.stack C n with
      | .error e => .error e
      | .ok C1 =>
        .ok { S with running := -1,
                     co := co_set S id (some { C1 with status := COROUTINE_SUSPEND, ctx := some k }) }

def coroutine_status (S : schedule) (id : Int) : Except Fault Int :=
  if ¬ (id ≥ 0 ∧ id < S.cap) then .error .assertion
  else
    match co_at S id with
    | .error e => .error e
    | .ok none => .ok COROUTINE_DEAD
    | .ok (some C) => .ok C.status

def coroutine_running (S : schedule) : Int := S.running

/-- Running a coroutine context until control returns to the caller of
`coroutine_resume`: at the next `coroutine_yield`, or when the body returns
into `mainfunc`, whose local `id` is the first argument. -/
def exec (id : Int) : Prog → schedule → Output → Except Fault (schedule × Output)
  | .ret, S, out =>
    match mainfunc_return S id with
    | .error e => .error e
    | .ok S1 => .ok (S1, out)
  | .yield n k, S, out =>
    match coroutine_yield S n k with
    | .error e => .error e
    | .ok S1 => .ok (S1, out)
  | .running k, S, out => exec id (k (coroutine_running S)) S out
  | .status i k, S, out =>
    match coroutine_status S i with
    | .error e => .error e
    | .ok v => exec id (k v) S out
  | .print a b k, S, out => exec id k S (out ++ [Line.coroutine a b])
  | .new func k, S, out =>
    match coroutine_new S func with
    | .error e => .error e
    | .ok (i, S1) => exec id (k i) S1 out
  | .store off b k, S, out =>
    if 0 ≤ off ∧ off < STACK_SIZE then
      exec id k { S with stack := Function.update S.stack off b } out
    else .error .undefined
  | .load off k, S, out =>
    if 0 ≤ off ∧ off < STACK_SIZE then exec id (k (S.stack off)) S out
    else .error .undefined
  | .overflow, _, _ => .error .undefined

/-- The function `coroutine_resume`, with the output printed so far. -/
def coroutine_resume (S : schedule) (id : Int) (out : Output) : Except Fault (schedule × Output) :=
  match resume_enter S id with
  | .error e => .error e
  | .ok none => .ok (S, out)
  | .ok (some (k, S1)) => exec id k S1 out

/-! ## `main.c` -/

/-- Byte `j` of the object representation of the `int` value `v`: two's
complement, least significant byte first. -/
def int_byte (v : Int) (j : Nat) : Byte := Fin.ofNat ((v % 4294967296 / 256 ^ j) % 256).toNat

/-- The `int` value that the four bytes `b0`, `b1`, `b2`, `b3` represent. -/
def int_of_bytes (b0 b1 b2 b3 : Byte) : Int :=
  let u : Int := (b0.val : Int) + 256 * (b1.val : Int) + 65536 * (b2.val : Int)
    + 16777216 * (b3.val : Int)
  if u < 2147483648 then u else u - 4294967296

/-- The `int` object at offset `off` of a stack. -/
def read_int (stk : Int → Byte) (off : Int) : Int :=
  int_of_bytes (stk off) (stk (off + 1)) (stk (off + 2)) (stk (off + 3))

/-- The stack after the `int` value `v` is stored at offset `off`. -/
def write_int (stk : Int → Byte) (off : Int) (v : Int) : Int → Byte :=
  Function.update (Function.update (Function.update (Function.update stk
    off (int_byte v 0)) (off + 1) (int_byte v 1)) (off + 2) (int_byte v 2)) (off + 3) (int_byte v 3)

/-- A body reading an `int` local of its frame, at offset `off` of the shared
stack. -/
def Prog.load_int (off : Int) (k : Int → Prog) : Prog :=
  .load off fun b0 => .load (off + 1) fun b1 => .load (off + 2) fun b2 =>
    .load (off + 3) fun b3 => k (int_of_bytes b0 b1 b2 b3)

/-- A body assigning to an `int` local of its frame, at offset `off` of the
shared stack. -/
def Prog.store_int (off : Int) (v : Int) (k : Prog) : Prog :=
  .store off (int_byte v 0) (.store (off + 1) (int_byte v 1)
    (.store (off + 2) (int_byte v 2) (.store (off + 3) (int_byte v 3) k)))

/-- Where the activation of `foo` lies on the shared stack, which the compiler
decides: the offsets of the locals `int start` and `int i` from the base of
`S->stack`, and `frame`, the distance `top - &dummy` at the call of
`coroutine_yield` in the loop. -/
structure Layout where
  frame : Int
  start_at : Int
  i_at : Int

/-- The locals of `foo` lie above the frames of its callees `coroutine_yield`
and `_save_stack`, hence among the `frame` bytes that `_save_stack` copies; they
lie inside the shared stack and do not overlap. -/
structure Layout.valid (L : Layout) : Prop where
  frame_le : L.frame ≤ STACK_SIZE
  start_lo : STACK_SIZE - L.frame ≤ L.start_at
  start_hi : L.start_at + 4 ≤ STACK_SIZE
  i_lo : STACK_SIZE - L.frame ≤ L.i_at
  i_hi : L.i_at + 4 ≤ STACK_SIZE
  apart : L.start_at + 4 ≤ L.i_at ∨ L.i_at + 4 ≤ L.start_at

/-- The `for` loop of `foo` from the evaluation of its condition `i < 5`, the
locals `start` and `i` being read from and written to the frame of `foo` on the
shared stack each time they are used.  The loop is unrolled: `fuel` bounds the
number of evaluations of the condition. -/
def foo_loop (L : Layout) : Nat → Prog
  | 0 => .ret
  | fuel + 1 =>
    .load_int L.i_at fun i =>
      if i < 5 then
        .running fun r => .load_int L.start_at fun s => .load_int L.i_at fun i1 =>
          if s + i1 > INT_MAX ∨ s + i1 < -INT_MAX - 1 then .overflow
          else
            .print r (s + i1) (.yield L.frame (.load_int L.i_at fun i2 =>
              if i2 + 1 > INT_MAX then .overflow
              else .store_int L.i_at (i2 + 1) (foo_loop L fuel)))
      else .ret

/-- What `foo` does after `coroutine_yield` returns: `i++`, then the loop. -/
def foo_after (L : Layout) (fuel : Nat) : Prog :=
  .load_int L.i_at fun i2 =>
    if i2 + 1 > INT_MAX then .overflow else .store_int L.i_at (i2 + 1) (foo_loop L fuel)

/-- The body `foo` applied to `struct args {n}`, `n` being an `int`:
`int start = arg->n`, then the loop from `i = 0`, unrolled `unroll` times. -/
def foo (L : Layout) (unroll : Nat) (n : Int) : Prog :=
  .store_int L.start_at n (.store_int L.i_at 0 (foo_loop L unroll))

/-- The `while` loop of `test`, run for at most `fuel` iterations; `none` when
the fuel ran out before the loop ended. -/
def test_loop (co1 co2 : Int) : Nat → schedule → Output → Except Fault (Option (schedule × Output))
  | 0, _, _ => .ok none
  | fuel + 1, S, out =>
    match coroutine_status S co1 with
    | .error e => .error e
    | .ok s1 =>
      if s1 = 0 then .ok (some (S, out))
      else
        match coroutine_status S co2 with
        | .error e => .error e
        | .ok s2 =>
          if s2 = 0 then .ok (some (S, out))
          else
            match coroutine_resume S co1 out with
            | .error e => .error e
            | .ok (S1, out1) =>
              match coroutine_resume S1 co2 out1 with
              | .error e => .error e
              | .ok (S2, out2) => test_loop co1 co2 fuel S2 out2

/-- The function `test` of `main.c`; `L` and `unroll` are the layout and the
unrolling of `foo`, `fuel` bounds the evaluations of the loop condition. -/
def test (L : Layout) (unroll : Nat) (fuel : Nat) (S : schedule) :
    Except Fault (Option (schedule × Output)) :=
  match coroutine_new S (foo L unroll 0) with
  | .error e => .error e
  | .ok (co1, S1) =>
    match coroutine_new S1 (foo L unroll 100) with
    | .error e => .error e
    | .ok (co2, S2) =>
      match test_loop co1 co2 fuel S2 [Line.main_start] with
      | .error e => .error e
      | .ok none => .ok none
      | .ok (some (S3, out)) => .ok (some (S3, out ++ [Line.main_end]))


/-! ## Reachable states and the scheduler invariant -/

/-- The steps that change a scheduler: `coroutine_new` returning `id`, the
switch of `coroutine_resume` into coroutine `id`, `coroutine_yield` by the
running coroutine `id`, the return of the body of the running coroutine `id`
into `mainfunc`, and a write of the running code to the shared stack. -/
inductive Event where
  | new (id : Int)
  | resume (id : Int)
  | yield (id : Int)
  | complete (id : Int)
  | write
  deriving DecidableEq, Repr

/-- The scheduler `S` is what `coroutine_open` followed by the steps `tr`
(latest first) produces. -/
inductive Run : List Event → schedule → Prop
  | open (mem : Int → Byte) : Run [] (coroutine_open mem)
  | new {tr : List Event} {S : schedule} (func : Prog) (id : Int) (S1 : schedule) :
      Run tr S → coroutine_new S func = .ok (id, S1) → Run (Event.new id :: tr) S1
  | resume {tr : List Event} {S : schedule} (id : Int) (k : Prog) (S1 : schedule) :
      Run tr S → resume_enter S id = .ok (some (k, S1)) → Run (Event.resume id :: tr) S1
  | yield {tr : List Event} {S : schedule} (n : Int) (k : Prog) (S1 : schedule) :
      Run tr S → coroutine_yield S n k = .ok S1 → Run (Event.yield S.running :: tr) S1
  | complete {tr : List Event} {S : schedule} (S1 : schedule) :
      Run tr S → 0 ≤ S.running → mainfunc_return S S.running = .ok S1 →
      Run (Event.complete S.running :: tr) S1
  | write {tr : List Event} {S : schedule} (stk : Int → Byte) :
      Run tr S → Run (Event.write :: tr) { S with stack := stk }

/-- Scheduler states the program can be in: the result of `coroutine_open`
followed by any sequence of `coroutine_new`, switches into a coroutine by
`coroutine_resume`, `coroutine_yield` by the running coroutine, return of the
running body into `mainfunc`, and writes to the shared stack. -/
def Reachable (S : schedule) : Prop := ∃ tr, Run tr S

/-- Whether, after the steps `tr` (latest first), the latest `coroutine_new`
that returned `id` has not been followed by the return of that body. -/
def alive : List Event → Int → Bool
  | [], _ => false
  | Event.new j :: tr, id => if j = id then true else alive tr id
  | Event.complete j :: tr, id => if j = id then false else alive tr id
  | _ :: tr, id => alive tr id

/-- The number of non-`NULL` entries of the slot table. -/
def occupied (S : schedule) : Nat := S.co.countP Option.isSome

/-- The facts that hold of every reachable scheduler. -/
structure Inv (S : schedule) : Prop where
  len : (S.co.length : Int) = S.cap
  cnt : S.nco = (occupied S : Int)
  st : ∀ (i : Nat) (C : coroutine), S.co[i]? = some (some C) →
    C.status = COROUTINE_READY ∨ C.status = COROUTINE_RUNNING ∨ C.status = COROUTINE_SUSPEND
  run : ∀ (i : Nat) (C : coroutine), S.co[i]? = some (some C) →
    (C.status = COROUTINE_RUNNING ↔ S.running = (i : Int))
  cur : S.running = -1 ∨ (0 ≤ S.running ∧ ∃ C, S.co[S.running.toNat]? = some (some C))
  susp : ∀ (i : Nat) (C : coroutine), S.co[i]? = some (some C) → C.status = COROUTINE_SUSPEND →
    (∃ k, C.ctx = some k) ∧ 0 ≤ C.size ∧ C.size ≤ STACK_SIZE ∧ C.size ≤ (C.stack.length : Int)
  pow : ∃ k : Nat, S.cap = 16 * 2 ^ k
  top : S.cap ≤ INT_MAX
  buf : ∀ (i : Nat) (C : coroutine), S.co[i]? = some (some C) → C.cap = (C.stack.length : Int)

/-! ## Concrete schedulers used to instantiate the theorems -/

/-- A shared stack of zero bytes. -/
def demo_mem : Int → Byte := fun _ => 0

/-- A layout of `foo`: a footprint of 64 bytes at its yields, `start` 20 bytes
and `i` 24 bytes below the top of the shared stack. -/
def demo_frame : Layout := ⟨64, STACK_SIZE - 20, STACK_SIZE - 24⟩

/-- The body `foo` in the layout `demo_frame`, its loop unrolled six times. -/
def demo_foo (n : Int) : Prog := foo demo_frame 6 n

/-- The fresh scheduler after `coroutine_new(S, foo, {0})`. -/
def demo_S1 : schedule :=
  { stack := demo_mem, nco := 1, cap := 16, running := -1,
    co := some (_co_new (demo_foo 0)) :: List.replicate 15 none }

/-- The scheduler `demo_S1` after `coroutine_new(S, foo, {100})`. -/
def demo_S2 : schedule :=
  { stack := demo_mem, nco := 2, cap := 16, running := -1,
    co := some (_co_new (demo_foo 0)) :: some (_co_new (demo_foo 100)) :: List.replicate 14 none }

/-- The scheduler `demo_S2` at the switch of `coroutine_resume(S, 0)`. -/
def demo_S3 : schedule :=
  { stack := demo_mem, nco := 2, cap := 16, running := 0,
    co := some { _co_new (demo_foo 0) with ctx := some (demo_foo 0), status := COROUTINE_RUNNING }
      :: some (_co_new (demo_foo 100)) :: List.replicate 14 none }


/-- Calling `coroutine_new(S, func, ud)` `n` times in a row; the ids returned,
in order, and the final scheduler. -/
def spawn_n (func : Prog) : Nat → schedule → Except Fault (List Int × schedule)
  | 0, S => .ok ([], S)
  | n + 1, S =>
    match coroutine_new S func with
    | .error e => .error e
    | .ok (id, S1) =>
      match spawn_n func n S1 with
      | .error e => .error e
      | .ok (ids, S2) => .ok (id :: ids, S2)

/-- The fresh scheduler after sixteen calls of `coroutine_new`. -/
def demo_S16 : schedule :=
  { stack := demo_mem, nco := 16, cap := 16, running := -1,
    co := List.replicate 16 (some (_co_new Prog.ret)) }

/-- A fresh scheduler after `coroutine_new` of a body that returns at once (id
0) and of `foo` (id 1), and `coroutine_resume(S, 0)`: slot 0 is free again. -/
def demo_S5 : schedule :=
  { stack := demo_mem, nco := 1, cap := 16, running := -1,
    co := none :: some (_co_new (demo_foo 100)) :: List.replicate 14 none }

/-! ## Scenarios -/

/-- The caller resuming `co1` then `co2`, `rounds` times. -/
def alternate (co1 co2 : Int) : Nat → schedule → Output → Except Fault (schedule × Output)
  | 0, S, out => .ok (S, out)
  | rounds + 1, S, out =>
    match coroutine_resume S co1 out with
    | .error e => .error e
    | .ok (S1, out1) =>
      match coroutine_resume S1 co2 out1 with
      | .error e => .error e
      | .ok (S2, out2) => alternate co1 co2 rounds S2 out2

/-- The part of a run that can be compared by evaluation: the lines printed,
`S->running`, `S->cap`, `S->nco`, and for every slot of the table the status of
its occupant (`none` for an empty slot). -/
structure Observation where
  out : Output
  running : Int
  cap : Int
  nco : Int
  slots : List (Option Int)
  deriving DecidableEq, Repr

/-- The observation after a run, `none` if the run did not return. -/
def observe (r : Except Fault (schedule × Output)) : Option Observation :=
  match r with
  | .error _ => none
  | .ok (S, out) =>
    some { out := out, running := coroutine_running S, cap := S.cap, nco := S.nco,
           slots := S.co.map (Option.map coroutine.status) }

/-- The loop of a body that keeps a one-byte counter in its stack frame at
offset `off`: read it, print it, increment it, yield; `fuel` rounds. -/
def counter_loop (off frame : Int) : Nat → Prog
  | 0 => .ret
  | fuel + 1 =>
    .load off fun c => .running fun r => .print r (c.val : Int)
      (.store off (c + 1) (.yield frame (counter_loop off frame fuel)))

/-- A body with a private counter on its stack, initialised to `start` and
printed and incremented before each of five yields. -/
def counter_body (off frame : Int) (start : Byte) : Prog :=
  .store off start (counter_loop off frame 5)

/-- The fresh scheduler after spawning two counter bodies, starting at 0 and
at 100, whose counters live at the same offset of the shared stack. -/
def demo_counters : schedule :=
  { stack := demo_mem, nco := 2, cap := 16, running := -1,
    co := some (_co_new (counter_body (STACK_SIZE - 8) 64 0))
      :: some (_co_new (counter_body (STACK_SIZE - 8) 64 100)) :: List.replicate 14 none }

/-- The lines `0, 100, 1, 101, ..., 4, 104`, tagged alternately with the ids 0
and 1. -/
def demo_lines : Output :=
  [Line.coroutine 0 0, Line.coroutine 1 100, Line.coroutine 0 1, Line.coroutine 1 101,
   Line.coroutine 0 2, Line.coroutine 1 102, Line.coroutine 0 3, Line.coroutine 1 103,
   Line.coroutine 0 4, Line.coroutine 1 104]

/-- A stretch of body, up to its next `coroutine_yield` or its return, that
stays within the shared stack and calls nothing of the scheduler but
`coroutine_running` and a final `coroutine_yield` with a footprint inside the
shared stack: it cannot fail and it spawns nothing. -/
def Prog.quiet : Prog → Prop
  | .ret => True
  | .yield n _ => 0 ≤ n ∧ n ≤ STACK_SIZE
  | .running k => ∀ r, (k r).quiet
  | .status _ _ => False
  | .print _ _ k => k.quiet
  | .new _ _ => False
  | .store off _ k => (0 ≤ off ∧ off < STACK_SIZE) ∧ k.quiet
  | .load off k => (0 ≤ off ∧ off < STACK_SIZE) ∧ ∀ b, (k b).quiet
  | .overflow => False

/-- A stretch of body, up to its next `coroutine_yield` or its return, that
does not call `coroutine_new`. -/
def Prog.no_new : Prog → Prop
  | .ret => True
  | .yield _ _ => True
  | .running k => ∀ r, (k r).no_new
  | .status _ k => ∀ v, (k v).no_new
  | .print _ _ k => k.no_new
  | .new _ _ => False
  | .store _ _ k => k.no_new
  | .load _ k => ∀ b, (k b).no_new
  | .overflow => True

/-- A body that spawns a coroutine and returns. -/
def spawner : Prog := .new .ret fun _ => .ret

/-- The fresh scheduler after `coroutine_new` of the body `spawner`. -/
def demo_spawner : schedule :=
  { stack := demo_mem, nco := 1, cap := 16, running := -1,
    co := some (_co_new spawner) :: List.replicate 15 none }

/-- The scheduler `demo_spawner` when `coroutine_resume(S, 0)` has returned. -/
def demo_spawned : schedule :=
  { stack := demo_mem, nco := 1, cap := 16, running := -1,
    co := none :: some (_co_new Prog.ret) :: List.replicate 14 none }

/-- From scheduler `S` the coroutines `a` and `b`, and no others, run: any
sequence of switches of `coroutine_resume` into `a` or `b`, of
`coroutine_yield`, of returns of the running body into `mainfunc`, and of
writes to the shared stack leads from `S` to the second scheduler. -/
inductive RunOf (a b : Int) : schedule → schedule → Prop
  | start (S : schedule) : RunOf a b S S
  | resume {S S1 : schedule} (id : Int) (k : Prog) (S2 : schedule) :
      RunOf a b S S1 → id = a ∨ id = b → resume_enter S1 id = .ok (some (k, S2)) →
      RunOf a b S S2
  | yield {S S1 : schedule} (n : Int) (k : Prog) (S2 : schedule) :
      RunOf a b S S1 → coroutine_yield S1 n k = .ok S2 → RunOf a b S S2
  | complete {S S1 : schedule} (S2 : schedule) :
      RunOf a b S S1 → 0 ≤ S1.running → mainfunc_return S1 S1.running = .ok S2 →
      RunOf a b S S2
  | write {S S1 : schedule} (stk : Int → Byte) :
      RunOf a b S S1 → RunOf a b S { S1 with stack := stk }

/-- The fresh scheduler after one `coroutine_new` of a body that returns at
once. -/
def demo_R1 : schedule :=
  { stack := demo_mem, nco := 1, cap := 16, running := -1,
    co := some (_co_new Prog.ret) :: List.replicate 15 none }

/-- The scheduler `demo_R1` after a second such `coroutine_new`. -/
def demo_R2 : schedule :=
  { stack := demo_mem, nco := 2, cap := 16, running := -1,
    co := some (_co_new Prog.ret) :: some (_co_new Prog.ret) :: List.replicate 14 none }

/-! ## The pointer handed to the trampoline -/

/-- The argument `(uint32_t)ptr` that `coroutine_resume` gives `makecontext`. -/
def resume_low32 (ptr : Nat) : Nat := ptr % 2 ^ 32

/-- The argument `(uint32_t)(ptr>>32)` that `coroutine_resume` gives
`makecontext`. -/
def resume_hi32 (ptr : Nat) : Nat := (ptr >>> 32) % 2 ^ 32

/-- The value `(uintptr_t)low32 | ((uintptr_t)hi32 << 32)` that `mainfunc`
computes, `uintptr_t` being 64 bits wide. -/
def mainfunc_ptr (low32 hi32 : Nat) : Nat := low32 ||| ((hi32 <<< 32) % 2 ^ 64)

/-! ## Successive yields of one coroutine -/

/-- The calls of `_save_stack` at successive yields of one coroutine; each
entry is the footprint of a yield and the shared stack at that moment. -/
def save_stack_seq (C : coroutine) : List (Int × (Int → Byte)) → Except Fault coroutine
  | [] => .ok C
  | (n, stk) :: rest =>
    match _save_stack stk C n with
    | .error e => .error e
    | .ok C1 => save_stack_seq C1 rest

/-! ## The demo driver -/

/-- A coroutine suspended in the `coroutine_yield` of `foo`: its saved stack
holds the value `start` in the local `start` and the value `i` in the local
`i`, and `fuel` further evaluations of the loop condition are unrolled. -/
structure parked (C : coroutine) (L : Layout) (fuel : Nat) (start i : Int) : Prop where
  status : C.status = COROUTINE_SUSPEND
  ctx : C.ctx = some (foo_after L fuel)
  size : C.size = L.frame
  start_saved : ∀ stk : Int → Byte, read_int (restore_stack stk C) L.start_at = start
  i_saved : ∀ stk : Int → Byte, read_int (restore_stack stk C) L.i_at = i

/-- The lines that `rounds` rounds of the loop of `test` print, from counter
value `i` on: `i`, `100 + i`, `i + 1`, `100 + i + 1`, ... -/
def rounds_lines : Nat → Int → Output
  | 0, _ => []
  | rounds + 1, i =>
    Line.coroutine 0 (0 + i) :: Line.coroutine 1 (100 + i) :: rounds_lines rounds (i + 1)

/-- The scheduler of `test` between two rounds of its loop: both coroutines
are suspended in `foo` with the value `i` in their local `i`. -/
structure Stage (L : Layout) (fuel : Nat) (i : Int) (S : schedule) : Prop where
  inv : Inv S
  idle : S.running = -1
  cap : S.cap = 16
  co1 : ∃ C, co_at S 0 = .ok (some C) ∧ parked C L fuel 0 i
  co2 : ∃ C, co_at S 1 = .ok (some C) ∧ parked C L fuel 100 i

/-- The scheduler of `test` after its two calls of `coroutine_new`: slot 0
holds `foo` with `{0}` and slot 1 holds `foo` with `{100}`, both `READY`. -/
structure Spawned (L : Layout) (unroll : Nat) (S : schedule) : Prop where
  inv : Inv S
  idle : S.running = -1
  cap : S.cap = 16
  co1 : ∃ C, co_at S 0 = .ok (some C) ∧ C.status = COROUTINE_READY ∧ C.func = foo L unroll 0
  co2 : ∃ C, co_at S 1 = .ok (some C) ∧ C.status = COROUTINE_READY ∧ C.func = foo L unroll 100

/-! ## The stack that `coroutine_yield` needs for itself -/

/-- The call `coroutine_yield(S)` on a machine where the frame of `_save_stack`
below its local `dummy`, and the frames of the functions called from there
(`free`, `malloc`, `memcpy`, and `swapcontext` in `coroutine_yield`), take
`room` bytes.  These frames lie on the shared stack too, the lowest of their
bytes at offset `STACK_SIZE - n - room`.  The assertion of `_save_stack` only
checks that `dummy` itself lies within `S->stack`; when that lowest offset is
below 0 the callees write below the array, which is undefined as any other
access outside it. -/
def coroutine_yield_room (room : Int) (S : schedule) (n : Int) (k : Prog) :
    Except Fault schedule :=
  match coroutine_yield S n k with
  | .error e => .error e
  | .ok S1 => if 0 ≤ STACK_SIZE - n - room then .ok S1 else .error .undefined

/-! ## The scheduler a call leaves behind -/

/-- How a call ends, with the scheduler that is in memory at that moment: the
call returned `v`; a failed `assert` called `abort`; or the behaviour was
undefined, and nothing is known of the memory. -/
inductive Ended (α : Type) where
  | returned (S : schedule) (v : α)
  | aborted (S : schedule)
  | undefined

/-- The end of a call as the result that the functions without `_traced`
give. -/
def Ended.result {α : Type} : Ended α → Except Fault (schedule × α)
  | .returned S v => .ok (S, v)
  | .aborted _ => .error .assertion
  | .undefined => .error .undefined

/-- The function `coroutine_status`, with the scheduler it leaves. -/
def coroutine_status_traced (S : schedule) (id : Int) : Ended Int :=
  if ¬ (id ≥ 0 ∧ id < S.cap) then .aborted S
  else
    match co_at S id with
    | .error _ => .undefined
    | .ok none => .returned S COROUTINE_DEAD
    | .ok (some C) => .returned S C.status

/-- The function `coroutine_resume` up to its `return` at the `NULL` check
(value `none`), to its `swapcontext` (value the context switched to), or to a
failed assertion, with the scheduler in memory at that point.  In the two
cases of the `switch` the writes are those to `C->ctx`, `S->running`,
`C->status` and, by `memcpy`, to `S->stack`; the `default` case writes
nothing before its `assert(0)`. -/
def resume_enter_traced (S : schedule) (id : Int) : Ended (Option Prog) :=
  if S.running ≠ -1 then .aborted S
  else if ¬ (id ≥ 0 ∧ id < S.cap) then .aborted S
  else
    match co_at S id with
    | .error _ => .undefined
    | .ok none => .returned S none
    | .ok (some C) =>
      if C.status = COROUTINE_READY then
        let C1 := { C with ctx := some C.func, status := COROUTINE_RUNNING }
        .returned { S with running := id, co := co_set S id (some C1) } (some C.func)
      else if C.status = COROUTINE_SUSPEND then
        if C.size < 0 ∨ C.size > STACK_SIZE ∨ (C.stack.length : Int) < C.size then .undefined
        else
          match C.ctx with
          | none => .undefined
          | some k =>
            let C1 := { C with status := COROUTINE_RUNNING }
            .returned { S with stack := restore_stack S.stack C, running := id,
                               co := co_set S id (some C1) } (some k)
      else .aborted S

/-- The function `coroutine_yield` up to its `swapcontext`, with the scheduler
in memory at that point.  Its assertions, and the one of `_save_stack`, which
is the first statement of that function after `dummy = 0`, stand before the
first write to the scheduler. -/
def coroutine_yield_traced (S : schedule) (n : Int) (k : Prog) : Ended Unit :=
  let id := S.running
  if ¬ (id ≥ 0) then .aborted S
  else
    match co_at S id with
    | .error _ => .undefined
    | .ok none => .undefined
    | .ok (some C) =>
      match _save_stack S.stack C n with
      | .error .assertion => .aborted S
      | .error .undefined => .undefined
      | .ok C1 =>
        let C2 := { C1 with status := COROUTINE_SUSPEND, ctx := some k }
        .returned { S with running := -1, co := co_set S id (some C2) } ()
/-! ## Lemmas -/

theorem co_at_ok_iff (S : schedule) (id : Int) (v : Option coroutine) :
    co_at S id = .ok v ↔ 0 ≤ id ∧ id < S.co.length ∧ S.co[id.toNat]? = some v := by
  unfold co_at
  constructor
  · intro h
    split at h
    · rename_i hb
      have hlt : id.toNat < S.co.length := by omega
      refine ⟨hb.1, hb.2, ?_⟩
      simp only [List.getD_eq_getElem?_getD, List.getElem?_eq_getElem hlt, Option.getD_some,
        Except.ok.injEq] at h
      rw [List.getElem?_eq_getElem hlt, h]
    · cases h
  · rintro ⟨h0, h1, h2⟩
    rw [if_pos ⟨h0, h1⟩, List.getD_eq_getElem?_getD, h2]
    rfl

theorem co_at_error_iff (S : schedule) (id : Int) (e : Fault) :
    co_at S id = .error e ↔ e = .undefined ∧ ¬ (0 ≤ id ∧ id < S.co.length) := by
  unfold co_at
  split
  · simp_all
  · simp_all [eq_comm]

theorem Inv_open (mem : Int → Byte) : Inv (coroutine_open mem) := by
  refine ⟨by simp [coroutine_open, DEFAULT_COROUTINE], by simp [coroutine_open, occupied, List.countP_replicate], ?_, ?_, Or.inl rfl, ?_, ⟨0, by simp [coroutine_open, DEFAULT_COROUTINE]⟩, by simp [coroutine_open, DEFAULT_COROUTINE, INT_MAX], ?_⟩
  all_goals
    intro i C h
    simp [coroutine_open, List.getElem?_replicate] at h
theorem scan_of_first (S : schedule) (co : coroutine) :
    ∀ (fuel : Nat) (i : Int) (j : Nat), j < fuel → 0 ≤ i →
      i + j + S.nco ≤ INT_MAX → S.nco < INT_MAX →
      co_at S ((i + j + S.nco).tmod S.cap) = .ok none →
      (∀ j1 : Nat, j1 < j → ∃ C, co_at S ((i + j1 + S.nco).tmod S.cap) = .ok (some C)) →
      coroutine_new_scan S co fuel i =
        .ok ((i + j + S.nco).tmod S.cap,
          { S with co := co_set S ((i + j + S.nco).tmod S.cap) (some co), nco := S.nco + 1 }) := by
  intro fuel
  induction fuel with
  | zero => intro i j hj; omega
  | succ fuel ih =>
    intro i j hj hi hb hn hfree hocc
    unfold coroutine_new_scan
    rw [if_neg (by omega)]
    cases j with
    | zero =>
      simp only [Nat.cast_zero, add_zero] at hfree ⊢
      simp only [hfree]
    | succ j =>
      obtain ⟨C, hC⟩ := hocc 0 (Nat.succ_pos j)
      simp only [Nat.cast_zero, add_zero] at hC
      simp only [hC]
      have e : ∀ m : Nat, i + 1 + (m : Int) = i + ((m + 1 : Nat) : Int) := by
        intro m; push_cast; ring
      have := ih (i + 1) j (by omega) (by omega) (by rw [e]; exact hb) hn
        (by rw [e]; exact hfree) (fun j1 hj1 => by rw [e]; exact hocc (j1 + 1) (by omega))
      rw [this, e]

theorem scan_ok (S : schedule) (co : coroutine) :
    ∀ (fuel : Nat) (i : Int) (id : Int) (S1 : schedule),
      coroutine_new_scan S co fuel i = .ok (id, S1) →
      ∃ j : Nat, j < fuel ∧ id = (i + j + S.nco).tmod S.cap ∧ co_at S id = .ok none ∧
        S1 = { S with co := co_set S id (some co), nco := S.nco + 1 } ∧
        ∀ j1 : Nat, j1 < j → ∃ C, co_at S ((i + j1 + S.nco).tmod S.cap) = .ok (some C) := by
  intro fuel
  induction fuel with
  | zero => intro i id S1 h; simp [coroutine_new_scan] at h
  | succ fuel ih =>
    intro i id S1 h
    unfold coroutine_new_scan at h
    split at h
    · cases h
    simp only at h
    split at h
    · cases h
    · rename_i hfree
      simp only [Except.ok.injEq, Prod.mk.injEq] at h
      refine ⟨0, by omega, by simpa using h.1.symm, by rw [← h.1]; exact hfree, ?_, ?_⟩
      · rw [← h.1]; exact h.2.symm
      · intro j1 hj1; omega
    · rename_i C hC
      obtain ⟨j, hj, hid, hfree, hS1, hocc⟩ := ih (i + 1) id S1 h
      have e : ∀ m : Nat, i + 1 + (m : Int) = i + ((m + 1 : Nat) : Int) := by
        intro m; push_cast; ring
      refine ⟨j + 1, by omega, by rw [← e]; exact hid, hfree, hS1, ?_⟩
      intro j1 hj1
      cases j1 with
      | zero => exact ⟨C, by simpa using hC⟩
      | succ j1 =>
        rw [← e]
        exact hocc j1 (by omega)

theorem countP_set_fill (l : List (Option coroutine)) (i : Nat) (c : coroutine)
    (h : l[i]? = some none) :
    (l.set i (some c)).countP Option.isSome = l.countP Option.isSome + 1 := by
  obtain ⟨hlt, hget⟩ := List.getElem?_eq_some_iff.mp h
  rw [List.countP_set _ _ _ _ hlt, hget]
  simp

theorem countP_set_clear (l : List (Option coroutine)) (i : Nat) (c : coroutine)
    (h : l[i]? = some (some c)) :
    (l.set i none).countP Option.isSome + 1 = l.countP Option.isSome := by
  obtain ⟨hlt, hget⟩ := List.getElem?_eq_some_iff.mp h
  have hpos : 0 < l.countP Option.isSome :=
    List.countP_pos_iff.mpr ⟨some c, hget ▸ List.getElem_mem hlt, rfl⟩
  rw [List.countP_set _ _ _ _ hlt, hget]
  simp
  omega

theorem countP_set_keep (l : List (Option coroutine)) (i : Nat) (c d : coroutine)
    (h : l[i]? = some (some c)) :
    (l.set i (some d)).countP Option.isSome = l.countP Option.isSome := by
  obtain ⟨hlt, hget⟩ := List.getElem?_eq_some_iff.mp h
  have hpos : 0 < l.countP Option.isSome :=
    List.countP_pos_iff.mpr ⟨some c, hget ▸ List.getElem_mem hlt, rfl⟩
  rw [List.countP_set _ _ _ _ hlt, hget]
  simp
  omega

theorem occupied_le (S : schedule) : occupied S ≤ S.co.length := List.countP_le_length _
theorem Inv.running_lt {S : schedule} (h : Inv S) : S.running < S.cap := by
  rcases h.cur with h1 | ⟨h0, C, hC⟩
  · have := h.len
    have : (0 : Int) ≤ S.co.length := Int.natCast_nonneg _
    omega
  · obtain ⟨hlt, -⟩ := List.getElem?_eq_some_iff.mp hC
    have := h.len
    omega

theorem Inv.cap_pos {S : schedule} (h : Inv S) : 0 < S.cap := by
  obtain ⟨k, hk⟩ := h.pow
  rw [hk]; positivity

theorem Inv.cap_le {S : schedule} (h : Inv S) : S.cap ≤ 2 ^ 30 := by
  obtain ⟨k, hk⟩ := h.pow
  have htop := h.top
  rcases Nat.lt_or_ge k 27 with hlt | hge
  · have : (2 : Int) ^ k ≤ 2 ^ 26 := pow_le_pow_right₀ (by norm_num) (by omega)
    rw [hk]
    norm_num at this ⊢
    omega
  · have : (2 : Int) ^ 27 ≤ 2 ^ k := pow_le_pow_right₀ (by norm_num) hge
    simp only [INT_MAX] at htop
    norm_num at this
    omega

/-- Filling an empty slot with a fresh coroutine keeps the invariant. -/
theorem Inv_fill {S : schedule} (h : Inv S) (id : Int) (func : Prog)
    (hfree : co_at S id = .ok none) :
    Inv { S with co := co_set S id (some (_co_new func)), nco := S.nco + 1 } := by
  obtain ⟨h0, h1, hget⟩ := (co_at_ok_iff S id none).mp hfree
  have hne : S.running ≠ id := by
    rcases h.cur with hr | ⟨hr0, C, hC⟩
    · omega
    · intro e; rw [e, hget] at hC; cases hC
  have key : ∀ (i : Nat) (C : coroutine), (co_set S id (some (_co_new func)))[i]? = some (some C) →
      (i = id.toNat ∧ C = _co_new func) ∨ (i ≠ id.toNat ∧ S.co[i]? = some (some C)) := by
    intro i C hi
    unfold co_set at hi
    rw [List.getElem?_set] at hi
    by_cases e : id.toNat = i
    · rw [if_pos e] at hi
      split at hi
      · left; exact ⟨e.symm, by simpa using hi.symm⟩
      · cases hi
    · rw [if_neg e] at hi
      right; exact ⟨fun e1 => e e1.symm, hi⟩
  refine ⟨?_, ?_, ?_, ?_, ?_, ?_, h.pow, h.top, ?_⟩
  · simpa [co_set] using h.len
  · simp only [occupied, co_set]
    rw [countP_set_fill _ _ _ hget, h.cnt]
    simp [occupied]
  · intro i C hi
    rcases key i C hi with ⟨-, rfl⟩ | ⟨-, hC⟩
    · left; rfl
    · exact h.st i C hC
  · intro i C hi
    rcases key i C hi with ⟨rfl, rfl⟩ | ⟨-, hC⟩
    · simp only [_co_new, COROUTINE_READY, COROUTINE_RUNNING]
      constructor
      · intro e; omega
      · intro e; exfalso; apply hne; simp only at e; omega
    · exact h.run i C hC
  · rcases h.cur with hr | ⟨hr0, C, hC⟩
    · left; exact hr
    · right
      refine ⟨hr0, C, ?_⟩
      simp only [co_set]
      rw [List.getElem?_set, if_neg]
      · exact hC
      · intro e; apply hne; omega
  · intro i C hi hs
    rcases key i C hi with ⟨-, rfl⟩ | ⟨-, hC⟩
    · simp [_co_new, COROUTINE_READY, COROUTINE_SUSPEND] at hs
    · exact h.susp i C hC hs
  · intro i C hi
    rcases key i C hi with ⟨-, rfl⟩ | ⟨-, hC⟩
    · rfl
    · exact h.buf i C hC
/-- The table after `realloc` and `memset`: the old entries, then as many
empty ones. -/
theorem grown_getElem? (l : List (Option coroutine)) (i : Nat) :
    (l.take l.length ++ List.replicate l.length none)[i]? =
      if i < l.length then l[i]? else if i < 2 * l.length then some none else none := by
  rw [List.take_length]
  by_cases h : i < l.length
  · rw [if_pos h, List.getElem?_append_left h]
  · rw [if_neg h, List.getElem?_append_right (by omega), List.getElem?_replicate]
    by_cases h2 : i < 2 * l.length
    · rw [if_pos h2, if_pos (by omega)]
    · rw [if_neg h2, if_neg (by omega)]

/-- Doubling a full table and putting a fresh coroutine in the first new slot
keeps the invariant. -/
theorem Inv_grow {S : schedule} (h : Inv S) (func : Prog) (hfit : S.cap * 2 ≤ INT_MAX) :
    Inv { S with co := (S.co.take S.cap.toNat ++ List.replicate S.cap.toNat none).set S.cap.toNat
                          (some (_co_new func)),
                 cap := S.cap * 2, nco := S.nco + 1 } := by
  have hlen := h.len
  have hc : S.cap.toNat = S.co.length := by omega
  rw [hc]
  have hne : S.running ≠ (S.co.length : Int) := by
    have := h.running_lt; omega
  have hfree : (S.co.take S.co.length ++ List.replicate S.co.length none)[S.co.length]? = some none := by
    rw [grown_getElem?, if_neg (lt_irrefl _), if_pos]
    have := h.cap_pos; omega
  have key : ∀ (i : Nat) (C : coroutine),
      ((S.co.take S.co.length ++ List.replicate S.co.length none).set S.co.length
          (some (_co_new func)))[i]? = some (some C) →
      (i = S.co.length ∧ C = _co_new func) ∨ (i < S.co.length ∧ S.co[i]? = some (some C)) := by
    intro i C hi
    rw [List.getElem?_set] at hi
    by_cases e : S.co.length = i
    · rw [if_pos e] at hi
      split at hi
      · left; exact ⟨e.symm, by simpa using hi.symm⟩
      · cases hi
    · rw [if_neg e, grown_getElem?] at hi
      split at hi
      · rename_i hlt; right; exact ⟨hlt, hi⟩
      · split at hi <;> cases hi
  refine ⟨?_, ?_, ?_, ?_, ?_, ?_, ?_, hfit, ?_⟩
  · simp only [List.length_set, List.length_append, List.length_take, List.length_replicate,
      min_self]
    push_cast; omega
  · simp only [occupied]
    rw [countP_set_fill _ _ _ hfree, List.take_length, List.countP_append, h.cnt]
    simp [occupied, List.countP_replicate]
  · intro i C hi
    rcases key i C hi with ⟨-, rfl⟩ | ⟨-, hC⟩
    · left; rfl
    · exact h.st i C hC
  · intro i C hi
    rcases key i C hi with ⟨rfl, rfl⟩ | ⟨-, hC⟩
    · simp only [_co_new, COROUTINE_READY, COROUTINE_RUNNING]
      constructor
      · intro e; omega
      · intro e; exact absurd e hne
    · exact h.run i C hC
  · rcases h.cur with hr | ⟨hr0, C, hC⟩
    · left; exact hr
    · right
      refine ⟨hr0, C, ?_⟩
      obtain ⟨hlt, -⟩ := List.getElem?_eq_some_iff.mp hC
      simp only
      rw [List.getElem?_set, if_neg (by omega), grown_getElem?, if_pos hlt]
      exact hC
  · intro i C hi hs
    rcases key i C hi with ⟨-, rfl⟩ | ⟨-, hC⟩
    · simp [_co_new, COROUTINE_READY, COROUTINE_SUSPEND] at hs
    · exact h.susp i C hC hs
  · obtain ⟨k, hk⟩ := h.pow
    exact ⟨k + 1, by simp only [hk]; ring⟩
  · intro i C hi
    rcases key i C hi with ⟨-, rfl⟩ | ⟨-, hC⟩
    · rfl
    · exact h.buf i C hC

theorem Inv_new {S : schedule} (h : Inv S) (func : Prog) (id : Int) (S1 : schedule)
    (hnew : coroutine_new S func = .ok (id, S1)) : Inv S1 := by
  unfold coroutine_new at hnew
  simp only at hnew
  split at hnew
  · split at hnew
    · cases hnew
    · rename_i hg
      simp only [Except.ok.injEq, Prod.mk.injEq] at hnew
      rw [← hnew.2]
      exact Inv_grow h func (by omega)
  · obtain ⟨j, -, -, hfree, hS1, -⟩ := scan_ok S _ _ _ _ _ hnew
    rw [hS1]
    exact Inv_fill h id func hfree
theorem set_some_cases (l : List (Option coroutine)) (i j : Nat) (D X : coroutine)
    (h : (l.set i (some D))[j]? = some (some X)) :
    (j = i ∧ X = D) ∨ (j ≠ i ∧ l[j]? = some (some X)) := by
  rw [List.getElem?_set] at h
  by_cases e : i = j
  · rw [if_pos e] at h
    split at h
    · left; exact ⟨e.symm, by simpa using h.symm⟩
    · cases h
  · rw [if_neg e] at h
    right; exact ⟨fun e1 => e e1.symm, h⟩

/-- What `coroutine_resume` has done when it reaches its `swapcontext`. -/
theorem resume_enter_ok {S : schedule} {id : Int} {k : Prog} {S1 : schedule}
    (h : resume_enter S id = .ok (some (k, S1))) :
    S.running = -1 ∧ 0 ≤ id ∧ id < S.cap ∧ ∃ C, co_at S id = .ok (some C) ∧
      ((C.status = COROUTINE_READY ∧ k = C.func ∧
          S1 = { S with running := id,
                        co := co_set S id (some { C with ctx := some C.func,
                                                         status := COROUTINE_RUNNING }) }) ∨
       (C.status = COROUTINE_SUSPEND ∧ C.ctx = some k ∧ 0 ≤ C.size ∧ C.size ≤ STACK_SIZE ∧
          C.size ≤ (C.stack.length : Int) ∧
          S1 = { S with stack := restore_stack S.stack C, running := id,
                        co := co_set S id (some { C with status := COROUTINE_RUNNING }) })) := by
  unfold resume_enter at h
  split at h
  · cases h
  rename_i hr
  split at h
  · cases h
  rename_i hid
  simp only [ne_eq, not_not] at hr hid
  refine ⟨hr, hid.1, hid.2, ?_⟩
  split at h
  · cases h
  · cases h
  rename_i C hC
  refine ⟨C, hC, ?_⟩
  split at h
  · rename_i hs
    simp only [Except.ok.injEq, Option.some.injEq, Prod.mk.injEq] at h
    left; exact ⟨hs, h.1.symm, h.2.symm⟩
  · split at h
    · rename_i hs
      split at h
      · cases h
      rename_i hb
      split at h
      · cases h
      · rename_i k1 hk
        simp only [Except.ok.injEq, Option.some.injEq, Prod.mk.injEq] at h
        right
        refine ⟨hs, by rw [hk, h.1], by omega, by omega, by omega, h.2.symm⟩
    · cases h

/-- Marking a slot `RUNNING` while nothing runs keeps the invariant. -/
theorem Inv_enter {S : schedule} (h : Inv S) (id : Int) (C D : coroutine)
    (stk : Int → Byte) (hr : S.running = -1) (hC : co_at S id = .ok (some C))
    (hD : D.status = COROUTINE_RUNNING) (hb : D.cap = (D.stack.length : Int)) :
    Inv { S with stack := stk, running := id, co := co_set S id (some D) } := by
  obtain ⟨h0, h1, hget⟩ := (co_at_ok_iff S id _).mp hC
  obtain ⟨hlt, -⟩ := List.getElem?_eq_some_iff.mp hget
  refine ⟨?_, ?_, ?_, ?_, ?_, ?_, h.pow, h.top, ?_⟩
  · simpa [co_set] using h.len
  · simp only [occupied, co_set]
    rw [countP_set_keep _ _ _ _ hget, h.cnt]
    rfl
  · intro i X hi
    rcases set_some_cases _ _ _ _ _ hi with ⟨-, rfl⟩ | ⟨-, hX⟩
    · right; left; exact hD
    · exact h.st i X hX
  · intro i X hi
    rcases set_some_cases _ _ _ _ _ hi with ⟨rfl, rfl⟩ | ⟨hne, hX⟩
    · simp only [hD, true_iff]; omega
    · have := h.run i X hX
      simp only
      constructor
      · intro e; have := this.mp e; omega
      · intro e; exfalso; apply hne; omega
  · right
    refine ⟨h0, D, ?_⟩
    simp only [co_set]
    rw [List.getElem?_set, if_pos rfl, if_pos hlt]
  · intro i X hi hs
    rcases set_some_cases _ _ _ _ _ hi with ⟨-, rfl⟩ | ⟨-, hX⟩
    · rw [hD] at hs; simp [COROUTINE_RUNNING, COROUTINE_SUSPEND] at hs
    · exact h.susp i X hX hs
  · intro i X hi
    rcases set_some_cases _ _ _ _ _ hi with ⟨-, rfl⟩ | ⟨-, hX⟩
    · exact hb
    · exact h.buf i X hX

theorem Inv_resume {S : schedule} (h : Inv S) (id : Int) (k : Prog) (S1 : schedule)
    (hres : resume_enter S id = .ok (some (k, S1))) : Inv S1 := by
  obtain ⟨hr, -, -, C, hC, ⟨-, -, rfl⟩ | ⟨-, -, -, -, -, rfl⟩⟩ := resume_enter_ok hres
  · exact Inv_enter h id C _ S.stack hr hC rfl (h.buf _ C ((co_at_ok_iff _ _ _).mp hC).2.2)
  · exact Inv_enter h id C _ _ hr hC rfl (h.buf _ C ((co_at_ok_iff _ _ _).mp hC).2.2)
theorem save_stack_ok {stk : Int → Byte} {C C1 : coroutine} {n : Int}
    (h : _save_stack stk C n = .ok C1) :
    0 ≤ n ∧ n ≤ STACK_SIZE ∧
      C1 = { C with cap := if C.cap < n then n else C.cap, size := n,
                    stack := live_bytes stk n ++
                      (if C.cap < n then List.replicate n.toNat 0 else C.stack).drop n.toNat } ∧
      n ≤ ((if C.cap < n then List.replicate n.toNat (0 : Byte) else C.stack).length : Int) := by
  unfold _save_stack at h
  split at h
  · cases h
  rename_i h1
  split at h
  · cases h
  rename_i h2
  by_cases hc : C.cap < n
  · simp only [if_pos hc] at h ⊢
    split at h
    · cases h
    rename_i h3
    simp only [Except.ok.injEq] at h
    exact ⟨by omega, by omega, h.symm, by omega⟩
  · simp only [if_neg hc] at h ⊢
    split at h
    · cases h
    rename_i h3
    simp only [Except.ok.injEq] at h
    exact ⟨by omega, by omega, h.symm, by omega⟩

theorem live_bytes_length (stk : Int → Byte) (n : Int) :
    (live_bytes stk n).length = n.toNat := by
  simp [live_bytes]

theorem coroutine_yield_ok {S S1 : schedule} {n : Int} {k : Prog}
    (h : coroutine_yield S n k = .ok S1) :
    0 ≤ S.running ∧ ∃ C C1, co_at S S.running = .ok (some C) ∧
      _save_stack S.stack C n = .ok C1 ∧
      S1 = { S with running := -1,
                    co := co_set S S.running
                      (some { C1 with status := COROUTINE_SUSPEND, ctx := some k }) } := by
  unfold coroutine_yield at h
  simp only at h
  split at h
  · cases h
  rename_i h1
  refine ⟨by omega, ?_⟩
  split at h
  · cases h
  · cases h
  rename_i C hC
  split at h
  · cases h
  rename_i C1 hC1
  simp only [Except.ok.injEq] at h
  exact ⟨C, C1, hC, hC1, h.symm⟩

/-- Replacing the running coroutine by one that is not `RUNNING` and handing
control back keeps the invariant. -/
theorem Inv_leave {S : schedule} (h : Inv S) (C D : coroutine)
    (hr : 0 ≤ S.running) (hC : co_at S S.running = .ok (some C))
    (hD : D.status = COROUTINE_SUSPEND) (hk : ∃ k, D.ctx = some k)
    (hs : 0 ≤ D.size ∧ D.size ≤ STACK_SIZE ∧ D.size ≤ (D.stack.length : Int))
    (hb : D.cap = (D.stack.length : Int)) :
    Inv { S with running := -1, co := co_set S S.running (some D) } := by
  obtain ⟨h0, h1, hget⟩ := (co_at_ok_iff S _ _).mp hC
  obtain ⟨hlt, -⟩ := List.getElem?_eq_some_iff.mp hget
  refine ⟨?_, ?_, ?_, ?_, Or.inl rfl, ?_, h.pow, h.top, ?_⟩
  · simpa [co_set] using h.len
  · simp only [occupied, co_set]
    rw [countP_set_keep _ _ _ _ hget, h.cnt]
    rfl
  · intro i X hi
    rcases set_some_cases _ _ _ _ _ hi with ⟨-, rfl⟩ | ⟨-, hX⟩
    · right; right; exact hD
    · exact h.st i X hX
  · intro i X hi
    rcases set_some_cases _ _ _ _ _ hi with ⟨rfl, rfl⟩ | ⟨hne, hX⟩
    · simp only [hD, COROUTINE_SUSPEND, COROUTINE_RUNNING]
      constructor <;> intro e <;> omega
    · have := h.run i X hX
      simp only
      constructor
      · intro e; have := this.mp e; exfalso; apply hne; omega
      · intro e; omega
  · intro i X hi hsx
    rcases set_some_cases _ _ _ _ _ hi with ⟨-, rfl⟩ | ⟨-, hX⟩
    · exact ⟨hk, hs⟩
    · exact h.susp i X hX hsx
  · intro i X hi
    rcases set_some_cases _ _ _ _ _ hi with ⟨-, rfl⟩ | ⟨-, hX⟩
    · exact hb
    · exact h.buf i X hX

theorem Inv_yield {S : schedule} (h : Inv S) (n : Int) (k : Prog) (S1 : schedule)
    (hy : coroutine_yield S n k = .ok S1) : Inv S1 := by
  obtain ⟨hr, C, C1, hC, hsave, rfl⟩ := coroutine_yield_ok hy
  obtain ⟨hn0, hn1, rfl, hlen⟩ := save_stack_ok hsave
  have hb := h.buf _ C ((co_at_ok_iff _ _ _).mp hC).2.2
  refine Inv_leave h C _ hr hC rfl ⟨k, rfl⟩ ⟨hn0, hn1, ?_⟩ ?_
  · simp only [List.length_append, live_bytes_length, List.length_drop]
    push_cast
    omega
  · simp only [List.length_append, live_bytes_length, List.length_drop]
    by_cases hc : C.cap < n
    · simp only [if_pos hc, List.length_replicate]
      omega
    · simp only [if_neg hc] at hlen ⊢
      omega

theorem mainfunc_return_ok {S S1 : schedule} {id : Int}
    (h : mainfunc_return S id = .ok S1) :
    (∃ v, co_at S id = .ok v) ∧
      S1 = { S with co := co_set S id none, nco := S.nco - 1, running := -1 } := by
  unfold mainfunc_return at h
  split at h
  · cases h
  rename_i v hv
  split at h
  · cases h
  simp only [Except.ok.injEq] at h
  exact ⟨⟨v, hv⟩, h.symm⟩

theorem Inv_complete {S : schedule} (h : Inv S) (S1 : schedule) (hr : 0 ≤ S.running)
    (hret : mainfunc_return S S.running = .ok S1) : Inv S1 := by
  obtain ⟨-, rfl⟩ := mainfunc_return_ok hret
  rcases h.cur with hr1 | ⟨-, C, hget⟩
  · omega
  obtain ⟨hlt, -⟩ := List.getElem?_eq_some_iff.mp hget
  have key : ∀ (i : Nat) (X : coroutine), (co_set S S.running none)[i]? = some (some X) →
      i ≠ S.running.toNat ∧ S.co[i]? = some (some X) := by
    intro i X hi
    unfold co_set at hi
    rw [List.getElem?_set] at hi
    by_cases e : S.running.toNat = i
    · rw [if_pos e] at hi
      split at hi <;> cases hi
    · rw [if_neg e] at hi
      exact ⟨fun e1 => e e1.symm, hi⟩
  refine ⟨?_, ?_, ?_, ?_, Or.inl rfl, ?_, h.pow, h.top, fun i X hi => h.buf i X (key i X hi).2⟩
  · simpa [co_set] using h.len
  · have := countP_set_clear _ _ _ hget
    simp only [occupied, co_set]
    rw [h.cnt]
    simp only [occupied]
    omega
  · intro i X hi
    exact h.st i X (key i X hi).2
  · intro i X hi
    obtain ⟨hne, hX⟩ := key i X hi
    have := h.run i X hX
    simp only
    constructor
    · intro e; have := this.mp e; exfalso; apply hne; omega
    · intro e; omega
  · intro i X hi hs
    exact h.susp i X (key i X hi).2 hs

theorem Run.inv {tr : List Event} {S : schedule} (h : Run tr S) : Inv S := by
  induction h with
  | «open» mem => exact Inv_open mem
  | new func id S1 _ hnew ih => exact Inv_new ih func id S1 hnew
  | resume id k S1 _ hres ih => exact Inv_resume ih id k S1 hres
  | yield n k S1 _ hy ih => exact Inv_yield ih n k S1 hy
  | complete S1 _ hr hret ih => exact Inv_complete ih S1 hr hret
  | write stk _ ih =>
    exact ⟨ih.len, ih.cnt, ih.st, ih.run, ih.cur, ih.susp, ih.pow, ih.top, ih.buf⟩

theorem Reachable.to_inv {S : schedule} (h : Reachable S) : Inv S := by
  obtain ⟨tr, h⟩ := h
  exact h.inv
theorem co_at_eq (S : schedule) (j : Int) :
    co_at S j = if 0 ≤ j then
      (match S.co[j.toNat]? with
        | some v => .ok v
        | none => .error .undefined)
      else .error .undefined := by
  unfold co_at
  by_cases h0 : 0 ≤ j
  · by_cases h1 : j < S.co.length
    · have hlt : j.toNat < S.co.length := by omega
      simp [h0, h1, List.getD_eq_getElem?_getD, List.getElem?_eq_getElem hlt]
    · have hge : S.co.length ≤ j.toNat := by omega
      simp [h0, h1, List.getElem?_eq_none hge]
  · simp [h0]

theorem co_at_co_set (S : schedule) (stk : Int → Byte) (nco cap running : Int) (id : Int)
    (v : Option coroutine) (h0 : 0 ≤ id) (h1 : id < S.co.length) (j : Int) :
    co_at ⟨stk, nco, cap, running, co_set S id v⟩ j = if j = id then .ok v else co_at S j := by
  have hlt : id.toNat < S.co.length := by omega
  rw [co_at_eq, co_at_eq]
  simp only [co_set, List.getElem?_set]
  by_cases e : j = id
  · subst e
    simp [h0, hlt]
  · by_cases hj : 0 ≤ j
    · have : id.toNat ≠ j.toNat := by omega
      simp [e, hj, this]
    · simp [e, hj]

theorem grown_set_getElem? (l : List (Option coroutine)) (c : coroutine) (hpos : 0 < l.length)
    (i : Nat) :
    ((l.take l.length ++ List.replicate l.length none).set l.length (some c))[i]? =
      if i = l.length then some (some c) else if i < l.length then l[i]?
        else if i < 2 * l.length then some none else none := by
  rw [List.getElem?_set, grown_getElem?]
  by_cases e : l.length = i
  · subst e
    simp
    exact List.ne_nil_of_length_pos hpos
  · have e1 : ¬ i = l.length := fun h => e h.symm
    simp [e, e1]

theorem co_at_grow (S : schedule) (stk : Int → Byte) (nco cap running : Int) (c : coroutine)
    (hlen : (S.co.length : Int) = S.cap) (hpos : 0 < S.cap) (j : Int) :
    co_at ⟨stk, nco, cap, running,
        (S.co.take S.cap.toNat ++ List.replicate S.cap.toNat none).set S.cap.toNat (some c)⟩ j =
      if j = S.cap then .ok (some c) else if j < S.cap then co_at S j
        else if j < 2 * S.cap then .ok none else .error .undefined := by
  have hc : S.cap.toNat = S.co.length := by omega
  have hpos1 : 0 < S.co.length := by omega
  rw [co_at_eq, co_at_eq, hc]
  simp only [grown_set_getElem? _ _ hpos1]
  by_cases h0 : 0 ≤ j
  · by_cases e : j = S.cap
    · subst e
      simp [h0, hc]
    · have e1 : ¬ j.toNat = S.co.length := by omega
      by_cases hlt : j < S.cap
      · have : j.toNat < S.co.length := by omega
        simp [h0, e, e1, hlt, this]
      · have h1 : ¬ j.toNat < S.co.length := by omega
        by_cases h2 : j < 2 * S.cap
        · have : j.toNat < 2 * S.co.length := by omega
          simp [h0, e, e1, hlt, h1, h2, this]
        · have : ¬ j.toNat < 2 * S.co.length := by omega
          simp [h0, e, e1, hlt, h1, h2, this]
  · have e : ¬ j = S.cap := by omega
    have hlt : j < S.cap := by omega
    simp [h0, e, hlt]

/-- The two ways `coroutine_new` returns. -/
theorem coroutine_new_ok {S S1 : schedule} {func : Prog} {id : Int}
    (h : coroutine_new S func = .ok (id, S1)) :
    (S.cap ≤ S.nco ∧ 0 ≤ S.cap ∧ S.cap * 2 ≤ INT_MAX ∧ id = S.cap ∧
        S1 = { S with co := (S.co.take S.cap.toNat ++ List.replicate S.cap.toNat none).set
                              S.cap.toNat (some (_co_new func)),
                      cap := S.cap * 2, nco := S.nco + 1 }) ∨
    (S.nco < S.cap ∧ co_at S id = .ok none ∧
        S1 = { S with co := co_set S id (some (_co_new func)), nco := S.nco + 1 } ∧
        ∃ j : Nat, (j : Int) < S.cap ∧ id = (j + S.nco).tmod S.cap ∧
          ∀ j1 : Nat, j1 < j → ∃ C, co_at S ((j1 + S.nco).tmod S.cap) = .ok (some C)) := by
  unfold coroutine_new at h
  simp only at h
  split at h
  · rename_i hfull
    split at h
    · cases h
    · rename_i hg
      simp only [Except.ok.injEq, Prod.mk.injEq] at h
      left
      exact ⟨hfull, by omega, by omega, h.1.symm, h.2.symm⟩
  · rename_i hfull
    obtain ⟨j, hj, hid, hfree, hS1, hocc⟩ := scan_ok S _ _ _ _ _ h
    right
    refine ⟨by omega, hfree, hS1, j, by omega, by simpa using hid, ?_⟩
    intro j1 hj1
    simpa using hocc j1 hj1

/-- The slot `coroutine_new` returns was not occupied, holds the new coroutine
afterwards, and every other entry is as before. -/
theorem coroutine_new_slots {S S1 : schedule} {func : Prog} {id : Int} (hI : Inv S)
    (h : coroutine_new S func = .ok (id, S1)) :
    (¬ ∃ C, co_at S id = .ok (some C)) ∧ co_at S1 id = .ok (some (_co_new func)) ∧
      ∀ (j : Int) (C : coroutine), j ≠ id →
        (co_at S1 j = .ok (some C) ↔ co_at S j = .ok (some C)) := by
  rcases coroutine_new_ok h with ⟨-, -, -, rfl, rfl⟩ | ⟨-, hfree, rfl, -⟩
  · have hg := co_at_grow S S.stack (S.nco + 1) (S.cap * 2) S.running (_co_new func) hI.len hI.cap_pos
    refine ⟨?_, ?_, ?_⟩
    · rintro ⟨C, hC⟩
      obtain ⟨-, h1, -⟩ := (co_at_ok_iff _ _ _).mp hC
      have := hI.len; omega
    · rw [hg, if_pos rfl]
    · intro j C hj
      rw [hg, if_neg hj]
      by_cases hlt : j < S.cap
      · rw [if_pos hlt]
      · rw [if_neg hlt]
        constructor
        · intro e; split at e <;> cases e
        · intro e
          obtain ⟨-, h1, -⟩ := (co_at_ok_iff _ _ _).mp e
          have := hI.len; omega
  · obtain ⟨h0, h1, -⟩ := (co_at_ok_iff _ _ _).mp hfree
    have hs := co_at_co_set S S.stack (S.nco + 1) S.cap S.running id (some (_co_new func)) h0 h1
    refine ⟨?_, ?_, ?_⟩
    · rintro ⟨C, hC⟩; rw [hfree] at hC; cases hC
    · rw [hs, if_pos rfl]
    · intro j C hj
      rw [hs, if_neg hj]
/-- Slot by slot, the table after the switch of `coroutine_resume`. -/
theorem resume_enter_slots {S S1 : schedule} {id : Int} {k : Prog}
    (h : resume_enter S id = .ok (some (k, S1))) :
    ∃ C, co_at S id = .ok (some C) ∧ (C.status = COROUTINE_READY ∨ C.status = COROUTINE_SUSPEND) ∧
      ∀ j : Int, co_at S1 j =
        if j = id then .ok (some { C with ctx := some k, status := COROUTINE_RUNNING })
        else co_at S j := by
  obtain ⟨-, -, -, C, hC, hcase⟩ := resume_enter_ok h
  obtain ⟨h0, h1, -⟩ := (co_at_ok_iff _ _ _).mp hC
  refine ⟨C, hC, ?_⟩
  rcases hcase with ⟨hs, rfl, rfl⟩ | ⟨hs, hk, -, -, -, rfl⟩
  · exact ⟨Or.inl hs, fun j => co_at_co_set S _ _ _ _ id _ h0 h1 j⟩
  · refine ⟨Or.inr hs, fun j => ?_⟩
    rw [co_at_co_set S _ _ _ _ id _ h0 h1 j]
    have : ({ C with ctx := some k, status := COROUTINE_RUNNING } : coroutine)
        = { C with status := COROUTINE_RUNNING } := by
      cases C; simp only at hk; simp [hk]
    rw [this]

/-- Slot by slot, the table after `coroutine_yield`. -/
theorem coroutine_yield_slots {S S1 : schedule} {n : Int} {k : Prog}
    (h : coroutine_yield S n k = .ok S1) :
    ∃ C C1, co_at S S.running = .ok (some C) ∧ _save_stack S.stack C n = .ok C1 ∧
      ∀ j : Int, co_at S1 j =
        if j = S.running then .ok (some { C1 with status := COROUTINE_SUSPEND, ctx := some k })
        else co_at S j := by
  obtain ⟨-, C, C1, hC, hsave, rfl⟩ := coroutine_yield_ok h
  obtain ⟨h0, h1, -⟩ := (co_at_ok_iff _ _ _).mp hC
  exact ⟨C, C1, hC, hsave, fun j => co_at_co_set S _ _ _ _ _ _ h0 h1 j⟩

/-- Slot by slot, the table after the body has returned into `mainfunc`. -/
theorem mainfunc_return_slots {S S1 : schedule} {id : Int}
    (h : mainfunc_return S id = .ok S1) :
    ∀ j : Int, co_at S1 j = if j = id then .ok none else co_at S j := by
  obtain ⟨⟨v, hv⟩, rfl⟩ := mainfunc_return_ok h
  obtain ⟨h0, h1, -⟩ := (co_at_ok_iff _ _ _).mp hv
  exact fun j => co_at_co_set S _ _ _ _ _ _ h0 h1 j

/-- A slot is occupied exactly when the latest `coroutine_new` that returned
its index has not been followed by the return of that body. -/
theorem Run.alive_iff {tr : List Event} {S : schedule} (h : Run tr S) :
    ∀ id : Int, alive tr id = true ↔ ∃ C, co_at S id = .ok (some C) := by
  induction h with
  | «open» mem =>
    intro id
    simp only [alive, Bool.false_eq_true, false_iff]
    rintro ⟨C, hC⟩
    obtain ⟨-, -, hget⟩ := (co_at_ok_iff _ _ _).mp hC
    simp [coroutine_open, List.getElem?_replicate] at hget
  | @new tr S func id S1 hrun hnew ih =>
    intro j
    obtain ⟨hfree, hnow, hother⟩ := coroutine_new_slots hrun.inv hnew
    simp only [alive]
    by_cases e : id = j
    · subst e
      simp only [if_true, true_iff]
      exact ⟨_, hnow⟩
    · rw [if_neg e, ih j]
      have e1 : j ≠ id := fun h => e h.symm
      exact ⟨fun ⟨C, hC⟩ => ⟨C, (hother j C e1).mpr hC⟩, fun ⟨C, hC⟩ => ⟨C, (hother j C e1).mp hC⟩⟩
  | @resume tr S id k S1 hrun hres ih =>
    intro j
    obtain ⟨C, hC, -, hs⟩ := resume_enter_slots hres
    simp only [alive]
    rw [ih j, hs j]
    by_cases e : j = id
    · subst e
      rw [if_pos rfl]
      exact ⟨fun _ => ⟨_, rfl⟩, fun _ => ⟨C, hC⟩⟩
    · rw [if_neg e]
  | @yield tr S n k S1 hrun hy ih =>
    intro j
    obtain ⟨C, C1, hC, -, hs⟩ := coroutine_yield_slots hy
    simp only [alive]
    rw [ih j, hs j]
    by_cases e : j = S.running
    · rw [if_pos e, e]
      exact ⟨fun _ => ⟨_, rfl⟩, fun _ => ⟨C, hC⟩⟩
    · rw [if_neg e]
  | @complete tr S S1 hrun hr hret ih =>
    intro j
    have hs := mainfunc_return_slots hret
    simp only [alive]
    rw [hs j]
    by_cases e : S.running = j
    · rw [if_pos e, if_pos e.symm]
      simp
    · rw [if_neg e, if_neg (fun h => e h.symm), ih j]
  | @write tr S stk hrun ih =>
    intro j
    simp only [alive]
    rw [ih j]
    rfl

theorem demo_new1 : coroutine_new (coroutine_open demo_mem) (demo_foo 0) = .ok (0, demo_S1) := rfl
theorem demo_new2 : coroutine_new demo_S1 (demo_foo 100) = .ok (1, demo_S2) := rfl
theorem demo_enter : resume_enter demo_S2 0 = .ok (some (demo_foo 0, demo_S3)) := rfl

theorem demo_run3 : Run [Event.resume 0, Event.new 1, Event.new 0] demo_S3 :=
  Run.resume 0 _ _ (Run.new _ 1 _ (Run.new _ 0 _ (Run.open demo_mem) demo_new1) demo_new2) demo_enter
theorem Inv.single_running {S : schedule} (h : Inv S) :
    (∀ (i j : Int) (Ci Cj : coroutine), co_at S i = .ok (some Ci) →
        Ci.status = COROUTINE_RUNNING → co_at S j = .ok (some Cj) →
        Cj.status = COROUTINE_RUNNING → i = j) ∧
    (∀ (i : Int) (C : coroutine), co_at S i = .ok (some C) → C.status = COROUTINE_RUNNING →
        coroutine_running S = i) ∧
    ((∀ (i : Int) (C : coroutine), co_at S i = .ok (some C) → C.status ≠ COROUTINE_RUNNING) →
        coroutine_running S = -1) := by
  have key : ∀ (i : Int) (C : coroutine), co_at S i = .ok (some C) →
      C.status = COROUTINE_RUNNING → S.running = i := by
    intro i C hC hs
    obtain ⟨h0, -, hget⟩ := (co_at_ok_iff _ _ _).mp hC
    have := (h.run i.toNat C hget).mp hs
    omega
  refine ⟨?_, key, ?_⟩
  · intro i j Ci Cj hi hsi hj hsj
    rw [← key i Ci hi hsi, ← key j Cj hj hsj]
  · intro hnone
    rcases h.cur with hr | ⟨hr0, C, hC⟩
    · exact hr
    · exfalso
      have hlt := (List.getElem?_eq_some_iff.mp hC).1
      have hat : co_at S S.running = .ok (some C) :=
        (co_at_ok_iff _ _ _).mpr ⟨hr0, by omega, hC⟩
      exact hnone _ C hat ((h.run _ C hC).mpr (by omega))

/-- C1: in every scheduler state reachable from `coroutine_open` by
`coroutine_new`, `coroutine_resume`, `coroutine_yield` and body completion, at
most one slot holds a coroutine with status `RUNNING`; if one does, its index
is `S->running`, the value `coroutine_running` returns; and if none does,
`S->running` is `-1`. -/
theorem C1_single_running (S : schedule) (h : Reachable S) :
    (∀ (i j : Int) (Ci Cj : coroutine), co_at S i = .ok (some Ci) →
        Ci.status = COROUTINE_RUNNING → co_at S j = .ok (some Cj) →
        Cj.status = COROUTINE_RUNNING → i = j) ∧
    (∀ (i : Int) (C : coroutine), co_at S i = .ok (some C) → C.status = COROUTINE_RUNNING →
        coroutine_running S = i) ∧
    ((∀ (i : Int) (C : coroutine), co_at S i = .ok (some C) → C.status ≠ COROUTINE_RUNNING) →
        coroutine_running S = -1) :=
  h.to_inv.single_running

theorem C1_single_running_witness :
    Reachable demo_S3 ∧ coroutine_status demo_S3 0 = .ok COROUTINE_RUNNING ∧
      ∀ (i : Int) (C : coroutine), co_at demo_S3 i = .ok (some C) →
        C.status = COROUTINE_RUNNING → coroutine_running demo_S3 = i :=
  ⟨⟨_, demo_run3⟩, rfl, (C1_single_running demo_S3 ⟨_, demo_run3⟩).2.1⟩

theorem Inv.count {S : schedule} (h : Inv S) :
    S.nco = (occupied S : Int) ∧ 0 ≤ S.nco ∧ S.nco ≤ S.cap := by
  have h1 := h.cnt
  have h2 := occupied_le S
  have h3 := h.len
  refine ⟨h1, by omega, by omega⟩

/-- C8: `coroutine_open` gives `nco = 0` and 16 empty slots, and in every state
reachable from it by `coroutine_new`, `coroutine_resume`, `coroutine_yield` and
body completion, `nco` is the number of occupied slots and
`0 <= nco <= cap`. -/
theorem C8_nco_counts_occupied (S : schedule) (h : Reachable S) :
    (∀ mem : Int → Byte, (coroutine_open mem).nco = 0 ∧
        (coroutine_open mem).co = List.replicate 16 none) ∧
    S.nco = (occupied S : Int) ∧ (occupied S : Int) = S.co.countP Option.isSome ∧
    (S.co.length : Int) = S.cap ∧ 0 ≤ S.nco ∧ S.nco ≤ S.cap :=
  ⟨fun _ => ⟨rfl, rfl⟩, h.to_inv.count.1, rfl, h.to_inv.len, h.to_inv.count.2⟩

theorem C8_nco_counts_occupied_witness :
    Reachable demo_S3 ∧ demo_S3.nco = 2 ∧ demo_S3.nco = (occupied demo_S3 : Int) :=
  ⟨⟨_, demo_run3⟩, rfl, (C8_nco_counts_occupied demo_S3 ⟨_, demo_run3⟩).2.1⟩
theorem alive_append_complete (id : Int) (tr1 : List Event) :
    ∀ tr2 : List Event, Event.new id ∉ tr2 → alive (tr2 ++ Event.complete id :: tr1) id = false := by
  intro tr2
  induction tr2 with
  | nil => intro _; simp [alive]
  | cons e tr2 ih =>
    intro hmem
    have hne : e ≠ Event.new id := fun h => hmem (h ▸ List.mem_cons_self _ _)
    have ih1 := ih (fun h => hmem (List.mem_cons_of_mem _ h))
    rw [List.cons_append]
    cases e with
    | new j =>
      have : j ≠ id := fun h => hne (h ▸ rfl)
      simp only [alive, if_neg this, ih1]
    | complete j =>
      simp only [alive, ih1]
      split <;> rfl
    | resume j => simpa [alive] using ih1
    | yield j => simpa [alive] using ih1
    | write => simpa [alive] using ih1

theorem alive_of_not_mem (id : Int) :
    ∀ tr : List Event, Event.new id ∉ tr → alive tr id = false := by
  intro tr
  induction tr with
  | nil => intro _; rfl
  | cons e tr ih =>
    intro hmem
    have hne : e ≠ Event.new id := fun h => hmem (h ▸ List.mem_cons_self _ _)
    have ih1 := ih (fun h => hmem (List.mem_cons_of_mem _ h))
    cases e with
    | new j =>
      have : j ≠ id := fun h => hne (h ▸ rfl)
      simp only [alive, if_neg this, ih1]
    | complete j =>
      simp only [alive, ih1]
      split <;> rfl
    | resume j => simpa [alive] using ih1
    | yield j => simpa [alive] using ih1
    | write => simpa [alive] using ih1

theorem coroutine_status_eq (S : schedule) (id : Int) (h0 : 0 ≤ id) (h1 : id < S.cap) :
    coroutine_status S id =
      match co_at S id with
      | .error e => .error e
      | .ok none => .ok COROUTINE_DEAD
      | .ok (some C) => .ok C.status := by
  unfold coroutine_status
  rw [if_neg (by simp only [not_not]; exact ⟨h0, h1⟩)]

theorem Inv.co_at_some {S : schedule} (h : Inv S) (id : Int) (h0 : 0 ≤ id) (h1 : id < S.cap) :
    ∃ v, co_at S id = .ok v := by
  have hlen := h.len
  unfold co_at
  rw [if_pos ⟨h0, by omega⟩]
  exact ⟨_, rfl⟩

theorem Inv.status_dead_iff {S : schedule} (h : Inv S) (id : Int) (h0 : 0 ≤ id)
    (h1 : id < S.cap) :
    (∀ C, co_at S id = .ok (some C) →
        coroutine_status S id = .ok C.status ∧ C.status ≠ COROUTINE_DEAD) ∧
    (coroutine_status S id = .ok COROUTINE_DEAD ↔ co_at S id = .ok none) := by
  have hne : ∀ C, co_at S id = .ok (some C) → C.status ≠ COROUTINE_DEAD := by
    intro C hC
    obtain ⟨-, -, hget⟩ := (co_at_ok_iff _ _ _).mp hC
    rcases h.st _ C hget with e | e | e <;> rw [e] <;> decide
  rw [coroutine_status_eq S id h0 h1]
  obtain ⟨v, hv⟩ := h.co_at_some id h0 h1
  rw [hv]
  cases v with
  | none => exact ⟨fun C hC => (by cases hC), ⟨fun _ => rfl, fun _ => rfl⟩⟩
  | some C =>
    refine ⟨fun D hD => ?_, ?_⟩
    · simp only [Except.ok.injEq, Option.some.injEq] at hD
      subst hD
      exact ⟨rfl, hne _ hv⟩
    · have := hne C hv
      simp [this]

/-- C7: for every `id` in `[0, cap)` of a reachable scheduler,
`coroutine_status(id)` returns `COROUTINE_DEAD` if no `coroutine_new` has yet
returned `id`, and also after the body of the coroutine holding `id` has
returned, until a later `coroutine_new` returns `id` again; for an occupied slot
it returns the status of the occupant, which is never `COROUTINE_DEAD`; so the
status is `COROUTINE_DEAD` exactly when the slot is empty. -/
theorem C7_status_dead_iff_empty (tr : List Event) (S : schedule) (h : Run tr S) (id : Int)
    (h0 : 0 ≤ id) (h1 : id < S.cap) :
    (Event.new id ∉ tr → coroutine_status S id = .ok COROUTINE_DEAD) ∧
    (∀ tr1 tr2 : List Event, tr = tr2 ++ Event.complete id :: tr1 → Event.new id ∉ tr2 →
        coroutine_status S id = .ok COROUTINE_DEAD) ∧
    (∀ C, co_at S id = .ok (some C) →
        coroutine_status S id = .ok C.status ∧ C.status ≠ COROUTINE_DEAD) ∧
    (coroutine_status S id = .ok COROUTINE_DEAD ↔ co_at S id = .ok none) := by
  have hd := h.inv.status_dead_iff id h0 h1
  have key : alive tr id = false → coroutine_status S id = .ok COROUTINE_DEAD := by
    intro ha
    obtain ⟨v, hv⟩ := h.inv.co_at_some id h0 h1
    cases v with
    | none => exact hd.2.mpr hv
    | some C =>
      have := (h.alive_iff id).mpr ⟨C, hv⟩
      rw [ha] at this
      cases this
  refine ⟨fun hmem => key (alive_of_not_mem id tr hmem), ?_, hd.1, hd.2⟩
  intro tr1 tr2 htr hmem
  exact key (htr ▸ alive_append_complete id tr1 tr2 hmem)

theorem C7_status_dead_iff_empty_witness :
    Run [Event.resume 0, Event.new 1, Event.new 0] demo_S3 ∧ (0 : Int) ≤ 5 ∧ (5 : Int) < demo_S3.cap ∧
      coroutine_status demo_S3 5 = .ok COROUTINE_DEAD :=
  ⟨demo_run3, by decide, by decide,
    (C7_status_dead_iff_empty _ demo_S3 demo_run3 5 (by decide) (by decide)).1 (by decide)⟩
theorem demo_spawn16 :
    spawn_n Prog.ret 16 (coroutine_open demo_mem) =
      .ok ([0, 1, 2, 3, 4, 5, 6, 7, 8, 9, 10, 11, 12, 13, 14, 15], demo_S16) := rfl

theorem coroutine_new_full (S : schedule) (func : Prog)
    (hlen : (S.co.length : Int) = S.cap) (hpos : 0 < S.cap) (hfull : S.nco ≥ S.cap)
    (hfit : S.cap * 2 ≤ INT_MAX) (hn : S.nco < INT_MAX) :
    ∃ S1, coroutine_new S func = .ok (S.cap, S1) ∧ S1.cap = 2 * S.cap ∧ S1.nco = S.nco + 1 ∧
      (S1.co.length : Int) = S1.cap ∧
      (∀ j, 0 ≤ j → j < S.cap → co_at S1 j = co_at S j) ∧
      co_at S1 S.cap = .ok (some (_co_new func)) ∧
      (∀ j, S.cap < j → j < 2 * S.cap → co_at S1 j = .ok none) ∧
      S1.running = S.running ∧ S1.stack = S.stack := by
  have hg := co_at_grow S S.stack (S.nco + 1) (S.cap * 2) S.running (_co_new func) hlen hpos
  refine ⟨⟨S.stack, S.nco + 1, S.cap * 2, S.running,
      (S.co.take S.cap.toNat ++ List.replicate S.cap.toNat none).set S.cap.toNat
        (some (_co_new func))⟩, ?_, ?_, rfl, ?_, ?_, ?_, ?_, rfl, rfl⟩
  · unfold coroutine_new
    simp only
    rw [if_pos hfull, if_neg (by omega)]
  · simp only; ring
  · simp only [List.length_set, List.length_append, List.length_take, List.length_replicate]
    have : S.cap.toNat = S.co.length := by omega
    rw [this, min_self]
    push_cast; omega
  · intro j h0 h1
    rw [hg, if_neg (by omega), if_pos h1]
  · rw [hg, if_pos rfl]
  · intro j h0 h1
    rw [hg, if_neg (by omega), if_neg (by omega), if_pos h1]

/-- C4: when `coroutine_new` is called in a reachable scheduler on a full table
(`nco >= cap`) whose doubled capacity is still an `int`, it returns the old
capacity as id, the capacity becomes exactly twice the old one, every slot
below the old capacity keeps its occupant (status, saved size, capacity and
bytes), the first new slot holds the new coroutine, every other new slot is
empty, and `nco` grows by one. -/
theorem C4_table_growth (S : schedule) (h : Reachable S) (func : Prog)
    (hfull : S.nco ≥ S.cap) (hfit : S.cap * 2 ≤ INT_MAX) :
    ∃ S1, coroutine_new S func = .ok (S.cap, S1) ∧ S1.cap = 2 * S.cap ∧ S1.nco = S.nco + 1 ∧
      (S1.co.length : Int) = S1.cap ∧
      (∀ j, 0 ≤ j → j < S.cap → co_at S1 j = co_at S j) ∧
      co_at S1 S.cap = .ok (some (_co_new func)) ∧
      (∀ j, S.cap < j → j < 2 * S.cap → co_at S1 j = .ok none) ∧
      S1.running = S.running ∧ S1.stack = S.stack := by
  have hI := h.to_inv
  have hc := hI.count.2.2
  have hp := hI.cap_pos
  exact coroutine_new_full S func hI.len hp hfull hfit (by omega)

theorem spawn_n_run (func : Prog) :
    ∀ (n : Nat) (S S1 : schedule) (ids : List Int), Reachable S →
      spawn_n func n S = .ok (ids, S1) → Reachable S1 := by
  intro n
  induction n with
  | zero =>
    intro S S1 ids hS h
    simp only [spawn_n, Except.ok.injEq, Prod.mk.injEq] at h
    rw [← h.2]; exact hS
  | succ n ih =>
    intro S S1 ids hS h
    simp only [spawn_n] at h
    split at h
    · cases h
    rename_i id S2 hnew
    split at h
    · cases h
    rename_i ids2 S3 hrest
    simp only [Except.ok.injEq, Prod.mk.injEq] at h
    rw [← h.2]
    obtain ⟨tr, htr⟩ := hS
    exact ih S2 S3 ids2 ⟨_, Run.new func id S2 htr hnew⟩ hrest

theorem C4_table_growth_witness :
    spawn_n Prog.ret 16 (coroutine_open demo_mem) =
        .ok ([0, 1, 2, 3, 4, 5, 6, 7, 8, 9, 10, 11, 12, 13, 14, 15], demo_S16) ∧
      ∃ S1, coroutine_new demo_S16 Prog.ret = .ok (16, S1) ∧ S1.cap = 32 ∧ S1.nco = 17 :=
  ⟨rfl,
    (C4_table_growth demo_S16
      (spawn_n_run Prog.ret 16 _ _ _ ⟨_, Run.open demo_mem⟩ demo_spawn16) Prog.ret
      (by decide) (by decide)).imp
      fun _ h => ⟨h.1, h.2.1, h.2.2.1⟩⟩

theorem coroutine_new_free (S : schedule) (func : Prog) (i : Nat) (hb : S.cap ≤ 2 ^ 30)
    (hn0 : 0 ≤ S.nco) (hlt : S.nco < S.cap) (hi : (i : Int) < S.cap)
    (hfree : co_at S ((S.nco + i) % S.cap) = .ok none)
    (hleast : ∀ j : Nat, j < i → ∃ C, co_at S ((S.nco + j) % S.cap) = .ok (some C)) :
    ∃ S1 C, coroutine_new S func = .ok ((S.nco + i) % S.cap, S1) ∧
      co_at S1 ((S.nco + i) % S.cap) = .ok (some C) ∧
      C.status = COROUTINE_READY ∧ C.size = 0 ∧ C.cap = 0 ∧
      S1.nco = S.nco + 1 ∧ S1.cap = S.cap ∧
      (∀ j, j ≠ (S.nco + i) % S.cap → co_at S1 j = co_at S j) ∧
      S1.running = S.running ∧ S1.stack = S.stack := by
  have hcap : (0 : Int) ≤ S.cap := by omega
  have hb1 : S.cap ≤ 1073741824 := by norm_num at hb; exact hb
  have e : ∀ m : Nat, ((0 : Int) + m + S.nco).tmod S.cap = (S.nco + m) % S.cap := by
    intro m
    rw [Int.tmod_eq_emod (by omega) hcap]
    congr 1; ring
  obtain ⟨h0, h1, -⟩ := (co_at_ok_iff _ _ _).mp hfree
  have hs := co_at_co_set S S.stack (S.nco + 1) S.cap S.running ((S.nco + i) % S.cap)
    (some (_co_new func)) h0 h1
  refine ⟨⟨S.stack, S.nco + 1, S.cap, S.running,
      co_set S ((S.nco + i) % S.cap) (some (_co_new func))⟩,
    _co_new func, ?_, ?_, rfl, rfl, rfl, rfl, rfl, ?_, rfl, rfl⟩
  · unfold coroutine_new
    simp only
    rw [if_neg (by omega)]
    have := scan_of_first S (_co_new func) S.cap.toNat 0 i (by omega) (le_refl _)
      (by simp only [INT_MAX]; omega) (by simp only [INT_MAX]; omega) (by rw [e]; exact hfree)
      (fun j hj => by rw [e]; exact hleast j hj)
    rw [this, e]
  · rw [hs, if_pos rfl]
  · intro j hj
    rw [hs, if_neg hj]

/-- C5: when `coroutine_new` is called in a reachable scheduler with
`nco < cap`, the id it returns is `(nco + i) mod cap` for the least `i` in
`[0, cap)` whose slot is empty; afterwards that slot holds a coroutine with
status `READY`, saved size 0 and capacity 0, `nco` has grown by one, and `cap`
and every other slot are as before. -/
theorem C5_spawn_placement (S : schedule) (h : Reachable S) (func : Prog) (i : Nat)
    (hlt : S.nco < S.cap) (hi : (i : Int) < S.cap)
    (hfree : co_at S ((S.nco + i) % S.cap) = .ok none)
    (hleast : ∀ j : Nat, j < i → ∃ C, co_at S ((S.nco + j) % S.cap) = .ok (some C)) :
    ∃ S1 C, coroutine_new S func = .ok ((S.nco + i) % S.cap, S1) ∧
      co_at S1 ((S.nco + i) % S.cap) = .ok (some C) ∧
      C.status = COROUTINE_READY ∧ C.size = 0 ∧ C.cap = 0 ∧
      S1.nco = S.nco + 1 ∧ S1.cap = S.cap ∧
      (∀ j, j ≠ (S.nco + i) % S.cap → co_at S1 j = co_at S j) ∧
      S1.running = S.running ∧ S1.stack = S.stack :=
  coroutine_new_free S func i h.to_inv.cap_le h.to_inv.count.2.1 hlt hi hfree hleast

theorem C5_spawn_placement_witness :
    ∃ S1 C, coroutine_new demo_S5 Prog.ret = .ok (2, S1) ∧ co_at S1 2 = .ok (some C) ∧
      C.status = COROUTINE_READY ∧ S1.nco = 2 :=
  (C5_spawn_placement demo_S5
    ⟨_, Run.complete _
      (Run.resume 0 Prog.ret _
        (Run.new (demo_foo 100) 1 _ (Run.new Prog.ret 0 _ (Run.open demo_mem) rfl) rfl) rfl)
      (by decide) rfl⟩
    Prog.ret 1 (by decide) (by decide) rfl
    (fun j hj => by
      have : j = 0 := by omega
      subst this
      exact ⟨_, rfl⟩)).imp
    fun _ h => h.imp fun _ h => ⟨h.1, h.2.1, h.2.2.1, h.2.2.2.2.2.1⟩

theorem live_bytes_getElem? (stk : Int → Byte) (n : Int) (i : Nat) (hi : (i : Int) < n) :
    (live_bytes stk n)[i]? = some (stk (STACK_SIZE - n + i)) := by
  unfold live_bytes
  rw [List.getElem?_map, List.getElem?_range (by omega)]
  rfl

theorem save_stack_total (stk : Int → Byte) (C : coroutine) (n : Int)
    (hb : C.cap = (C.stack.length : Int)) (hn0 : 0 ≤ n) (hn1 : n ≤ STACK_SIZE) :
    _save_stack stk C n = .ok
      { C with cap := if C.cap < n then n else C.cap, size := n,
               stack := live_bytes stk n ++
                 (if C.cap < n then List.replicate n.toNat 0 else C.stack).drop n.toNat } := by
  unfold _save_stack
  rw [if_neg (by omega), if_neg (by omega)]
  by_cases hc : C.cap < n
  · simp only [if_pos hc, List.length_replicate]
    rw [if_neg (by omega)]
  · simp only [if_neg hc]
    rw [if_neg (by omega)]

theorem coroutine_yield_total (S : schedule) (n : Int) (k : Prog) (C : coroutine)
    (hr : 0 ≤ S.running) (hC : co_at S S.running = .ok (some C))
    (hb : C.cap = (C.stack.length : Int)) (hn0 : 0 ≤ n) (hn1 : n ≤ STACK_SIZE) :
    ∃ S1 C1, coroutine_yield S n k = .ok S1 ∧ co_at S1 S.running = .ok (some C1) ∧
      C1.size = n ∧
      (∀ i : Nat, (i : Int) < n → C1.stack[i]? = some (S.stack (STACK_SIZE - n + i))) ∧
      C1.status = COROUTINE_SUSPEND ∧ C1.ctx = some k ∧ C1.func = C.func ∧
      C1.cap = (if C.cap < n then n else C.cap) ∧ C1.cap = (C1.stack.length : Int) ∧
      S1.running = -1 ∧ S1.cap = S.cap ∧ S1.nco = S.nco ∧
      (∀ j, j ≠ S.running → co_at S1 j = co_at S j) ∧ S1.stack = S.stack := by
  obtain ⟨h0, h1, -⟩ := (co_at_ok_iff _ _ _).mp hC
  have hsave := save_stack_total S.stack C n hb hn0 hn1
  have hs := co_at_co_set S S.stack S.nco S.cap (-1) S.running
    (some ⟨C.func, some k, if C.cap < n then n else C.cap, n, COROUTINE_SUSPEND,
      live_bytes S.stack n ++
        (if C.cap < n then List.replicate n.toNat 0 else C.stack).drop n.toNat⟩) h0 h1
  refine ⟨⟨S.stack, S.nco, S.cap, -1, co_set S S.running
      (some ⟨C.func, some k, if C.cap < n then n else C.cap, n, COROUTINE_SUSPEND,
        live_bytes S.stack n ++
          (if C.cap < n then List.replicate n.toNat 0 else C.stack).drop n.toNat⟩)⟩,
    ⟨C.func, some k, if C.cap < n then n else C.cap, n, COROUTINE_SUSPEND,
      live_bytes S.stack n ++
        (if C.cap < n then List.replicate n.toNat 0 else C.stack).drop n.toNat⟩, ?_, ?_, ?_⟩
  · unfold coroutine_yield
    simp only
    rw [if_neg (by omega), hC]
    simp only [hsave]
  · rw [hs, if_pos rfl]
  · refine ⟨rfl, ?_, rfl, rfl, rfl, rfl, ?_, rfl, rfl, rfl, ?_, rfl⟩
    · intro i hi
      simp only
      rw [List.getElem?_append_left (by rw [live_bytes_length]; omega),
        live_bytes_getElem? _ _ _ hi]
    · simp only [List.length_append, live_bytes_length, List.length_drop]
      by_cases hc : C.cap < n
      · simp only [if_pos hc, List.length_replicate]; omega
      · simp only [if_neg hc]; omega
    · intro j hj
      rw [hs, if_neg hj]

theorem resume_enter_ready (S : schedule) (id : Int) (C : coroutine) (hr : S.running = -1)
    (h0 : 0 ≤ id) (h1 : id < S.cap) (hC : co_at S id = .ok (some C))
    (hs : C.status = COROUTINE_READY) :
    resume_enter S id = .ok (some (C.func,
      ⟨S.stack, S.nco, S.cap, id,
        co_set S id (some ⟨C.func, some C.func, C.cap, C.size, COROUTINE_RUNNING, C.stack⟩)⟩)) := by
  unfold resume_enter
  rw [if_neg (by simp [hr]), if_neg (by simp [h0, h1]), hC]
  simp only [hs, if_true]

theorem resume_enter_suspended (S : schedule) (id : Int) (C : coroutine) (k : Prog)
    (hr : S.running = -1) (h0 : 0 ≤ id) (h1 : id < S.cap) (hC : co_at S id = .ok (some C))
    (hs : C.status = COROUTINE_SUSPEND) (hk : C.ctx = some k)
    (hz : 0 ≤ C.size) (hz1 : C.size ≤ STACK_SIZE) (hz2 : C.size ≤ (C.stack.length : Int)) :
    resume_enter S id = .ok (some (k,
      ⟨restore_stack S.stack C, S.nco, S.cap, id,
        co_set S id (some ⟨C.func, C.ctx, C.cap, C.size, COROUTINE_RUNNING, C.stack⟩)⟩)) := by
  unfold resume_enter
  rw [if_neg (by simp [hr]), if_neg (by simp [h0, h1]), hC]
  simp only [hs, hk]
  rw [if_neg (by decide), if_pos trivial, if_neg (by omega)]

theorem restore_stack_live (stk : Int → Byte) (C : coroutine) (off : Int)
    (h0 : STACK_SIZE - C.size ≤ off) (h1 : off < STACK_SIZE) (b : Byte)
    (hb : C.stack[(off - (STACK_SIZE - C.size)).toNat]? = some b) :
    restore_stack stk C off = b := by
  unfold restore_stack
  rw [if_pos ⟨h0, h1⟩, List.getD_eq_getElem?_getD, hb]
  rfl

theorem demo_counters_new :
    coroutine_new (coroutine_open demo_mem) (counter_body (STACK_SIZE - 8) 64 0) =
        .ok (0, { coroutine_open demo_mem with
                    nco := 1,
                    co := some (_co_new (counter_body (STACK_SIZE - 8) 64 0))
                      :: List.replicate 15 none }) ∧
      coroutine_new { coroutine_open demo_mem with
                    nco := 1,
                    co := some (_co_new (counter_body (STACK_SIZE - 8) 64 0))
                      :: List.replicate 15 none } (counter_body (STACK_SIZE - 8) 64 100) =
        .ok (1, demo_counters) := ⟨rfl, rfl⟩

theorem stack_round_trip (S : schedule) (h : Inv S) (n : Int) (k : Prog)
    (hr : 0 ≤ S.running) (hn0 : 0 ≤ n) (hn1 : n ≤ STACK_SIZE) :
    ∃ S1, coroutine_yield S n k = .ok S1 ∧
      ∀ S2 : schedule, S2.running = -1 → S.running < S2.cap →
        co_at S2 S.running = co_at S1 S.running →
        ∃ S3, resume_enter S2 S.running = .ok (some (k, S3)) ∧
          ∀ off, STACK_SIZE - n ≤ off → off < STACK_SIZE → S3.stack off = S.stack off := by
  rcases h.cur with hr1 | ⟨-, C, hget⟩
  · omega
  have hlt := (List.getElem?_eq_some_iff.mp hget).1
  have hlen := h.len
  have hC : co_at S S.running = .ok (some C) := (co_at_ok_iff _ _ _).mpr ⟨hr, by omega, hget⟩
  obtain ⟨S1, C1, h1, h2, h3, h4, h5, hk, -, hcap, hcl, -⟩ :=
    coroutine_yield_total S n k C hr hC (h.buf _ C hget) hn0 hn1
  refine ⟨S1, h1, ?_⟩
  intro S2 hidle hin hsame
  rw [h2] at hsame
  have hsz : C1.size ≤ (C1.stack.length : Int) := by
    rw [h3, ← hcl, hcap]
    split <;> omega
  refine ⟨_, resume_enter_suspended S2 S.running C1 k hidle hr hin hsame h5 hk (by omega)
    (by omega) hsz, ?_⟩
  intro off ho0 ho1
  simp only
  have hi := h4 (off - (STACK_SIZE - n)).toNat (by omega)
  rw [restore_stack_live S2.stack C1 off (by omega) ho1 _ (by rw [h3]; exact hi)]
  congr 1
  omega

/-- C2: stack round trip.  For every shared-stack content and every footprint
`n` with `0 <= n <= STACK_SIZE`, `coroutine_yield` of the running coroutine
returns, and whatever the shared stack holds afterwards, a later
`coroutine_resume` of that suspended coroutine switches into it with offsets
`[STACK_SIZE-n, STACK_SIZE)` byte for byte as they were at the yield.  So two
coroutines that each keep a counter at the same offset of the shared stack and
are resumed in turn five times read 0,1,2,3,4 and 100,...,104: neither counter
is reset or overwritten by the other. -/
theorem C2_stack_round_trip (S : schedule) (h : Reachable S) (n : Int) (k : Prog)
    (hr : 0 ≤ S.running) (hn0 : 0 ≤ n) (hn1 : n ≤ STACK_SIZE) :
    (∃ S1, coroutine_yield S n k = .ok S1 ∧
      ∀ S2 : schedule, S2.running = -1 → S.running < S2.cap →
        co_at S2 S.running = co_at S1 S.running →
        ∃ S3, resume_enter S2 S.running = .ok (some (k, S3)) ∧
          ∀ off, STACK_SIZE - n ≤ off → off < STACK_SIZE → S3.stack off = S.stack off) ∧
    observe (alternate 0 1 5 demo_counters []) =
      some ⟨demo_lines, -1, 16, 2,
        some COROUTINE_SUSPEND :: some COROUTINE_SUSPEND :: List.replicate 14 none⟩ :=
  ⟨stack_round_trip S h.to_inv n k hr hn0 hn1, by decide!⟩

theorem C2_stack_round_trip_witness :
    ∃ S1, coroutine_yield demo_S3 64 Prog.ret = .ok S1 ∧
      ∀ S2 : schedule, S2.running = -1 → demo_S3.running < S2.cap →
        co_at S2 demo_S3.running = co_at S1 demo_S3.running →
        ∃ S3, resume_enter S2 demo_S3.running = .ok (some (Prog.ret, S3)) ∧
          ∀ off, STACK_SIZE - 64 ≤ off → off < STACK_SIZE → S3.stack off = demo_S3.stack off :=
  (C2_stack_round_trip demo_S3 ⟨_, demo_run3⟩ 64 Prog.ret (by decide) (by decide) (by decide)).1
/-- Resuming an id whose slot is empty returns at once and changes nothing. -/
theorem coroutine_resume_empty (S : schedule) (id : Int) (out : Output) (hr : S.running = -1)
    (h0 : 0 ≤ id) (h1 : id < S.cap) (hC : co_at S id = .ok none) :
    coroutine_resume S id out = .ok (S, out) := by
  unfold coroutine_resume resume_enter
  rw [if_neg (by simp [hr]), if_neg (by simp [h0, h1]), hC]

theorem coroutine_new_running {S S1 : schedule} {func : Prog} {id : Int}
    (h : coroutine_new S func = .ok (id, S1)) : S1.running = S.running ∧ S.cap ≤ S1.cap := by
  rcases coroutine_new_ok h with ⟨-, hc, -, -, rfl⟩ | ⟨-, -, rfl, -⟩
  · exact ⟨rfl, by simp only; omega⟩
  · exact ⟨rfl, le_refl _⟩

theorem coroutine_yield_fields {S S1 : schedule} {n : Int} {k : Prog}
    (h : coroutine_yield S n k = .ok S1) :
    S1.running = -1 ∧ S1.cap = S.cap ∧ S1.nco = S.nco ∧ S1.stack = S.stack := by
  obtain ⟨-, C, C1, -, -, hS1⟩ := coroutine_yield_ok h
  rw [hS1]
  exact ⟨rfl, rfl, rfl, rfl⟩

theorem mainfunc_return_fields {S S1 : schedule} {id : Int}
    (h : mainfunc_return S id = .ok S1) :
    S1.running = -1 ∧ S1.cap = S.cap ∧ S1.nco = S.nco - 1 ∧ S1.stack = S.stack := by
  obtain ⟨-, hS1⟩ := mainfunc_return_ok h
  rw [hS1]
  exact ⟨rfl, rfl, rfl, rfl⟩

/-- Running a coroutine until control is back with the caller: if that happens,
nothing runs any more, the coroutine is suspended or gone, and every slot that
was occupied still holds the same coroutine. -/
theorem exec_frame (id : Int) (h0 : 0 ≤ id) :
    ∀ (p : Prog) (S : schedule) (out : Output) (S2 : schedule) (out2 : Output),
      Inv S → S.running = id → exec id p S out = .ok (S2, out2) →
      Inv S2 ∧ S2.running = -1 ∧ S.cap ≤ S2.cap ∧
        ((∃ D, co_at S2 id = .ok (some D) ∧ D.status = COROUTINE_SUSPEND) ∨
          co_at S2 id = .ok none) ∧
        ∀ (j : Int) (D : coroutine), j ≠ id → co_at S j = .ok (some D) →
          co_at S2 j = .ok (some D) := by
  intro p
  induction p with
  | ret =>
    intro S out S2 out2 hI hr h
    simp only [exec] at h
    split at h
    · cases h
    rename_i S1 hret
    simp only [Except.ok.injEq, Prod.mk.injEq] at h
    obtain ⟨rfl, -⟩ := h
    have hs := mainfunc_return_slots hret
    have hI1 : Inv S1 := Inv_complete hI S1 (by omega) (by rw [hr]; exact hret)
    obtain ⟨hf1, hf2, -, -⟩ := mainfunc_return_fields hret
    refine ⟨hI1, hf1, by omega, Or.inr (by rw [hs, if_pos rfl]), ?_⟩
    intro j D hj hD
    rw [hs, if_neg hj]; exact hD
  | yield n k _ =>
    intro S out S2 out2 hI hr h
    simp only [exec] at h
    split at h
    · cases h
    rename_i S1 hy
    simp only [Except.ok.injEq, Prod.mk.injEq] at h
    obtain ⟨rfl, -⟩ := h
    obtain ⟨C, C1, -, -, hs⟩ := coroutine_yield_slots hy
    obtain ⟨hf1, hf2, -, -⟩ := coroutine_yield_fields hy
    refine ⟨Inv_yield hI n k S1 hy, hf1, by omega,
      Or.inl ⟨{ C1 with status := COROUTINE_SUSPEND, ctx := some k }, ?_, rfl⟩, ?_⟩
    · rw [hs, if_pos hr.symm]
    · intro j D hj hD
      rw [hs, if_neg (by rw [hr]; exact hj)]; exact hD
  | running k ih =>
    intro S out S2 out2 hI hr h
    simp only [exec] at h
    exact ih _ S out S2 out2 hI hr h
  | status i k ih =>
    intro S out S2 out2 hI hr h
    simp only [exec] at h
    split at h
    · cases h
    exact ih _ S out S2 out2 hI hr h
  | print a b k ih =>
    intro S out S2 out2 hI hr h
    simp only [exec] at h
    exact ih S _ S2 out2 hI hr h
  | new func k _ ih =>
    intro S out S2 out2 hI hr h
    simp only [exec] at h
    split at h
    · cases h
    rename_i i S1 hnew
    obtain ⟨hrun, hcap⟩ := coroutine_new_running hnew
    obtain ⟨hfree, -, hother⟩ := coroutine_new_slots hI hnew
    obtain ⟨hI2, hr2, hc2, hid, hfr⟩ :=
      ih i S1 out S2 out2 (Inv_new hI func i S1 hnew) (by rw [hrun, hr]) h
    refine ⟨hI2, hr2, by omega, hid, ?_⟩
    intro j D hj hD
    have hji : j ≠ i := by
      rintro rfl
      exact hfree ⟨D, hD⟩
    exact hfr j D hj ((hother j D hji).mpr hD)
  | store off b k ih =>
    intro S out S2 out2 hI hr h
    simp only [exec] at h
    split at h
    · exact ih { S with stack := Function.update S.stack off b } out S2 out2
        ⟨hI.len, hI.cnt, hI.st, hI.run, hI.cur, hI.susp, hI.pow, hI.top, hI.buf⟩ hr h
    · cases h
  | load off k ih =>
    intro S out S2 out2 hI hr h
    simp only [exec] at h
    split at h
    · exact ih _ S out S2 out2 hI hr h
    · cases h
  | overflow =>
    intro S out S2 out2 hI hr h
    simp only [exec] at h
    cases h
/-- A stretch of body that does not spawn leaves every slot but its own
exactly as it was. -/
theorem exec_no_new (id : Int) :
    ∀ (p : Prog), p.no_new → ∀ (S : schedule) (out : Output) (S2 : schedule) (out2 : Output),
      S.running = id → exec id p S out = .ok (S2, out2) →
      ∀ j : Int, j ≠ id → co_at S2 j = co_at S j := by
  intro p
  induction p with
  | ret =>
    intro _ S out S2 out2 hr h
    simp only [exec] at h
    split at h
    · cases h
    rename_i S1 hret
    simp only [Except.ok.injEq, Prod.mk.injEq] at h
    obtain ⟨rfl, -⟩ := h
    intro j hj
    rw [mainfunc_return_slots hret, if_neg hj]
  | yield n k _ =>
    intro _ S out S2 out2 hr h
    simp only [exec] at h
    split at h
    · cases h
    rename_i S1 hy
    simp only [Except.ok.injEq, Prod.mk.injEq] at h
    obtain ⟨rfl, -⟩ := h
    obtain ⟨C, C1, -, -, hs⟩ := coroutine_yield_slots hy
    intro j hj
    rw [hs, if_neg (by rw [hr]; exact hj)]
  | running k ih =>
    intro hq S out S2 out2 hr h
    simp only [Prog.no_new] at hq
    simp only [exec] at h
    exact ih _ (hq _) S out S2 out2 hr h
  | status i k ih =>
    intro hq S out S2 out2 hr h
    simp only [Prog.no_new] at hq
    simp only [exec] at h
    split at h
    · cases h
    exact ih _ (hq _) S out S2 out2 hr h
  | print a b k ih =>
    intro hq S out S2 out2 hr h
    simp only [Prog.no_new] at hq
    simp only [exec] at h
    exact ih hq S _ S2 out2 hr h
  | new func k _ _ =>
    intro hq
    simp only [Prog.no_new] at hq
  | store off b k ih =>
    intro hq S out S2 out2 hr h
    simp only [Prog.no_new] at hq
    simp only [exec] at h
    split at h
    · exact ih hq { S with stack := Function.update S.stack off b } out S2 out2 hr h
    · cases h
  | load off k ih =>
    intro hq S out S2 out2 hr h
    simp only [Prog.no_new] at hq
    simp only [exec] at h
    split at h
    · exact ih _ (hq _) S out S2 out2 hr h
    · cases h
  | overflow =>
    intro hq S out S2 out2 hr h
    simp only [exec] at h
    cases h

theorem mainfunc_return_total (S : schedule) (hI : Inv S) (hr : 0 ≤ S.running) :
    ∃ S1, mainfunc_return S S.running = .ok S1 := by
  rcases hI.cur with hr1 | ⟨-, C, hget⟩
  · omega
  have hlt := (List.getElem?_eq_some_iff.mp hget).1
  have hC : co_at S S.running = .ok (some C) := (co_at_ok_iff _ _ _).mpr ⟨hr, by omega, hget⟩
  have hn := hI.count.2.1
  unfold mainfunc_return
  rw [hC]
  simp only
  rw [if_neg (by simp only [INT_MAX]; omega)]
  exact ⟨_, rfl⟩

/-- A quiet stretch of body always hands control back, and leaves every slot
but its own exactly as it was. -/
theorem exec_quiet (id : Int) (h0 : 0 ≤ id) :
    ∀ (p : Prog), p.quiet → ∀ (S : schedule) (out : Output), Inv S → S.running = id →
      ∃ S2 out2, exec id p S out = .ok (S2, out2) ∧
        ∀ j : Int, j ≠ id → co_at S2 j = co_at S j := by
  intro p
  induction p with
  | ret =>
    intro _ S out hI hr
    obtain ⟨S1, hret⟩ := mainfunc_return_total S hI (by omega)
    rw [hr] at hret
    have hs := mainfunc_return_slots hret
    refine ⟨S1, out, by simp only [exec, hret], fun j hj => ?_⟩
    rw [hs, if_neg hj]
  | yield n k _ =>
    intro hq S out hI hr
    simp only [Prog.quiet] at hq
    rcases hI.cur with hr1 | ⟨-, C, hget⟩
    · omega
    have hlt := (List.getElem?_eq_some_iff.mp hget).1
    have hC : co_at S S.running = .ok (some C) :=
      (co_at_ok_iff _ _ _).mpr ⟨by omega, by omega, hget⟩
    obtain ⟨S1, C1, hy, -, -, -, -, -, -, -, -, -, -, -, hfr, -⟩ :=
      coroutine_yield_total S n k C (by omega) hC (hI.buf _ C hget) hq.1 hq.2
    refine ⟨S1, out, by simp only [exec, hy], fun j hj => hfr j (by rw [hr]; exact hj)⟩
  | running k ih =>
    intro hq S out hI hr
    simp only [Prog.quiet] at hq
    simp only [exec]
    exact ih _ (hq _) S out hI hr
  | status i k _ =>
    intro hq
    simp only [Prog.quiet] at hq
  | print a b k ih =>
    intro hq S out hI hr
    simp only [Prog.quiet] at hq
    simp only [exec]
    exact ih hq S _ hI hr
  | new func k _ _ =>
    intro hq
    simp only [Prog.quiet] at hq
  | store off b k ih =>
    intro hq S out hI hr
    simp only [Prog.quiet] at hq
    simp only [exec]
    rw [if_pos hq.1]
    exact ih hq.2 { S with stack := Function.update S.stack off b } out
      ⟨hI.len, hI.cnt, hI.st, hI.run, hI.cur, hI.susp, hI.pow, hI.top, hI.buf⟩ hr
  | load off k ih =>
    intro hq S out hI hr
    simp only [Prog.quiet] at hq
    simp only [exec]
    rw [if_pos hq.1]
    exact ih _ (hq.2 _) S out hI hr
  | overflow =>
    intro hq
    simp only [Prog.quiet] at hq

/-- The switch of `coroutine_resume` into a `READY` or `SUSPEND` coroutine of
a well-formed idle scheduler. -/
theorem resume_enter_total (S : schedule) (hI : Inv S) (id : Int) (C : coroutine)
    (hr : S.running = -1) (h0 : 0 ≤ id) (h1 : id < S.cap) (hC : co_at S id = .ok (some C))
    (hs : C.status = COROUTINE_READY ∨ C.status = COROUTINE_SUSPEND) :
    ∃ k S1 C1, resume_enter S id = .ok (some (k, S1)) ∧
      (C.status = COROUTINE_READY → k = C.func) ∧
      (C.status = COROUTINE_SUSPEND → C.ctx = some k) ∧
      S1.running = id ∧ S1.cap = S.cap ∧ S1.nco = S.nco ∧
      co_at S1 id = .ok (some C1) ∧ C1.status = COROUTINE_RUNNING ∧
      (∀ j : Int, j ≠ id → co_at S1 j = co_at S j) := by
  obtain ⟨-, hlt, hget⟩ := (co_at_ok_iff _ _ _).mp hC
  rcases hs with hs | hs
  · refine ⟨_, _, ⟨C.func, some C.func, C.cap, C.size, COROUTINE_RUNNING, C.stack⟩,
      resume_enter_ready S id C hr h0 h1 hC hs, fun _ => rfl, ?_, rfl, rfl, rfl, ?_, rfl, ?_⟩
    · intro e; rw [hs] at e; cases e
    · rw [co_at_co_set S _ _ _ _ id _ h0 hlt, if_pos rfl]
    · intro j hj
      rw [co_at_co_set S _ _ _ _ id _ h0 hlt, if_neg hj]
  · obtain ⟨⟨k, hk⟩, hz0, hz1, hz2⟩ := hI.susp _ C hget hs
    refine ⟨k, _, ⟨C.func, C.ctx, C.cap, C.size, COROUTINE_RUNNING, C.stack⟩,
      resume_enter_suspended S id C k hr h0 h1 hC hs hk hz0 hz1 hz2, ?_, fun _ => hk,
      rfl, rfl, rfl, ?_, rfl, ?_⟩
    · intro e; rw [hs] at e; cases e
    · rw [co_at_co_set S _ _ _ _ id _ h0 hlt, if_pos rfl]
    · intro j hj
      rw [co_at_co_set S _ _ _ _ id _ h0 hlt, if_neg hj]
theorem coroutine_resume_spec (S : schedule) (hI : Inv S) (id : Int) (C : coroutine)
    (hr : S.running = -1) (h0 : 0 ≤ id) (h1 : id < S.cap) (hC : co_at S id = .ok (some C))
    (hs : C.status = COROUTINE_READY ∨ C.status = COROUTINE_SUSPEND) :
    ∃ k S1 C1, resume_enter S id = .ok (some (k, S1)) ∧
      coroutine_running S1 = id ∧ co_at S1 id = .ok (some C1) ∧
      C1.status = COROUTINE_RUNNING ∧
      (∀ j : Int, j ≠ id → co_at S1 j = co_at S j) ∧
      (∀ out : Output, coroutine_resume S id out = exec id k S1 out) ∧
      (∀ (out : Output) (S2 : schedule) (out2 : Output),
        coroutine_resume S id out = .ok (S2, out2) →
          coroutine_running S2 = -1 ∧
          (coroutine_status S2 id = .ok COROUTINE_SUSPEND ∨
            coroutine_status S2 id = .ok COROUTINE_DEAD) ∧
          ∀ (j : Int) (D : coroutine), j ≠ id → co_at S j = .ok (some D) →
            co_at S2 j = .ok (some D)) ∧
      (k.no_new → ∀ (out : Output) (S2 : schedule) (out2 : Output),
        coroutine_resume S id out = .ok (S2, out2) →
          ∀ j : Int, j ≠ id → co_at S2 j = co_at S j) ∧
      (k.quiet → ∀ out : Output, ∃ S2 out2, coroutine_resume S id out = .ok (S2, out2) ∧
          ∀ j : Int, j ≠ id → co_at S2 j = co_at S j) := by
  obtain ⟨k, S1, C1, henter, -, -, hrun, hcap, -, hC1, hst, hfr⟩ :=
    resume_enter_total S hI id C hr h0 h1 hC hs
  have hI1 : Inv S1 := Inv_resume hI id k S1 henter
  have hres : ∀ out : Output, coroutine_resume S id out = exec id k S1 out := by
    intro out
    unfold coroutine_resume
    rw [henter]
  refine ⟨k, S1, C1, henter, hrun, hC1, hst, hfr, hres, ?_, ?_, ?_⟩
  rotate_left
  · intro hq out S2 out2 h
    rw [hres] at h
    intro j hj
    rw [exec_no_new id k hq S1 out S2 out2 hrun h j hj, hfr j hj]
  rotate_left
  · intro out S2 out2 h
    rw [hres] at h
    obtain ⟨-, hr2, hc2, hid, hfr2⟩ := exec_frame id h0 k S1 out S2 out2 hI1 hrun h
    refine ⟨hr2, ?_, ?_⟩
    · rw [coroutine_status_eq S2 id h0 (by omega)]
      rcases hid with ⟨D, hD, hDs⟩ | hnone
      · left; rw [hD]; simp only [hDs]
      · right; rw [hnone]
    · intro j D hj hD
      exact hfr2 j D hj (by rw [hfr j hj]; exact hD)
  · intro hq out
    obtain ⟨S2, out2, he, hfr2⟩ := exec_quiet id h0 k hq S1 out hI1 hrun
    refine ⟨S2, out2, by rw [hres]; exact he, fun j hj => ?_⟩
    rw [hfr2 j hj, hfr j hj]

/-- C9 as stated fails: a body may call `coroutine_new`, so when
`coroutine_resume` returns another slot can hold a new occupant.  Here slot 1 is
empty before `coroutine_resume(S, 0)` and holds a `READY` coroutine after. -/
theorem C9_body_may_spawn :
    Reachable demo_spawner ∧ demo_spawner.running = -1 ∧
    co_at demo_spawner 0 = .ok (some (_co_new spawner)) ∧
    co_at demo_spawner 1 = .ok none ∧
    coroutine_resume demo_spawner 0 [] = .ok (demo_spawned, []) ∧
    co_at demo_spawned 1 = .ok (some (_co_new Prog.ret)) ∧
    co_at demo_spawned 1 ≠ co_at demo_spawner 1 :=
  ⟨⟨_, Run.new spawner 0 _ (Run.open demo_mem) rfl⟩, rfl, rfl, rfl, rfl, rfl,
    fun h => by cases h⟩

/-- C9, amended: in every reachable state with `S->running = -1` and every
in-range `id` whose slot holds a `READY` or `SUSPEND` coroutine,
`coroutine_resume(id)` sets the status of that coroutine to `RUNNING` and
`S->running` to `id` before control enters the coroutine (so
`coroutine_running` inside the body returns `id`) and changes no other slot at
the switch; when it returns to its caller, `S->running` is `-1`,
`coroutine_status(id)` is `SUSPEND` or `DEAD`, and every other slot that was
occupied holds the same coroutine with the same status; when the body does not
call `coroutine_new` before it yields or returns, every other slot is
unchanged; and when until then it calls nothing of the scheduler but
`coroutine_running` and a final `coroutine_yield`, with its stack inside the
shared stack, `coroutine_resume` does return. -/
theorem C9_resume_transition (S : schedule) (h : Reachable S) (id : Int) (C : coroutine)
    (hr : S.running = -1) (h0 : 0 ≤ id) (h1 : id < S.cap) (hC : co_at S id = .ok (some C))
    (hs : C.status = COROUTINE_READY ∨ C.status = COROUTINE_SUSPEND) :
    ∃ k S1 C1, resume_enter S id = .ok (some (k, S1)) ∧
      coroutine_running S1 = id ∧ co_at S1 id = .ok (some C1) ∧
      C1.status = COROUTINE_RUNNING ∧
      (∀ j : Int, j ≠ id → co_at S1 j = co_at S j) ∧
      (∀ out : Output, coroutine_resume S id out = exec id k S1 out) ∧
      (∀ (out : Output) (S2 : schedule) (out2 : Output),
        coroutine_resume S id out = .ok (S2, out2) →
          coroutine_running S2 = -1 ∧
          (coroutine_status S2 id = .ok COROUTINE_SUSPEND ∨
            coroutine_status S2 id = .ok COROUTINE_DEAD) ∧
          ∀ (j : Int) (D : coroutine), j ≠ id → co_at S j = .ok (some D) →
            co_at S2 j = .ok (some D)) ∧
      (k.no_new → ∀ (out : Output) (S2 : schedule) (out2 : Output),
        coroutine_resume S id out = .ok (S2, out2) →
          ∀ j : Int, j ≠ id → co_at S2 j = co_at S j) ∧
      (k.quiet → ∀ out : Output, ∃ S2 out2, coroutine_resume S id out = .ok (S2, out2) ∧
          ∀ j : Int, j ≠ id → co_at S2 j = co_at S j) :=
  coroutine_resume_spec S h.to_inv id C hr h0 h1 hC hs

theorem C9_resume_transition_witness :
    ∃ k S1 C1, resume_enter demo_S2 0 = .ok (some (k, S1)) ∧
      coroutine_running S1 = 0 ∧ co_at S1 0 = .ok (some C1) ∧
      C1.status = COROUTINE_RUNNING :=
  (C9_resume_transition demo_S2
    ⟨_, Run.new _ 1 _ (Run.new _ 0 _ (Run.open demo_mem) demo_new1) demo_new2⟩
    0 (_co_new (demo_foo 0)) rfl (by decide) (by decide) rfl (Or.inl rfl)).imp
    fun _ h => h.imp fun _ h => h.imp fun _ h => ⟨h.1, h.2.1, h.2.2.1, h.2.2.2.1⟩
theorem resume_enter_fields {S S1 : schedule} {id : Int} {k : Prog}
    (h : resume_enter S id = .ok (some (k, S1))) :
    S1.running = id ∧ S1.cap = S.cap ∧ S1.nco = S.nco := by
  obtain ⟨-, -, -, C, -, ⟨-, -, hS1⟩ | ⟨-, -, -, -, -, hS1⟩⟩ := resume_enter_ok h
  · rw [hS1]; exact ⟨rfl, rfl, rfl⟩
  · rw [hS1]; exact ⟨rfl, rfl, rfl⟩

/-- While only `a` and `b` run, the scheduler stays well formed, nothing but `a`
or `b` is running, the capacity stays, and every other slot is untouched. -/
theorem RunOf.frame {a b : Int} {S S1 : schedule} (h : RunOf a b S S1) (hI : Inv S)
    (hr : S.running = -1 ∨ S.running = a ∨ S.running = b) :
    Inv S1 ∧ (S1.running = -1 ∨ S1.running = a ∨ S1.running = b) ∧ S1.cap = S.cap ∧
      ∀ j : Int, j ≠ a → j ≠ b → co_at S1 j = co_at S j := by
  induction h with
  | start => exact ⟨hI, hr, rfl, fun _ _ _ => rfl⟩
  | resume id k S2 _ hid hres ih =>
    obtain ⟨hI1, -, hcap, hfr⟩ := ih
    obtain ⟨f1, f2, -⟩ := resume_enter_fields hres
    obtain ⟨C, -, -, hs⟩ := resume_enter_slots hres
    refine ⟨Inv_resume hI1 id k S2 hres, ?_, by omega, ?_⟩
    · rcases hid with e | e
      · right; left; omega
      · right; right; omega
    · intro j ja jb
      rw [hs, if_neg (by rcases hid with e | e <;> omega), hfr j ja jb]
  | yield n k S2 _ hy ih =>
    obtain ⟨hI1, hr1, hcap, hfr⟩ := ih
    obtain ⟨f1, f2, -, -⟩ := coroutine_yield_fields hy
    obtain ⟨hr0, -⟩ := coroutine_yield_ok hy
    obtain ⟨C, C1, -, -, hs⟩ := coroutine_yield_slots hy
    refine ⟨Inv_yield hI1 n k S2 hy, Or.inl f1, by omega, ?_⟩
    intro j ja jb
    rw [hs, if_neg (by omega), hfr j ja jb]
  | complete S2 _ hr0 hret ih =>
    obtain ⟨hI1, hr1, hcap, hfr⟩ := ih
    obtain ⟨f1, f2, -, -⟩ := mainfunc_return_fields hret
    have hs := mainfunc_return_slots hret
    refine ⟨Inv_complete hI1 S2 hr0 hret, Or.inl f1, by omega, ?_⟩
    intro j ja jb
    rw [hs, if_neg (by omega), hfr j ja jb]
  | write stk _ ih =>
    obtain ⟨hI1, hr1, hcap, hfr⟩ := ih
    exact ⟨⟨hI1.len, hI1.cnt, hI1.st, hI1.run, hI1.cur, hI1.susp, hI1.pow, hI1.top, hI1.buf⟩,
      hr1, hcap, hfr⟩

/-- Two slot tables that agree at every index are the same table. -/
theorem co_ext {S T : schedule} (h : ∀ j : Int, co_at S j = co_at T j) : S.co = T.co := by
  apply List.ext_getElem?
  intro n
  have := h n
  rw [co_at_eq, co_at_eq, if_pos (by omega), if_pos (by omega)] at this
  simp only [Int.toNat_ofNat] at this
  cases h1 : S.co[n]? with
  | none =>
    cases h2 : T.co[n]? with
    | none => rfl
    | some w => simp only [h1, h2] at this; cases this
  | some v =>
    cases h2 : T.co[n]? with
    | none => simp only [h1, h2] at this; cases this
    | some w =>
      simp only [h1, h2, Except.ok.injEq] at this
      rw [this]

/-- A table with two distinct empty slots has at least two fewer occupants than
entries. -/
theorem two_empty (l : List (Option coroutine)) (a p : Nat) (ha : l[a]? = some none)
    (hp : l[p]? = some none) (hne : a ≠ p) : l.countP Option.isSome + 2 ≤ l.length := by
  have h1 := countP_set_fill l a (_co_new Prog.ret) ha
  have hp1 : (l.set a (some (_co_new Prog.ret)))[p]? = some none := by
    rw [List.getElem?_set, if_neg hne]; exact hp
  have h2 := countP_set_fill _ p (_co_new Prog.ret) hp1
  have h3 := List.countP_le_length Option.isSome
    (l := (l.set a (some (_co_new Prog.ret))).set p (some (_co_new Prog.ret)))
  simp only [List.length_set] at h3
  omega

/-- Emptying two distinct occupied slots lowers the number of occupants by
two. -/
theorem occupied_clear_two {S T : schedule} (a b : Int) (hab : a ≠ b)
    (Ca Cb : coroutine) (ha : co_at S a = .ok (some Ca)) (hb : co_at S b = .ok (some Cb))
    (hT : ∀ j : Int, co_at T j = if j = a ∨ j = b then .ok none else co_at S j) :
    occupied T + 2 = occupied S := by
  obtain ⟨a0, a1, aget⟩ := (co_at_ok_iff _ _ _).mp ha
  obtain ⟨b0, b1, bget⟩ := (co_at_ok_iff _ _ _).mp hb
  have e : T.co = (S.co.set a.toNat none).set b.toNat none := by
    have := co_ext (S := T)
      (T := ⟨S.stack, S.nco, S.cap, S.running,
        co_set ⟨S.stack, S.nco, S.cap, S.running, co_set S a none⟩ b none⟩) (by
      intro j
      rw [hT, co_at_co_set _ _ _ _ _ b none b0 (by simpa [co_set] using b1),
        co_at_co_set S _ _ _ _ a none a0 a1]
      by_cases jb : j = b
      · simp [jb]
      · by_cases ja : j = a
        · simp [ja]
        · simp [ja, jb])
    exact this
  have hne : a.toNat ≠ b.toNat := by omega
  have h1 := countP_set_clear S.co a.toNat Ca aget
  have h2 := countP_set_clear (S.co.set a.toNat none) b.toNat Cb
    (by rw [List.getElem?_set, if_neg hne]; exact bget)
  simp only [occupied, e]
  omega
/-- The two ways `coroutine_new` returns on a well-formed scheduler, in terms of
the fields of the result. -/
theorem coroutine_new_cases {S S1 : schedule} {func : Prog} {id : Int} (hI : Inv S)
    (h : coroutine_new S func = .ok (id, S1)) :
    S1.nco = S.nco + 1 ∧
    ((S.nco = S.cap ∧ id = S.cap ∧ S1.cap = 2 * S.cap) ∨
     (S.nco < S.cap ∧ S1.cap = S.cap ∧ co_at S id = .ok none ∧
        ∃ j : Nat, (j : Int) < S.cap ∧ id = (S.nco + j) % S.cap ∧
          ∀ j1 : Nat, j1 < j → ∃ C, co_at S ((S.nco + j1) % S.cap) = .ok (some C))) := by
  have hn := hI.count
  have hc := hI.cap_pos
  have e : ∀ m : Nat, ((m : Int) + S.nco).tmod S.cap = (S.nco + m) % S.cap := by
    intro m
    rw [Int.tmod_eq_emod (by omega) (by omega)]
    congr 1; ring
  rcases coroutine_new_ok h with ⟨h1, -, -, h2, h3⟩ | ⟨h1, h2, h3, j, hj, hid, hocc⟩
  · rw [h3]
    exact ⟨rfl, Or.inl ⟨by omega, h2, by simp only; ring⟩⟩
  · rw [h3]
    refine ⟨rfl, Or.inr ⟨h1, rfl, h2, j, hj, by rw [← e]; exact hid, ?_⟩⟩
    intro j1 hj1
    rw [← e]
    exact hocc j1 hj1

theorem Inv.cap_ge {S : schedule} (h : Inv S) : 16 ≤ S.cap := by
  obtain ⟨k, hk⟩ := h.pow
  have : (1 : Int) ≤ 2 ^ k := one_le_pow₀ (by norm_num)
  omega

/-- Slot reuse on a well-formed idle scheduler: after two spawns whose
coroutines then run to completion, the next spawn returns one of their ids. -/
theorem slot_reuse (S0 : schedule) (hI : Inv S0) (hr : S0.running = -1) (f1 f2 f3 : Prog)
    (a b : Int) (S1 S2 S3 : schedule)
    (hn1 : coroutine_new S0 f1 = .ok (a, S1)) (hn2 : coroutine_new S1 f2 = .ok (b, S2))
    (hrun : RunOf a b S2 S3) (ha : co_at S3 a = .ok none) (hb : co_at S3 b = .ok none) :
    ∃ c S4, coroutine_new S3 f3 = .ok (c, S4) ∧ (c = a ∨ c = b) := by
  have hI1 := Inv_new hI f1 a S1 hn1
  have hI2 := Inv_new hI1 f2 b S2 hn2
  have hr2 : S2.running = -1 := by
    rw [(coroutine_new_running hn2).1, (coroutine_new_running hn1).1, hr]
  obtain ⟨hI3, -, hcap3, hfr3⟩ := hrun.frame hI2 (Or.inl hr2)
  obtain ⟨hfree1, hnow1, hoth1⟩ := coroutine_new_slots hI hn1
  obtain ⟨hfree2, hnow2, hoth2⟩ := coroutine_new_slots hI1 hn2
  have hab : a ≠ b := by
    rintro rfl
    exact hfree2 ⟨_, hnow1⟩
  have hnow1' : co_at S2 a = .ok (some (_co_new f1)) := (hoth2 a _ hab).mpr hnow1
  have hT : ∀ j : Int, co_at S3 j = if j = a ∨ j = b then .ok none else co_at S2 j := by
    intro j
    by_cases ja : j = a
    · rw [if_pos (Or.inl ja), ja, ha]
    · by_cases jb : j = b
      · rw [if_pos (Or.inr jb), jb, hb]
      · rw [if_neg (by simp [ja, jb]), hfr3 j ja jb]
  have hocc := occupied_clear_two a b hab _ _ hnow1' hnow2 hT
  obtain ⟨hnco1, hcase1⟩ := coroutine_new_cases hI hn1
  obtain ⟨hnco2, hcase2⟩ := coroutine_new_cases hI1 hn2
  have hnco3 : S3.nco = S0.nco := by
    have h2 := hI2.cnt
    have h3 := hI3.cnt
    omega
  have hn0 := hI.count
  have hc0 := hI.cap_ge
  -- a slot occupied in `S0` is still occupied when the third spawn happens
  have keep : ∀ (p : Int) (C : coroutine), co_at S0 p = .ok (some C) →
      co_at S3 p = .ok (some C) := by
    intro p C hp
    have pa : p ≠ a := by rintro rfl; exact hfree1 ⟨C, hp⟩
    have hp1 : co_at S1 p = .ok (some C) := (hoth1 p C pa).mpr hp
    have pb : p ≠ b := by rintro rfl; exact hfree2 ⟨C, hp1⟩
    rw [hfr3 p pa pb]
    exact (hoth2 p C pb).mpr hp1
  rcases hcase1 with ⟨hfull, haid, hcap1⟩ | ⟨hlt1, hcap1, -, j, hj, haid, hleast⟩
  · -- the first spawn grew the table: the third starts its scan at `a`
    have hcap2 : S2.cap = S1.cap := by
      rcases hcase2 with ⟨h, -, -⟩ | ⟨-, h, -⟩
      · omega
      · exact h
    have hmod : (S3.nco + ((0 : Nat) : Int)) % S3.cap = a := by
      rw [hnco3, hcap3, hcap2, hcap1, haid, hfull]
      simp only [Nat.cast_zero, add_zero]
      exact Int.emod_eq_of_lt (by omega) (by omega)
    obtain ⟨S4, -, h4, -⟩ := coroutine_new_free S3 f3 0 hI3.cap_le (by omega) (by omega) (by omega)
      (by rw [hmod]; exact ha) (fun j1 hj1 => by omega)
    exact ⟨_, S4, h4, Or.inl hmod⟩
  · rcases hcase2 with ⟨hfull2, hbid, hcap2⟩ | ⟨-, hcap2, -, -⟩
    · -- the second spawn grew the table: `a` was the only empty slot
      have hstart : (S3.nco + ((0 : Nat) : Int)) % S3.cap = S0.cap - 1 := by
        rw [hnco3, hcap3, hcap2, hcap1]
        simp only [Nat.cast_zero, add_zero]
        rw [show S0.nco = S0.cap - 1 by omega]
        exact Int.emod_eq_of_lt (by omega) (by omega)
      have hnext : (S3.nco + ((1 : Nat) : Int)) % S3.cap = b := by
        rw [hnco3, hcap3, hcap2, hcap1, hbid, hcap1]
        simp only [Nat.cast_one]
        rw [show S0.nco + 1 = S0.cap by omega]
        exact Int.emod_eq_of_lt (by omega) (by omega)
      obtain ⟨v, hv⟩ := hI3.co_at_some (S0.cap - 1) (by omega) (by omega)
      cases v with
      | none =>
        obtain ⟨S4, -, h4, -⟩ := coroutine_new_free S3 f3 0 hI3.cap_le (by omega) (by omega) (by omega)
          (by rw [hstart]; exact hv) (fun j1 hj1 => by omega)
        refine ⟨_, S4, h4, Or.inl ?_⟩
        rw [hstart]
        by_contra hne
        -- otherwise `S0` has two empty slots although `nco = cap - 1`
        have pa : S0.cap - 1 ≠ a := hne
        have pb : S0.cap - 1 ≠ b := by omega
        have h2 : co_at S2 (S0.cap - 1) = .ok none := by rw [← hfr3 _ pa pb]; exact hv
        obtain ⟨w1, hw1⟩ := hI1.co_at_some (S0.cap - 1) (by omega) (by omega)
        have h1 : co_at S1 (S0.cap - 1) = .ok none := by
          cases w1 with
          | none => exact hw1
          | some C =>
            have := (hoth2 _ C pb).mpr hw1
            rw [h2] at this; cases this
        obtain ⟨w0, hw0⟩ := hI.co_at_some (S0.cap - 1) (by omega) (by omega)
        have h0 : co_at S0 (S0.cap - 1) = .ok none := by
          cases w0 with
          | none => exact hw0
          | some C =>
            have := (hoth1 _ C pa).mpr hw0
            rw [h1] at this; cases this
        obtain ⟨wa, hwa⟩ := hI.co_at_some a (by rw [haid]; exact Int.emod_nonneg _ (by omega))
          (by rw [haid]; exact Int.emod_lt_of_pos _ (by omega))
        have ha0 : co_at S0 a = .ok none := by
          cases wa with
          | none => exact hwa
          | some C => exact absurd ⟨C, hwa⟩ hfree1
        obtain ⟨a0, -, aget⟩ := (co_at_ok_iff _ _ _).mp ha0
        obtain ⟨p0, -, pget⟩ := (co_at_ok_iff _ _ _).mp h0
        have := two_empty S0.co a.toNat (S0.cap - 1).toNat aget pget (by omega)
        have hlen := hI.len
        have hcnt := hI.cnt
        simp only [occupied] at hcnt
        omega
      | some C =>
        obtain ⟨S4, -, h4, -⟩ := coroutine_new_free S3 f3 1 hI3.cap_le (by omega) (by omega) (by omega)
          (by rw [hnext]; exact hb) (fun j1 hj1 => by
            have : j1 = 0 := by omega
            subst this
            rw [hstart]
            exact ⟨C, hv⟩)
        exact ⟨_, S4, h4, Or.inr hnext⟩
    · -- no growth: the third spawn repeats the scan of the first
      have hmod : (S3.nco + (j : Int)) % S3.cap = a := by
        rw [hnco3, hcap3, hcap2, hcap1, haid]
      obtain ⟨S4, -, h4, -⟩ := coroutine_new_free S3 f3 j hI3.cap_le (by omega) (by omega) (by omega)
        (by rw [hmod]; exact ha) (fun j1 hj1 => by
          obtain ⟨C, hC⟩ := hleast j1 hj1
          refine ⟨C, ?_⟩
          rw [hnco3, hcap3, hcap2, hcap1]
          exact keep _ C hC)
      exact ⟨_, S4, h4, Or.inl hmod⟩
theorem demo_R_run : RunOf 0 1 demo_R2 (coroutine_open demo_mem) :=
  RunOf.complete _
    (RunOf.resume 1 Prog.ret _
      (RunOf.complete _
        (RunOf.resume 0 Prog.ret _ (RunOf.start demo_R2) (Or.inl rfl) rfl)
        (by decide) rfl)
      (Or.inr rfl) rfl)
    (by decide) rfl

/-- C3: slot reuse.  In every reachable scheduler with no coroutine running, if
`coroutine_new` returns `a`, a second `coroutine_new` returns `b`, the two
coroutines then run to completion so that both slots are empty, and
`coroutine_new` is called a third time, that call returns `a` or `b`. -/
theorem C3_slot_reuse (S0 : schedule) (h : Reachable S0) (hr : S0.running = -1)
    (f1 f2 f3 : Prog) (a b : Int) (S1 S2 S3 : schedule)
    (hn1 : coroutine_new S0 f1 = .ok (a, S1)) (hn2 : coroutine_new S1 f2 = .ok (b, S2))
    (hrun : RunOf a b S2 S3) (ha : co_at S3 a = .ok none) (hb : co_at S3 b = .ok none) :
    ∃ c S4, coroutine_new S3 f3 = .ok (c, S4) ∧ (c = a ∨ c = b) :=
  slot_reuse S0 h.to_inv hr f1 f2 f3 a b S1 S2 S3 hn1 hn2 hrun ha hb

theorem C3_slot_reuse_witness :
    coroutine_new (coroutine_open demo_mem) Prog.ret = .ok (0, demo_R1) ∧
    coroutine_new demo_R1 Prog.ret = .ok (1, demo_R2) ∧
    RunOf 0 1 demo_R2 (coroutine_open demo_mem) ∧
    coroutine_new (coroutine_open demo_mem) Prog.ret = .ok (0, demo_R1) ∧
    ∃ c S4, coroutine_new (coroutine_open demo_mem) Prog.ret = .ok (c, S4) ∧ (c = 0 ∨ c = 1) :=
  ⟨rfl, rfl, demo_R_run, rfl,
    C3_slot_reuse (coroutine_open demo_mem) ⟨_, Run.open demo_mem⟩ rfl Prog.ret Prog.ret Prog.ret
      0 1 demo_R1 demo_R2 (coroutine_open demo_mem) rfl rfl demo_R_run rfl rfl⟩
/-- C11: completion.  When the body of the running coroutine `id` returns in a
reachable scheduler, the trampoline empties slot `id`, lowers `nco` by exactly
one, sets `S->running` to `-1` and leaves `cap`, the shared stack and every
other slot unchanged.  No other step empties a slot: after `coroutine_new`,
after the switch of `coroutine_resume` and after `coroutine_yield` every slot
that was occupied is still occupied (`coroutine_status` and `coroutine_running`
return a value and no scheduler). -/
theorem C11_completion (S : schedule) (h : Reachable S) :
    (0 ≤ S.running → ∃ S1, mainfunc_return S S.running = .ok S1 ∧
      co_at S1 S.running = .ok none ∧ S1.nco = S.nco - 1 ∧ S1.running = -1 ∧
      S1.cap = S.cap ∧ S1.stack = S.stack ∧
      ∀ j : Int, j ≠ S.running → co_at S1 j = co_at S j) ∧
    (∀ (func : Prog) (id : Int) (S1 : schedule), coroutine_new S func = .ok (id, S1) →
      ∀ (j : Int) (C : coroutine), co_at S j = .ok (some C) → co_at S1 j = .ok (some C)) ∧
    (∀ (id : Int) (k : Prog) (S1 : schedule), resume_enter S id = .ok (some (k, S1)) →
      ∀ (j : Int) (C : coroutine), co_at S j = .ok (some C) →
        ∃ C1, co_at S1 j = .ok (some C1)) ∧
    (∀ (n : Int) (k : Prog) (S1 : schedule), coroutine_yield S n k = .ok S1 →
      ∀ (j : Int) (C : coroutine), co_at S j = .ok (some C) →
        ∃ C1, co_at S1 j = .ok (some C1)) := by
  have hI := h.to_inv
  refine ⟨?_, ?_, ?_, ?_⟩
  · intro hr
    obtain ⟨S1, hret⟩ := mainfunc_return_total S hI hr
    obtain ⟨f1, f2, f3, f4⟩ := mainfunc_return_fields hret
    have hs := mainfunc_return_slots hret
    refine ⟨S1, hret, by rw [hs, if_pos rfl], f3, f1, f2, f4, fun j hj => ?_⟩
    rw [hs, if_neg hj]
  · intro func id S1 hnew j C hC
    obtain ⟨hfree, -, hother⟩ := coroutine_new_slots hI hnew
    have hj : j ≠ id := by rintro rfl; exact hfree ⟨C, hC⟩
    exact (hother j C hj).mpr hC
  · intro id k S1 hres j C hC
    obtain ⟨D, -, -, hs⟩ := resume_enter_slots hres
    rw [hs]
    by_cases hj : j = id
    · rw [if_pos hj]; exact ⟨_, rfl⟩
    · rw [if_neg hj]; exact ⟨C, hC⟩
  · intro n k S1 hy j C hC
    obtain ⟨D, D1, -, -, hs⟩ := coroutine_yield_slots hy
    rw [hs]
    by_cases hj : j = S.running
    · rw [if_pos hj]; exact ⟨_, rfl⟩
    · rw [if_neg hj]; exact ⟨C, hC⟩

theorem C11_completion_witness :
    ∃ S1, mainfunc_return demo_S3 demo_S3.running = .ok S1 ∧
      co_at S1 demo_S3.running = .ok none ∧ S1.nco = demo_S3.nco - 1 ∧ S1.running = -1 :=
  ((C11_completion demo_S3 ⟨_, demo_run3⟩).1 (by decide)).imp
    fun _ h => ⟨h.1, h.2.1, h.2.2.1, h.2.2.2.1⟩

/-- C12: for every scheduler with `S->running = -1` and every `id` in
`[0, cap)` whose slot is empty, `coroutine_resume(id)` returns and the
scheduler it leaves (`cap`, `nco`, `running`, every slot and the shared stack)
is the one it was given; nothing is printed. -/
theorem C12_resume_empty_unchanged (S : schedule) (id : Int) (out : Output)
    (hr : S.running = -1) (h0 : 0 ≤ id) (h1 : id < S.cap) (hC : co_at S id = .ok none) :
    coroutine_resume S id out = .ok (S, out) :=
  coroutine_resume_empty S id out hr h0 h1 hC

theorem C12_resume_empty_unchanged_witness :
    coroutine_resume demo_S2 5 [] = .ok (demo_S2, []) :=
  C12_resume_empty_unchanged demo_S2 5 [] rfl (by decide) (by decide) rfl

theorem coroutine_resume_assert (S : schedule) (id : Int) (out : Output)
    (h : S.running ≠ -1 ∨ id < 0 ∨ id ≥ S.cap) :
    coroutine_resume S id out = .error .assertion := by
  unfold coroutine_resume resume_enter
  by_cases hr : S.running ≠ -1
  · rw [if_pos hr]
  · rw [if_neg hr, if_pos (by omega)]

theorem coroutine_status_assert (S : schedule) (id : Int) (h : id < 0 ∨ id ≥ S.cap) :
    coroutine_status S id = .error .assertion := by
  unfold coroutine_status
  rw [if_pos (by omega)]

theorem coroutine_yield_assert (S : schedule) (n : Int) (k : Prog) (h : S.running < 0) :
    coroutine_yield S n k = .error .assertion := by
  unfold coroutine_yield
  simp only
  rw [if_pos (by omega)]

/-- The traced `coroutine_status` ends as `coroutine_status` does, and a call
that returns leaves the scheduler as it found it. -/
theorem coroutine_status_traced_result (S : schedule) (id : Int) :
    (coroutine_status_traced S id).result =
      match coroutine_status S id with
      | .error e => .error e
      | .ok v => .ok (S, v) := by
  unfold coroutine_status_traced coroutine_status
  split
  · rfl
  · cases hc : co_at S id with
    | error e =>
      obtain ⟨rfl, -⟩ := (co_at_error_iff S id e).mp hc
      rfl
    | ok v =>
      cases v with
      | none => rfl
      | some C => rfl

/-- The traced entry of `coroutine_resume` ends as `resume_enter` does. -/
theorem resume_enter_traced_result (S : schedule) (id : Int) :
    (resume_enter_traced S id).result =
      match resume_enter S id with
      | .error e => .error e
      | .ok none => .ok (S, none)
      | .ok (some (k, S1)) => .ok (S1, some k) := by
  unfold resume_enter_traced resume_enter
  split
  · rfl
  split
  · rfl
  cases hc : co_at S id with
  | error e =>
    obtain ⟨rfl, -⟩ := (co_at_error_iff S id e).mp hc
    rfl
  | ok v =>
    cases v with
    | none => rfl
    | some C =>
      simp only
      split
      · rfl
      split
      · split
        · rfl
        · cases C.ctx with
          | none => rfl
          | some k => rfl
      · rfl

/-- The traced `coroutine_yield` ends as `coroutine_yield` does. -/
theorem coroutine_yield_traced_result (S : schedule) (n : Int) (k : Prog) :
    (coroutine_yield_traced S n k).result =
      match coroutine_yield S n k with
      | .error e => .error e
      | .ok S1 => .ok (S1, ()) := by
  unfold coroutine_yield_traced coroutine_yield
  simp only
  split
  · rfl
  cases hc : co_at S S.running with
  | error e =>
    obtain ⟨rfl, -⟩ := (co_at_error_iff S S.running e).mp hc
    rfl
  | ok v =>
    cases v with
    | none => rfl
    | some C =>
      simp only
      cases hs : _save_stack S.stack C n with
      | error e => cases e <;> rfl
      | ok C1 => rfl

theorem resume_enter_traced_assert (S : schedule) (id : Int)
    (h : S.running ≠ -1 ∨ id < 0 ∨ id ≥ S.cap) :
    resume_enter_traced S id = .aborted S := by
  unfold resume_enter_traced
  by_cases hr : S.running ≠ -1
  · rw [if_pos hr]
  · rw [if_neg hr, if_pos (by omega)]

theorem coroutine_status_traced_assert (S : schedule) (id : Int) (h : id < 0 ∨ id ≥ S.cap) :
    coroutine_status_traced S id = .aborted S := by
  unfold coroutine_status_traced
  rw [if_pos (by omega)]

theorem coroutine_yield_traced_assert (S : schedule) (n : Int) (k : Prog) (h : S.running < 0) :
    coroutine_yield_traced S n k = .aborted S := by
  unfold coroutine_yield_traced
  simp only
  rw [if_pos (by omega)]

/-- C13: contract violations stop at an assertion and leave the scheduler
untouched.  `coroutine_resume` called while `S->running != -1`, or with
`id < 0` or `id >= cap`; `coroutine_status` called with `id < 0` or
`id >= cap`; and `coroutine_yield` called while `S->running = -1`: each ends in
a failed assertion instead of returning, and the scheduler in memory when
`abort` is called is the scheduler `S` that the call was given.  The traced
functions, which say what is in memory at the end of a call, end in every case
as the functions used elsewhere do. -/
theorem C13_contract_violations_abort (S : schedule) :
    (∀ (id : Int) (out : Output), S.running ≠ -1 ∨ id < 0 ∨ id ≥ S.cap →
      coroutine_resume S id out = .error .assertion ∧ resume_enter_traced S id = .aborted S) ∧
    (∀ id : Int, id < 0 ∨ id ≥ S.cap →
      coroutine_status S id = .error .assertion ∧ coroutine_status_traced S id = .aborted S) ∧
    (∀ (n : Int) (k : Prog), S.running = -1 →
      coroutine_yield S n k = .error .assertion ∧ coroutine_yield_traced S n k = .aborted S) ∧
    (∀ id : Int, (resume_enter_traced S id).result =
      match resume_enter S id with
      | .error e => .error e
      | .ok none => .ok (S, none)
      | .ok (some (k, S1)) => .ok (S1, some k)) ∧
    (∀ id : Int, (coroutine_status_traced S id).result =
      match coroutine_status S id with
      | .error e => .error e
      | .ok v => .ok (S, v)) ∧
    (∀ (n : Int) (k : Prog), (coroutine_yield_traced S n k).result =
      match coroutine_yield S n k with
      | .error e => .error e
      | .ok S1 => .ok (S1, ())) :=
  ⟨fun id out h => ⟨coroutine_resume_assert S id out h, resume_enter_traced_assert S id h⟩,
    fun id h => ⟨coroutine_status_assert S id h, coroutine_status_traced_assert S id h⟩,
    fun n k h => ⟨coroutine_yield_assert S n k (by omega),
      coroutine_yield_traced_assert S n k (by omega)⟩,
    fun id => resume_enter_traced_result S id,
    fun id => coroutine_status_traced_result S id,
    fun n k => coroutine_yield_traced_result S n k⟩

theorem C13_contract_violations_abort_witness :
    (coroutine_resume demo_S3 1 [] = .error .assertion ∧
      resume_enter_traced demo_S3 1 = .aborted demo_S3) ∧
    (coroutine_resume demo_S2 16 [] = .error .assertion ∧
      resume_enter_traced demo_S2 16 = .aborted demo_S2) ∧
    (coroutine_resume demo_S2 (-1) [] = .error .assertion ∧
      resume_enter_traced demo_S2 (-1) = .aborted demo_S2) ∧
    (coroutine_status demo_S2 16 = .error .assertion ∧
      coroutine_status_traced demo_S2 16 = .aborted demo_S2) ∧
    (coroutine_yield demo_S2 64 Prog.ret = .error .assertion ∧
      coroutine_yield_traced demo_S2 64 Prog.ret = .aborted demo_S2) :=
  ⟨(C13_contract_violations_abort demo_S3).1 1 [] (Or.inl (by decide)),
    (C13_contract_violations_abort demo_S2).1 16 [] (Or.inr (Or.inr (by decide))),
    (C13_contract_violations_abort demo_S2).1 (-1) [] (Or.inr (Or.inl (by decide))),
    (C13_contract_violations_abort demo_S2).2.1 16 (Or.inr (by decide)),
    (C13_contract_violations_abort demo_S2).2.2.1 64 Prog.ret rfl⟩

theorem Inv.idle_status {S : schedule} (h : Inv S) (hr : S.running = -1) (id : Int)
    (C : coroutine) (hC : co_at S id = .ok (some C)) :
    C.status = COROUTINE_READY ∨ C.status = COROUTINE_SUSPEND := by
  obtain ⟨h0, -, hget⟩ := (co_at_ok_iff _ _ _).mp hC
  rcases h.st _ C hget with e | e | e
  · exact Or.inl e
  · have := (h.run _ C hget).mp e
    omega
  · exact Or.inr e

/-- C19: in every reachable scheduler with `S->running = -1` every occupied
slot holds a coroutine whose status is `READY` or `SUSPEND`, never `RUNNING` or
`DEAD`; so when the two entry assertions of `coroutine_resume` pass, the call
reaches its `swapcontext` or returns at the `NULL` check, and never the
`assert(0)` of the default branch. -/
theorem C19_idle_slots_ready_or_suspended (S : schedule) (h : Reachable S)
    (hr : S.running = -1) :
    (∀ (id : Int) (C : coroutine), co_at S id = .ok (some C) →
      (C.status = COROUTINE_READY ∨ C.status = COROUTINE_SUSPEND) ∧
      C.status ≠ COROUTINE_RUNNING ∧ C.status ≠ COROUTINE_DEAD) ∧
    (∀ id : Int, 0 ≤ id → id < S.cap →
      (∃ r, resume_enter S id = .ok r) ∧ resume_enter S id ≠ .error .assertion) := by
  have hI := h.to_inv
  refine ⟨?_, ?_⟩
  · intro id C hC
    have := hI.idle_status hr id C hC
    refine ⟨this, ?_, ?_⟩ <;>
      rcases this with e | e <;> rw [e] <;> decide
  · intro id h0 h1
    have key : ∃ r, resume_enter S id = .ok r := by
      obtain ⟨v, hv⟩ := hI.co_at_some id h0 h1
      cases v with
      | none =>
        refine ⟨none, ?_⟩
        unfold resume_enter
        rw [if_neg (by simp [hr]), if_neg (by simp [h0, h1]), hv]
      | some C =>
        obtain ⟨k, S1, C1, he, -⟩ :=
          resume_enter_total S hI id C hr h0 h1 hv (hI.idle_status hr id C hv)
        exact ⟨_, he⟩
    refine ⟨key, ?_⟩
    obtain ⟨r, hr1⟩ := key
    rw [hr1]
    intro e; cases e

theorem C19_idle_slots_ready_or_suspended_witness :
    (∃ r, resume_enter demo_S2 1 = .ok r) ∧ resume_enter demo_S2 1 ≠ .error .assertion :=
  (C19_idle_slots_ready_or_suspended demo_S2
    ⟨_, Run.new _ 1 _ (Run.new _ 0 _ (Run.open demo_mem) demo_new1) demo_new2⟩ rfl).2 1
    (by decide) (by decide)
theorem Run.ids_in_range {tr : List Event} {S : schedule} (h : Run tr S) :
    ∀ id : Int, Event.new id ∈ tr → 0 ≤ id ∧ id < S.cap := by
  induction h with
  | «open» mem => intro id hmem; cases hmem
  | @new tr S func id S1 hrun hnew ih =>
    intro j hmem
    have hI1 := Inv_new hrun.inv func id S1 hnew
    rcases List.mem_cons.mp hmem with e | e
    · simp only [Event.new.injEq] at e
      subst e
      obtain ⟨-, hnow, -⟩ := coroutine_new_slots hrun.inv hnew
      obtain ⟨h0, h1, -⟩ := (co_at_ok_iff _ _ _).mp hnow
      have := hI1.len
      exact ⟨h0, by omega⟩
    · have := ih j e
      have := (coroutine_new_running hnew).2
      exact ⟨by omega, by omega⟩
  | @resume tr S id k S1 hrun hres ih =>
    intro j hmem
    rcases List.mem_cons.mp hmem with e | e
    · cases e
    · rw [(resume_enter_fields hres).2.1]; exact ih j e
  | @yield tr S n k S1 hrun hy ih =>
    intro j hmem
    rcases List.mem_cons.mp hmem with e | e
    · cases e
    · rw [(coroutine_yield_fields hy).2.1]; exact ih j e
  | @complete tr S S1 hrun hr hret ih =>
    intro j hmem
    rcases List.mem_cons.mp hmem with e | e
    · cases e
    · rw [(mainfunc_return_fields hret).2.1]; exact ih j e
  | @write tr S stk hrun ih =>
    intro j hmem
    rcases List.mem_cons.mp hmem with e | e
    · cases e
    · exact ih j e

/-- C17: the capacity of the slot table starts at 16; `coroutine_new` on a
full table exactly doubles it and no other step changes it, so it never
decreases; hence in every reachable scheduler `cap = 16 * 2^k` for some `k`,
and every id that `coroutine_new` has returned so far lies in `[0, cap)`. -/
theorem C17_capacity_doubles (tr : List Event) (S : schedule) (h : Run tr S) :
    (∀ mem : Int → Byte, (coroutine_open mem).cap = 16) ∧
    (∃ k : Nat, S.cap = 16 * 2 ^ k) ∧
    (∀ id : Int, Event.new id ∈ tr → 0 ≤ id ∧ id < S.cap) ∧
    (∀ (func : Prog) (id : Int) (S1 : schedule), coroutine_new S func = .ok (id, S1) →
      (S.nco < S.cap ∧ S1.cap = S.cap) ∨ (S.nco ≥ S.cap ∧ S1.cap = 2 * S.cap)) ∧
    (∀ (id : Int) (k : Prog) (S1 : schedule), resume_enter S id = .ok (some (k, S1)) →
      S1.cap = S.cap) ∧
    (∀ (n : Int) (k : Prog) (S1 : schedule), coroutine_yield S n k = .ok S1 →
      S1.cap = S.cap) ∧
    (∀ (id : Int) (S1 : schedule), mainfunc_return S id = .ok S1 → S1.cap = S.cap) := by
  refine ⟨fun _ => rfl, h.inv.pow, h.ids_in_range, ?_, ?_, ?_, ?_⟩
  · intro func id S1 hnew
    rcases (coroutine_new_cases h.inv hnew).2 with ⟨h1, -, h2⟩ | ⟨h1, h2, -⟩
    · exact Or.inr ⟨by omega, h2⟩
    · exact Or.inl ⟨h1, h2⟩
  · intro id k S1 hres
    exact (resume_enter_fields hres).2.1
  · intro n k S1 hy
    exact (coroutine_yield_fields hy).2.1
  · intro id S1 hret
    exact (mainfunc_return_fields hret).2.1

theorem C17_capacity_doubles_witness :
    (∃ k : Nat, demo_S3.cap = 16 * 2 ^ k) ∧ (0 : Int) ≤ 1 ∧ (1 : Int) < demo_S3.cap :=
  ⟨(C17_capacity_doubles _ demo_S3 demo_run3).2.1,
    (C17_capacity_doubles _ demo_S3 demo_run3).2.2.1 1 (by decide)⟩

theorem mainfunc_ptr_split (p : Nat) (h : p < 2 ^ 64) :
    mainfunc_ptr (resume_low32 p) (resume_hi32 p) = p := by
  unfold mainfunc_ptr resume_low32 resume_hi32
  have h1 : p >>> 32 < 2 ^ 32 := by
    rw [Nat.shiftRight_eq_div_pow]; omega
  rw [Nat.mod_eq_of_lt h1, Nat.shiftLeft_eq]
  have h2 : p >>> 32 * 2 ^ 32 < 2 ^ 64 := by omega
  rw [Nat.mod_eq_of_lt h2, Nat.lor_comm, Nat.mul_comm,
    ← Nat.mul_add_lt_is_or (Nat.mod_lt _ (by norm_num)), Nat.shiftRight_eq_div_pow]
  exact Nat.div_add_mod p (2 ^ 32)

/-- C20: pointer hand-off round trip.  For every 64-bit pointer value `p`,
the two 32-bit words `(uint32_t)p` and `(uint32_t)(p >> 32)` that
`coroutine_resume` passes on are both below `2^32`, and `mainfunc` recombines
them into exactly `p`. -/
theorem C20_pointer_round_trip (p : Nat) (h : p < 2 ^ 64) :
    resume_low32 p < 2 ^ 32 ∧ resume_hi32 p < 2 ^ 32 ∧
      mainfunc_ptr (resume_low32 p) (resume_hi32 p) = p :=
  ⟨Nat.mod_lt _ (by norm_num), Nat.mod_lt _ (by norm_num), mainfunc_ptr_split p h⟩

theorem C20_pointer_round_trip_witness :
    (0x7ffd12345678 : Nat) < 2 ^ 64 ∧
      mainfunc_ptr (resume_low32 0x7ffd12345678) (resume_hi32 0x7ffd12345678) =
        0x7ffd12345678 :=
  ⟨by norm_num, (C20_pointer_round_trip 0x7ffd12345678 (by norm_num)).2.2⟩
/-- One `_save_stack` on a coroutine whose buffer has `cap` bytes: what it
returns, field by field. -/
theorem save_stack_step (stk : Int → Byte) (C : coroutine) (n : Int)
    (hb : C.cap = (C.stack.length : Int)) (hn0 : 0 ≤ n) (hn1 : n ≤ STACK_SIZE) :
    ∃ C1, _save_stack stk C n = .ok C1 ∧ C.cap ≤ C1.cap ∧ (C1.cap ≠ C.cap → C.cap < n) ∧
      (C.cap < n → C1.cap = n) ∧ C1.cap = max C.cap n ∧ C1.size = n ∧ 0 ≤ C1.size ∧
      C1.size ≤ C1.cap ∧ C1.cap = (C1.stack.length : Int) ∧
      C1.status = C.status ∧ C1.func = C.func ∧ C1.ctx = C.ctx := by
  refine ⟨_, save_stack_total stk C n hb hn0 hn1, ?_, ?_, ?_, ?_, rfl, hn0, ?_, ?_, rfl, rfl, rfl⟩
  · show C.cap ≤ if C.cap < n then n else C.cap
    split <;> omega
  · show (if C.cap < n then n else C.cap) ≠ C.cap → C.cap < n
    intro h
    by_contra hc
    exact h (if_neg hc)
  · show C.cap < n → (if C.cap < n then n else C.cap) = n
    intro h
    exact if_pos h
  · show (if C.cap < n then n else C.cap) = max C.cap n
    by_cases hc : C.cap < n
    · rw [if_pos hc, max_eq_right (by omega)]
    · rw [if_neg hc, max_eq_left (by omega)]
  · show n ≤ if C.cap < n then n else C.cap
    split <;> omega
  · show (if C.cap < n then n else C.cap) =
      ((live_bytes stk n ++
        (if C.cap < n then List.replicate n.toNat 0 else C.stack).drop n.toNat).length : Int)
    simp only [List.length_append, live_bytes_length, List.length_drop]
    by_cases hc : C.cap < n
    · simp only [if_pos hc, List.length_replicate]; omega
    · simp only [if_neg hc]; omega

theorem save_stack_seq_spec :
    ∀ (l : List (Int × (Int → Byte))) (C : coroutine), C.cap = (C.stack.length : Int) →
      (∀ p ∈ l, 0 ≤ p.1 ∧ p.1 ≤ STACK_SIZE) →
      ∃ C2, save_stack_seq C l = .ok C2 ∧
        C2.cap = l.foldl (fun m p => max m p.1) C.cap ∧ C.cap ≤ C2.cap ∧
        C2.cap = (C2.stack.length : Int) ∧
        ∀ p, l.getLast? = some p → C2.size = p.1 ∧ 0 ≤ C2.size ∧ C2.size ≤ C2.cap := by
  intro l
  induction l with
  | nil =>
    intro C hb _
    exact ⟨C, rfl, rfl, le_refl _, hb, fun p hp => by cases hp⟩
  | cons q rest ih =>
    intro C hb hl
    obtain ⟨n, stk⟩ := q
    have hq := hl (n, stk) (List.mem_cons_self _ _)
    obtain ⟨C1, h1, hle, -, -, hmax, hsz, hsz0, hsz1, hb1, -⟩ :=
      save_stack_step stk C n hb hq.1 hq.2
    obtain ⟨C2, h2, hcap2, hle2, hb2, hlast⟩ :=
      ih C1 hb1 (fun p hp => hl p (List.mem_cons_of_mem _ hp))
    refine ⟨C2, by simp only [save_stack_seq, h1, h2], ?_, by omega, hb2, ?_⟩
    · rw [hcap2, hmax]; rfl
    · intro p hp
      cases rest with
      | nil =>
        simp only [List.getLast?_singleton, Option.some.injEq] at hp
        subst hp
        simp only [save_stack_seq, Except.ok.injEq] at h2
        subst h2
        exact ⟨hsz, hsz0, hsz1⟩
      | cons r rest1 =>
        exact hlast p (by rw [List.getLast?_cons_cons] at hp; exact hp)

/-- C16: for every coroutine and every sequence of yields with footprints
between 0 and `STACK_SIZE`, each yield returns; the saved-stack capacity never
decreases and changes only when the footprint exceeds it, becoming the
footprint; after every yield `0 <= size <= cap` with `size` the footprint of
that yield; so after the sequence `cap` is the maximum of the old capacity (0
for a new coroutine) and the footprints seen.  The yields of a coroutine are
the calls of `_save_stack` on it, and the switch of `coroutine_resume` between
two of them leaves capacity, size and buffer as they are. -/
theorem C16_capacity_is_max_footprint (C : coroutine) (hb : C.cap = (C.stack.length : Int))
    (l : List (Int × (Int → Byte))) (hl : ∀ p ∈ l, 0 ≤ p.1 ∧ p.1 ≤ STACK_SIZE) :
    (∀ (stk : Int → Byte) (n : Int), 0 ≤ n → n ≤ STACK_SIZE →
      ∃ C1, _save_stack stk C n = .ok C1 ∧ C.cap ≤ C1.cap ∧ (C1.cap ≠ C.cap → C.cap < n) ∧
        C1.cap = max C.cap n ∧ C1.size = n ∧ 0 ≤ C1.size ∧ C1.size ≤ C1.cap) ∧
    (∃ C2, save_stack_seq C l = .ok C2 ∧
      C2.cap = l.foldl (fun m p => max m p.1) C.cap ∧ C.cap ≤ C2.cap ∧
      ∀ p, l.getLast? = some p → C2.size = p.1 ∧ 0 ≤ C2.size ∧ C2.size ≤ C2.cap) ∧
    (∀ func : Prog, ∃ C2, save_stack_seq (_co_new func) l = .ok C2 ∧
      C2.cap = l.foldl (fun m p => max m p.1) 0) ∧
    (∀ (S : schedule) (n : Int) (k : Prog) (S1 : schedule), coroutine_yield S n k = .ok S1 →
      ∃ D D1 D2, co_at S S.running = .ok (some D) ∧ _save_stack S.stack D n = .ok D1 ∧
        co_at S1 S.running = .ok (some D2) ∧ D2.cap = D1.cap ∧ D2.size = D1.size ∧
        D2.stack = D1.stack) ∧
    (∀ (S : schedule) (id : Int) (k : Prog) (S1 : schedule),
      resume_enter S id = .ok (some (k, S1)) →
      ∃ D D1, co_at S id = .ok (some D) ∧ co_at S1 id = .ok (some D1) ∧ D1.cap = D.cap ∧
        D1.size = D.size ∧ D1.stack = D.stack) := by
  refine ⟨?_, ?_, ?_, ?_, ?_⟩
  · intro stk n hn0 hn1
    obtain ⟨C1, h1, h2, h3, -, h4, h5, h6, h7, -⟩ := save_stack_step stk C n hb hn0 hn1
    exact ⟨C1, h1, h2, h3, h4, h5, h6, h7⟩
  · obtain ⟨C2, h1, h2, h3, -, h4⟩ := save_stack_seq_spec l C hb hl
    exact ⟨C2, h1, h2, h3, h4⟩
  · intro func
    obtain ⟨C2, h1, h2, -⟩ := save_stack_seq_spec l (_co_new func) rfl hl
    exact ⟨C2, h1, h2⟩
  · intro S n k S1 hy
    obtain ⟨D, D1, hD, hsave, hs⟩ := coroutine_yield_slots hy
    exact ⟨D, D1, { D1 with status := COROUTINE_SUSPEND, ctx := some k }, hD, hsave,
      by rw [hs, if_pos rfl], rfl, rfl, rfl⟩
  · intro S id k S1 hres
    obtain ⟨D, hD, -, hs⟩ := resume_enter_slots hres
    exact ⟨D, { D with ctx := some k, status := COROUTINE_RUNNING }, hD,
      by rw [hs, if_pos rfl], rfl, rfl, rfl⟩

theorem C16_capacity_is_max_footprint_witness :
    ∃ C2, save_stack_seq (_co_new Prog.ret) [(64, demo_mem), (32, demo_mem), (80, demo_mem)]
        = .ok C2 ∧
      C2.cap = [((64 : Int), demo_mem), (32, demo_mem), (80, demo_mem)].foldl
        (fun m p => max m p.1) 0 ∧
      (80 : Int) = [((64 : Int), demo_mem), (32, demo_mem), (80, demo_mem)].foldl
        (fun m p => max m p.1) 0 :=
  ((C16_capacity_is_max_footprint (_co_new Prog.ret) rfl
    [(64, demo_mem), (32, demo_mem), (80, demo_mem)]
    (fun p hp => by
      simp only [List.mem_cons, List.mem_singleton, List.not_mem_nil, or_false] at hp
      rcases hp with rfl | rfl | rfl <;> exact ⟨by decide, by decide⟩)).2.2.1 Prog.ret).imp
    fun _ h => ⟨h.1, h.2, by decide⟩
/-- The running coroutine of a well-formed scheduler, with its buffer. -/
theorem Inv.running_slot {S : schedule} (h : Inv S) (hr : 0 ≤ S.running) :
    ∃ C, co_at S S.running = .ok (some C) ∧ C.cap = (C.stack.length : Int) ∧
      C.status = COROUTINE_RUNNING := by
  rcases h.cur with hr1 | ⟨-, C, hget⟩
  · omega
  have hlt := (List.getElem?_eq_some_iff.mp hget).1
  exact ⟨C, (co_at_ok_iff _ _ _).mpr ⟨hr, by omega, hget⟩, h.buf _ C hget,
    (h.run _ C hget).mpr (by omega)⟩

/-- A yield that enlarges the saved-stack buffer from capacity `c` to `d`, for
any `0 < c < d <= STACK_SIZE`. -/
theorem enlarge_to (c d : Int) (hc0 : 0 < c) (hcd : c < d) (hd : d ≤ STACK_SIZE) :
    ∃ S C S1 C1, Reachable S ∧ 0 ≤ S.running ∧ co_at S S.running = .ok (some C) ∧
      C.cap = c ∧ coroutine_yield S d Prog.ret = .ok S1 ∧
      co_at S1 S.running = .ok (some C1) ∧ C1.cap = d ∧ C1.size = d := by
  -- first yield, with footprint `c`
  obtain ⟨C3, hC3, hb3, -⟩ := demo_run3.inv.running_slot (by decide)
  obtain ⟨S4, C4, hy4, hC4, -, -, hst4, -, -, hcap4, hb4, hr4, hc4, -, -, -⟩ :=
    coroutine_yield_total demo_S3 c Prog.ret C3 (by decide) hC3 hb3 (by omega) (by omega)
  have hrun4 : Run _ S4 := Run.yield c Prog.ret S4 demo_run3 hy4
  have hC3cap : C3.cap = 0 := by
    have : co_at demo_S3 demo_S3.running =
        .ok (some ⟨demo_foo 0, some (demo_foo 0), 0, 0, COROUTINE_RUNNING, []⟩) := rfl
    rw [hC3] at this
    simp only [Except.ok.injEq, Option.some.injEq] at this
    rw [this]
  have hcap4' : C4.cap = c := by rw [hcap4, hC3cap, if_pos hc0]
  -- resume it
  have hid : demo_S3.running = 0 := rfl
  rw [hid] at hC4
  obtain ⟨k5, S5, C5, he5, -, -, hr5, -, -, -, -, -⟩ :=
    resume_enter_total S4 hrun4.inv 0 C4 hr4 (by decide) (by rw [hc4]; decide) hC4 (Or.inr hst4)
  obtain ⟨D, hD, -, hs5⟩ := resume_enter_slots he5
  rw [hC4] at hD
  simp only [Except.ok.injEq, Option.some.injEq] at hD
  subst hD
  have hrun5 : Run _ S5 := Run.resume 0 k5 S5 hrun4 he5
  have hC5 : co_at S5 S5.running =
      .ok (some { C4 with ctx := some k5, status := COROUTINE_RUNNING }) := by
    rw [hr5, hs5, if_pos rfl]
  -- second yield, with footprint `d`
  obtain ⟨S6, C6, hy6, hC6, hsz6, -, -, -, -, hcap6, -⟩ :=
    coroutine_yield_total S5 d Prog.ret _ (by omega) hC5 hb4 (by omega) (by omega)
  refine ⟨S5, _, S6, C6, ⟨_, hrun5⟩, by omega, hC5, hcap4', hy6, hC6, ?_, hsz6⟩
  rw [hcap6]
  simp only [hcap4']
  rw [if_pos (by omega)]

/-- What one `coroutine_yield` does to the saved-stack buffer of the running
coroutine: the size is the footprint, the capacity the larger of the old
capacity and the footprint, and an enlarged non-zero capacity has grown by the
factor `STACK_SIZE / (STACK_SIZE - 1)` at least. -/
theorem save_stack_growth (S : schedule) (n : Int) (p : Prog)
    (C : coroutine) (S1 : schedule) (C1 : coroutine)
    (hC : co_at S S.running = .ok (some C)) (hy : coroutine_yield S n p = .ok S1)
    (hC1 : co_at S1 S.running = .ok (some C1)) :
    C1.size = n ∧ C1.cap = max C.cap n ∧
      (C.cap ≠ 0 → C.cap < C1.cap →
        (1048576 / 1048575 : ℚ) * (C.cap : ℚ) ≤ (C1.cap : ℚ)) := by
  obtain ⟨D, D1, hD, hsave, hslot⟩ := coroutine_yield_slots hy
  rw [hC] at hD
  simp only [Except.ok.injEq, Option.some.injEq] at hD
  subst hD
  obtain ⟨hn0, hn1, hD1, -⟩ := save_stack_ok hsave
  have h1 := hslot S.running
  rw [if_pos rfl, hC1] at h1
  simp only [Except.ok.injEq, Option.some.injEq] at h1
  subst h1
  subst hD1
  have hcap : (if C.cap < n then n else C.cap) = max C.cap n := by
    by_cases hlt : C.cap < n
    · rw [if_pos hlt, max_eq_right (by omega)]
    · rw [if_neg hlt, max_eq_left (by omega)]
  refine ⟨rfl, hcap, ?_⟩
  intro hne hlt
  simp only at hlt ⊢
  have h2 : C.cap + 1 ≤ (if C.cap < n then n else C.cap) := by omega
  have h3 : C.cap ≤ 1048575 := by
    have : (if C.cap < n then n else C.cap) ≤ STACK_SIZE := by
      by_cases hl : C.cap < n
      · rw [if_pos hl]; exact hn1
      · rw [if_neg hl] at hlt; omega
    simp only [STACK_SIZE] at this
    omega
  have h2q : (C.cap : ℚ) + 1 ≤ ((if C.cap < n then n else C.cap : Int) : ℚ) := by
    exact_mod_cast h2
  have h3q : (C.cap : ℚ) ≤ 1048575 := by exact_mod_cast h3
  linarith

/-- C15: a fixed factor `k > 1` bounds the growth of the saved-stack capacity
from below.  Whenever `coroutine_yield` has saved the stack of the running
coroutine, the saved size is exactly the footprint `n` and
the capacity is the larger of the old capacity `c` and `n`; when that enlarges
the buffer from a non-zero `c`, the new capacity is at least `k * c`.  The
factor is `k = STACK_SIZE / (STACK_SIZE - 1)`: `_save_stack` sets an enlarged
capacity to the footprint itself, a whole number above `c` and at most
`STACK_SIZE`. -/
theorem C15_capacity_growth :
    ∃ k : ℚ, 1 < k ∧
      ∀ (S : schedule) (n : Int) (p : Prog) (C : coroutine) (S1 : schedule) (C1 : coroutine),
        co_at S S.running = .ok (some C) → coroutine_yield S n p = .ok S1 →
        co_at S1 S.running = .ok (some C1) →
        C1.size = n ∧ C1.cap = max C.cap n ∧
          (C.cap ≠ 0 → C.cap < C1.cap → k * (C.cap : ℚ) ≤ (C1.cap : ℚ)) :=
  ⟨1048576 / 1048575, by norm_num, fun S n p C S1 C1 hC hy hC1 =>
    save_stack_growth S n p C S1 C1 hC hy hC1⟩

theorem C15_capacity_growth_witness :
    ∃ k : ℚ, 1 < k ∧ k * 64 ≤ 80 := by
  obtain ⟨k, hk, h⟩ := C15_capacity_growth
  obtain ⟨S, C, S1, C1, -, -, hC, hcap, hy, hC1, hcap1, -⟩ :=
    enlarge_to 64 80 (by decide) (by decide) (by decide)
  have := (h S 80 Prog.ret C S1 C1 hC hy hC1).2.2 (by rw [hcap]; decide)
    (by rw [hcap, hcap1]; decide)
  rw [hcap, hcap1] at this
  exact ⟨k, hk, by exact_mod_cast this⟩

/-- A table with fewer occupants than entries has an empty entry. -/
theorem exists_empty (l : List (Option coroutine)) (h : l.countP Option.isSome < l.length) :
    ∃ i : Nat, l[i]? = some none := by
  by_contra hne
  have hall : ∀ a ∈ l, Option.isSome a = true := by
    intro a ha
    cases a with
    | none =>
      obtain ⟨n, hn⟩ := List.getElem?_of_mem ha
      exact absurd ⟨n, hn⟩ hne
    | some c => rfl
  have := List.countP_eq_length.mpr hall
  omega

/-- The scan of `coroutine_new` finds a slot whenever one of the slots it
visits is empty. -/
theorem scan_total (S : schedule) (co : coroutine) (hlen : (S.co.length : Int) = S.cap)
    (hpos : 0 < S.cap) (hn0 : 0 ≤ S.nco) (hn1 : S.nco < INT_MAX) :
    ∀ (fuel : Nat) (i : Int), 0 ≤ i → i + fuel + S.nco ≤ INT_MAX + 1 →
      (∃ j : Nat, j < fuel ∧ co_at S ((i + j + S.nco).tmod S.cap) = .ok none) →
      ∃ id S1, coroutine_new_scan S co fuel i = .ok (id, S1) := by
  intro fuel
  induction fuel with
  | zero => rintro i - - ⟨j, hj, -⟩; omega
  | succ fuel ih =>
    intro i hi hb hex
    unfold coroutine_new_scan
    rw [if_neg (by push_cast at hb; omega)]
    simp only
    have hin : ∃ v, co_at S ((i + S.nco).tmod S.cap) = .ok v := by
      rw [Int.tmod_eq_emod (by omega) (by omega)]
      unfold co_at
      rw [if_pos ⟨Int.emod_nonneg _ (by omega), by rw [hlen]; exact Int.emod_lt_of_pos _ hpos⟩]
      exact ⟨_, rfl⟩
    obtain ⟨v, hv⟩ := hin
    rw [hv]
    cases v with
    | none => exact ⟨_, _, rfl⟩
    | some C =>
      simp only
      obtain ⟨j, hj, hfree⟩ := hex
      cases j with
      | zero =>
        simp only [Nat.cast_zero, add_zero] at hfree
        rw [hv] at hfree; cases hfree
      | succ j =>
        refine ih (i + 1) (by omega) (by push_cast at hb ⊢; omega) ⟨j, by omega, ?_⟩
        have e : i + 1 + (j : Int) = i + ((j + 1 : Nat) : Int) := by push_cast; ring
        rw [e]; exact hfree

/-- On a well-formed scheduler `coroutine_new` returns, unless the table is
full and twice its capacity is no `int`. -/
theorem coroutine_new_total (S : schedule) (hI : Inv S) (func : Prog)
    (hfit : S.nco < S.cap ∨ S.cap * 2 ≤ INT_MAX) :
    ∃ id S1, coroutine_new S func = .ok (id, S1) := by
  have hlen := hI.len
  have hpos := hI.cap_pos
  have hcnt := hI.count
  have hle := hI.cap_le
  have hle1 : S.cap ≤ 1073741824 := by norm_num at hle; exact hle
  by_cases hfull : S.nco ≥ S.cap
  · obtain ⟨S1, h1, -⟩ := coroutine_new_full S func hlen hpos hfull (by omega)
      (by simp only [INT_MAX]; omega)
    exact ⟨_, S1, h1⟩
  · have hocc : S.co.countP Option.isSome < S.co.length := by
      have := hI.cnt
      simp only [occupied] at this
      omega
    obtain ⟨p, hp⟩ := exists_empty S.co hocc
    have hplt := (List.getElem?_eq_some_iff.mp hp).1
    have hpat : co_at S (p : Int) = .ok none :=
      (co_at_ok_iff _ _ _).mpr ⟨by omega, by omega, by simpa using hp⟩
    have hj0 : 0 ≤ ((p : Int) - S.nco) % S.cap := Int.emod_nonneg _ (by omega)
    have hj1 : ((p : Int) - S.nco) % S.cap < S.cap := Int.emod_lt_of_pos _ hpos
    have hmod : (0 + ((((p : Int) - S.nco) % S.cap).toNat : Int) + S.nco).tmod S.cap = p := by
      rw [Int.tmod_eq_emod (by omega) (by omega), Int.toNat_of_nonneg hj0, zero_add,
        Int.emod_add_emod, sub_add_cancel]
      exact Int.emod_eq_of_lt (by omega) (by omega)
    unfold coroutine_new
    simp only
    rw [if_neg hfull]
    exact scan_total S _ hlen hpos hcnt.2.1 (by simp only [INT_MAX]; omega) S.cap.toNat 0
      (le_refl _) (by simp only [INT_MAX]; omega)
      ⟨(((p : Int) - S.nco) % S.cap).toNat, by omega, by rw [hmod]; exact hpat⟩

/-- C18: in every reachable scheduler `coroutine_new` never reaches its trailing
`assert(0)`; it returns (unless the table is full and twice its capacity is no
`int`) an id with `0 <= id < cap` of the scheduler it leaves, whose slot held
no coroutine before the call; every coroutine alive at the call has another id
and is still in its slot afterwards. -/
theorem C18_new_returns_free_slot (S : schedule) (h : Reachable S) (func : Prog) :
    coroutine_new S func ≠ .error .assertion ∧
    (S.nco < S.cap ∨ S.cap * 2 ≤ INT_MAX → ∃ id S1, coroutine_new S func = .ok (id, S1)) ∧
    (∀ (id : Int) (S1 : schedule), coroutine_new S func = .ok (id, S1) →
      0 ≤ id ∧ id < S1.cap ∧ (¬ ∃ C, co_at S id = .ok (some C)) ∧
      (id < S.cap → co_at S id = .ok none) ∧
      co_at S1 id = .ok (some (_co_new func)) ∧
      ∀ (j : Int) (C : coroutine), co_at S j = .ok (some C) →
        j ≠ id ∧ co_at S1 j = .ok (some C)) := by
  have hI := h.to_inv
  refine ⟨?_, coroutine_new_total S hI func, ?_⟩
  · by_cases hfit : S.nco < S.cap ∨ S.cap * 2 ≤ INT_MAX
    · obtain ⟨id, S1, h1⟩ := coroutine_new_total S hI func hfit
      rw [h1]; intro e; cases e
    · unfold coroutine_new
      simp only
      rw [if_pos (by omega), if_pos (by omega)]
      intro e; cases e
  · intro id S1 hnew
    obtain ⟨hfree, hnow, hother⟩ := coroutine_new_slots hI hnew
    obtain ⟨h0, h1, -⟩ := (co_at_ok_iff _ _ _).mp hnow
    have hlen1 := (Inv_new hI func id S1 hnew).len
    refine ⟨h0, by omega, hfree, ?_, hnow, ?_⟩
    · intro hlt
      obtain ⟨v, hv⟩ := hI.co_at_some id h0 hlt
      cases v with
      | none => exact hv
      | some C => exact absurd ⟨C, hv⟩ hfree
    · intro j C hC
      have hj : j ≠ id := by rintro rfl; exact hfree ⟨C, hC⟩
      exact ⟨hj, (hother j C hj).mpr hC⟩

theorem C18_new_returns_free_slot_witness :
    coroutine_new demo_S2 Prog.ret ≠ .error .assertion ∧
      ∃ id S1, coroutine_new demo_S2 Prog.ret = .ok (id, S1) :=
  ⟨(C18_new_returns_free_slot demo_S2
      ⟨_, Run.new _ 1 _ (Run.new _ 0 _ (Run.open demo_mem) demo_new1) demo_new2⟩ Prog.ret).1,
    (C18_new_returns_free_slot demo_S2
      ⟨_, Run.new _ 1 _ (Run.new _ 0 _ (Run.open demo_mem) demo_new1) demo_new2⟩ Prog.ret).2.1
      (Or.inl (by decide))⟩

/-! ## `int` locals on the shared stack -/

theorem int_byte_val (v : Int) (j : Nat) :
    ((int_byte v j).val : Int) = (v % 4294967296 / 256 ^ j) % 256 := by
  unfold int_byte
  show ((((v % 4294967296 / 256 ^ j) % 256).toNat % 256 : Nat) : Int) = _
  have h : (0 : Int) ≤ (v % 4294967296 / 256 ^ j) % 256 := Int.emod_nonneg _ (by decide)
  have h2 : (v % 4294967296 / 256 ^ j) % 256 < 256 := Int.emod_lt_of_pos _ (by decide)
  omega

theorem int_of_bytes_int_byte (v : Int) (h0 : -INT_MAX - 1 ≤ v) (h1 : v ≤ INT_MAX) :
    int_of_bytes (int_byte v 0) (int_byte v 1) (int_byte v 2) (int_byte v 3) = v := by
  simp only [INT_MAX] at h0 h1
  unfold int_of_bytes
  simp only [int_byte_val]
  have e0 : (256 : Int) ^ 0 = 1 := by decide
  have e1 : (256 : Int) ^ 1 = 256 := by decide
  have e2 : (256 : Int) ^ 2 = 65536 := by decide
  have e3 : (256 : Int) ^ 3 = 16777216 := by decide
  rw [e0, e1, e2, e3]
  split <;> omega

theorem read_int_congr (stk stk1 : Int → Byte) (off : Int)
    (h : ∀ x : Int, off ≤ x → x < off + 4 → stk x = stk1 x) :
    read_int stk off = read_int stk1 off := by
  unfold read_int
  rw [h off (by omega) (by omega), h (off + 1) (by omega) (by omega),
    h (off + 2) (by omega) (by omega), h (off + 3) (by omega) (by omega)]

theorem write_int_other (stk : Int → Byte) (off : Int) (v : Int) (x : Int)
    (h : x < off ∨ off + 4 ≤ x) : write_int stk off v x = stk x := by
  unfold write_int
  rw [Function.update_noteq (by omega), Function.update_noteq (by omega),
    Function.update_noteq (by omega), Function.update_noteq (by omega)]

theorem read_write_int (stk : Int → Byte) (off : Int) (v : Int)
    (h0 : -INT_MAX - 1 ≤ v) (h1 : v ≤ INT_MAX) :
    read_int (write_int stk off v) off = v := by
  have e0 : write_int stk off v off = int_byte v 0 := by
    unfold write_int
    rw [Function.update_noteq (by omega), Function.update_noteq (by omega),
      Function.update_noteq (by omega), Function.update_same]
  have e1 : write_int stk off v (off + 1) = int_byte v 1 := by
    unfold write_int
    rw [Function.update_noteq (by omega), Function.update_noteq (by omega),
      Function.update_same]
  have e2 : write_int stk off v (off + 2) = int_byte v 2 := by
    unfold write_int
    rw [Function.update_noteq (by omega), Function.update_same]
  have e3 : write_int stk off v (off + 3) = int_byte v 3 := by
    unfold write_int
    rw [Function.update_same]
  unfold read_int
  rw [e0, e1, e2, e3, int_of_bytes_int_byte v h0 h1]

theorem read_write_int_other (stk : Int → Byte) (off off1 : Int) (v : Int)
    (h : off1 + 4 ≤ off ∨ off + 4 ≤ off1) :
    read_int (write_int stk off v) off1 = read_int stk off1 :=
  read_int_congr _ _ _ fun x hx0 hx1 => write_int_other stk off v x (by omega)

theorem exec_load_int (id : Int) (off : Int) (k : Int → Prog) (S : schedule) (out : Output)
    (h0 : 0 ≤ off) (h1 : off + 4 ≤ STACK_SIZE) :
    exec id (Prog.load_int off k) S out = exec id (k (read_int S.stack off)) S out := by
  unfold Prog.load_int
  simp only [exec]
  rw [if_pos ⟨by omega, by omega⟩, if_pos ⟨by omega, by omega⟩, if_pos ⟨by omega, by omega⟩,
    if_pos ⟨by omega, by omega⟩]
  rfl

theorem exec_store_int (id : Int) (off : Int) (v : Int) (k : Prog) (S : schedule) (out : Output)
    (h0 : 0 ≤ off) (h1 : off + 4 ≤ STACK_SIZE) :
    exec id (Prog.store_int off v k) S out =
      exec id k ⟨write_int S.stack off v, S.nco, S.cap, S.running, S.co⟩ out := by
  unfold Prog.store_int
  simp only [exec]
  rw [if_pos ⟨by omega, by omega⟩, if_pos ⟨by omega, by omega⟩, if_pos ⟨by omega, by omega⟩,
    if_pos ⟨by omega, by omega⟩]
  rfl

theorem Inv_stack {S : schedule} (h : Inv S) (stk : Int → Byte) :
    Inv ⟨stk, S.nco, S.cap, S.running, S.co⟩ :=
  ⟨h.len, h.cnt, h.st, h.run, h.cur, h.susp, h.pow, h.top, h.buf⟩

/-! ## The body `foo` -/

theorem foo_loop_succ (L : Layout) (fuel : Nat) :
    foo_loop L (fuel + 1) =
      Prog.load_int L.i_at fun i =>
        if i < 5 then
          Prog.running fun r => Prog.load_int L.start_at fun s => Prog.load_int L.i_at fun i1 =>
            if s + i1 > INT_MAX ∨ s + i1 < -INT_MAX - 1 then Prog.overflow
            else Prog.print r (s + i1) (Prog.yield L.frame (foo_after L fuel))
        else Prog.ret := rfl

theorem Layout.valid.start_nonneg {L : Layout} (h : L.valid) : 0 ≤ L.start_at := by
  have := h.frame_le
  have := h.start_lo
  omega

theorem Layout.valid.i_nonneg {L : Layout} (h : L.valid) : 0 ≤ L.i_at := by
  have := h.frame_le
  have := h.i_lo
  omega

theorem Layout.valid.frame_nonneg {L : Layout} (h : L.valid) : 0 ≤ L.frame := by
  have := h.start_lo
  have := h.start_hi
  omega

theorem exec_running (id : Int) (k : Int → Prog) (S : schedule) (out : Output) :
    exec id (Prog.running k) S out = exec id (k (coroutine_running S)) S out := rfl

theorem exec_print (id : Int) (a b : Int) (k : Prog) (S : schedule) (out : Output) :
    exec id (Prog.print a b k) S out = exec id k S (out ++ [Line.coroutine a b]) := rfl

theorem exec_yield (id : Int) (n : Int) (k : Prog) (S : schedule) (out : Output) :
    exec id (Prog.yield n k) S out =
      match coroutine_yield S n k with
      | .error e => .error e
      | .ok S1 => .ok (S1, out) := rfl

theorem exec_ret (id : Int) (S : schedule) (out : Output) :
    exec id Prog.ret S out =
      match mainfunc_return S id with
      | .error e => .error e
      | .ok S1 => .ok (S1, out) := rfl

/-- One round of the loop of `foo` whose condition holds: it prints
`start + i` as read from its frame and calls `coroutine_yield`. -/
theorem exec_foo_loop_round (id : Int) (L : Layout) (hL : L.valid) (fuel : Nat) (S : schedule)
    (out : Output) (hi : read_int S.stack L.i_at < 5)
    (hs0 : -INT_MAX - 1 ≤ read_int S.stack L.start_at + read_int S.stack L.i_at)
    (hs1 : read_int S.stack L.start_at + read_int S.stack L.i_at ≤ INT_MAX) :
    exec id (foo_loop L (fuel + 1)) S out =
      match coroutine_yield S L.frame (foo_after L fuel) with
      | .error e => .error e
      | .ok S1 => .ok (S1, out ++ [Line.coroutine S.running
          (read_int S.stack L.start_at + read_int S.stack L.i_at)]) := by
  rw [foo_loop_succ, exec_load_int id _ _ S out hL.i_nonneg hL.i_hi]
  simp only [if_pos hi]
  rw [exec_running, exec_load_int id _ _ S out hL.start_nonneg hL.start_hi,
    exec_load_int id _ _ S out hL.i_nonneg hL.i_hi]
  rw [if_neg (by omega), exec_print, exec_yield]
  rfl

/-- The loop of `foo` when its condition fails: the body returns. -/
theorem exec_foo_loop_end (id : Int) (L : Layout) (hL : L.valid) (fuel : Nat) (S : schedule)
    (out : Output) (hi : ¬ read_int S.stack L.i_at < 5) :
    exec id (foo_loop L (fuel + 1)) S out =
      match mainfunc_return S id with
      | .error e => .error e
      | .ok S1 => .ok (S1, out) := by
  rw [foo_loop_succ, exec_load_int id _ _ S out hL.i_nonneg hL.i_hi]
  simp only [if_neg hi]
  rw [exec_ret]

/-- The step `i++` of `foo` after `coroutine_yield` has returned. -/
theorem exec_foo_after (id : Int) (L : Layout) (hL : L.valid) (fuel : Nat) (S : schedule)
    (out : Output) (hi : read_int S.stack L.i_at + 1 ≤ INT_MAX) :
    exec id (foo_after L fuel) S out =
      exec id (foo_loop L fuel)
        ⟨write_int S.stack L.i_at (read_int S.stack L.i_at + 1), S.nco, S.cap, S.running, S.co⟩
        out := by
  unfold foo_after
  rw [exec_load_int id _ _ S out hL.i_nonneg hL.i_hi]
  rw [if_neg (by omega), exec_store_int id _ _ _ S out hL.i_nonneg hL.i_hi]

/-- The entry of `foo`: `int start = arg->n` and `i = 0`. -/
theorem exec_foo (id : Int) (L : Layout) (hL : L.valid) (unroll : Nat) (n : Int) (S : schedule)
    (out : Output) :
    exec id (foo L unroll n) S out =
      exec id (foo_loop L unroll)
        ⟨write_int (write_int S.stack L.start_at n) L.i_at 0, S.nco, S.cap, S.running, S.co⟩
        out := by
  unfold foo
  rw [exec_store_int id _ _ _ S out hL.start_nonneg hL.start_hi,
    exec_store_int id _ _ _ _ out hL.i_nonneg hL.i_hi]

/-- What the `memcpy` of `coroutine_resume` puts back is what `_save_stack`
copied. -/
theorem restore_saved (stk T : Int → Byte) (C : coroutine) (n : Int) (hsz : C.size = n)
    (hlive : ∀ i : Nat, (i : Int) < n → C.stack[i]? = some (T (STACK_SIZE - n + i)))
    (x : Int) (h0 : STACK_SIZE - n ≤ x) (h1 : x < STACK_SIZE) :
    restore_stack stk C x = T x := by
  apply restore_stack_live stk C x (by rw [hsz]; exact h0) h1
  rw [hsz, hlive _ (by omega)]
  congr 2
  omega

/-- A round of `foo` from a scheduler in which it runs with `i < 5` in its
frame: it prints, yields, and is parked with its locals in its saved stack. -/
theorem foo_loop_round (id : Int) (h0 : 0 ≤ id) (L : Layout) (hL : L.valid) (fuel : Nat)
    (T : schedule) (out : Output) (hI : Inv T) (hr : T.running = id) (s i : Int)
    (hs : read_int T.stack L.start_at = s) (hi : read_int T.stack L.i_at = i) (hlt : i < 5)
    (hs0 : -INT_MAX - 1 ≤ s + i) (hs1 : s + i ≤ INT_MAX) :
    ∃ S2 C2, exec id (foo_loop L (fuel + 1)) T out = .ok (S2, out ++ [Line.coroutine id (s + i)]) ∧
      Inv S2 ∧ S2.running = -1 ∧ S2.cap = T.cap ∧ S2.nco = T.nco ∧
      co_at S2 id = .ok (some C2) ∧ parked C2 L fuel s i ∧
      ∀ j : Int, j ≠ id → co_at S2 j = co_at T j := by
  obtain ⟨C1, hC1, hb1, -⟩ := hI.running_slot (by omega)
  obtain ⟨S2, C2, hy, hC2, hsz, hlive, hst2, hctx2, -, -, -, hr2, hcap2, hnco2, hfr2, -⟩ :=
    coroutine_yield_total T L.frame (foo_after L fuel) C1 (by omega) hC1 hb1
      hL.frame_nonneg hL.frame_le
  rw [hr] at hC2 hfr2
  refine ⟨S2, C2, ?_, Inv_yield hI _ _ S2 hy, hr2, hcap2, hnco2, hC2,
    ⟨hst2, hctx2, hsz, fun stk => ?_, fun stk => ?_⟩, hfr2⟩
  · rw [exec_foo_loop_round id L hL fuel T out (by rw [hi]; exact hlt)
      (by rw [hs, hi]; exact hs0) (by rw [hs, hi]; exact hs1), hy, hs, hi, hr]
  · rw [← hs]
    refine read_int_congr _ _ _ fun x hx0 hx1 => ?_
    have := hL.start_lo
    have := hL.start_hi
    exact restore_saved stk T.stack C2 L.frame hsz hlive x (by omega) (by omega)
  · rw [← hi]
    refine read_int_congr _ _ _ fun x hx0 hx1 => ?_
    have := hL.i_lo
    have := hL.i_hi
    exact restore_saved stk T.stack C2 L.frame hsz hlive x (by omega) (by omega)

/-- The end of `foo` from a scheduler in which it runs with `i >= 5` in its
frame: the body returns into `mainfunc`, which empties the slot. -/
theorem foo_loop_end (id : Int) (h0 : 0 ≤ id) (L : Layout) (hL : L.valid) (fuel : Nat)
    (T : schedule) (out : Output) (hI : Inv T) (hr : T.running = id)
    (hi : ¬ read_int T.stack L.i_at < 5) :
    ∃ S2, exec id (foo_loop L (fuel + 1)) T out = .ok (S2, out) ∧
      Inv S2 ∧ S2.running = -1 ∧ S2.cap = T.cap ∧ S2.nco = T.nco - 1 ∧
      co_at S2 id = .ok none ∧ ∀ j : Int, j ≠ id → co_at S2 j = co_at T j := by
  obtain ⟨S2, hret⟩ := mainfunc_return_total T hI (by omega)
  rw [hr] at hret
  obtain ⟨f1, f2, f3, -⟩ := mainfunc_return_fields hret
  have hs2 := mainfunc_return_slots hret
  refine ⟨S2, ?_, Inv_complete hI S2 (by omega) (by rw [hr]; exact hret), f1, by omega,
    by omega, by rw [hs2, if_pos rfl], fun j hj => ?_⟩
  · rw [exec_foo_loop_end id L hL fuel T out hi, hret]
  · rw [hs2, if_neg hj]

theorem small_is_int (i : Int) (h0 : 0 ≤ i) (h1 : i + 1 ≤ 5) :
    -INT_MAX - 1 ≤ i + 1 ∧ i + 1 ≤ INT_MAX := by
  simp only [INT_MAX]
  omega

theorem coroutine_resume_of_enter {S : schedule} {id : Int} {k : Prog} {S1 : schedule}
    (h : resume_enter S id = .ok (some (k, S1))) (out : Output) :
    coroutine_resume S id out = exec id k S1 out := by
  unfold coroutine_resume
  rw [h]

/-- The first `coroutine_resume` of a coroutine whose body is `foo`: it stores
its locals in its frame, prints `n`, and yields. -/
theorem resume_foo_first (S : schedule) (hI : Inv S) (id : Int) (C : coroutine) (L : Layout)
    (hL : L.valid) (fuel : Nat) (n : Int) (out : Output)
    (hr : S.running = -1) (h0 : 0 ≤ id) (h1 : id < S.cap) (hC : co_at S id = .ok (some C))
    (hs : C.status = COROUTINE_READY) (hf : C.func = foo L (fuel + 1) n)
    (hn0 : -INT_MAX - 1 ≤ n) (hn1 : n ≤ INT_MAX) :
    ∃ S2 C2, coroutine_resume S id out = .ok (S2, out ++ [Line.coroutine id (n + 0)]) ∧
      Inv S2 ∧ S2.running = -1 ∧ S2.cap = S.cap ∧ S2.nco = S.nco ∧
      co_at S2 id = .ok (some C2) ∧ parked C2 L fuel n 0 ∧
      ∀ j : Int, j ≠ id → co_at S2 j = co_at S j := by
  obtain ⟨-, hlt, -⟩ := (co_at_ok_iff _ _ _).mp hC
  have henter := resume_enter_ready S id C hr h0 h1 hC hs
  have hI1 := Inv_resume hI id _ _ henter
  have hdis := hL.apart
  obtain ⟨S2, C2, he, hI2, hr2, hcap2, hnco2, hC2, hp, hfr⟩ :=
    foo_loop_round id h0 L hL fuel
      ⟨write_int (write_int S.stack L.start_at n) L.i_at 0, S.nco, S.cap, id,
        co_set S id (some ⟨C.func, some C.func, C.cap, C.size, COROUTINE_RUNNING, C.stack⟩)⟩
      out (Inv_stack hI1 _) rfl n 0
      (by
        show read_int (write_int (write_int S.stack L.start_at n) L.i_at 0) L.start_at = n
        rw [read_write_int_other _ _ _ _ (by omega), read_write_int _ _ _ hn0 hn1])
      (by
        show read_int (write_int (write_int S.stack L.start_at n) L.i_at 0) L.i_at = 0
        rw [read_write_int _ _ _ (by decide) (by decide)])
      (by decide) (by omega) (by omega)
  refine ⟨S2, C2, ?_, hI2, hr2, hcap2, hnco2, hC2, hp, fun j hj => ?_⟩
  · rw [coroutine_resume_of_enter henter]
    have hx : ∀ (T : schedule) (o : Output),
        exec id C.func T o = exec id (foo L (fuel + 1) n) T o := fun T o => by rw [hf]
    rw [hx, exec_foo id L hL]
    exact he
  · rw [hfr j hj]
    exact (co_at_co_set S S.stack S.nco S.cap id id _ h0 hlt j).trans (if_neg hj)

/-- A later `coroutine_resume` of a coroutine parked in `foo`, when the loop
goes on: the restored frame gives `start` and `i`, the body increments `i`,
prints `start + i`, and yields. -/
theorem resume_foo_round (S : schedule) (hI : Inv S) (id : Int) (C : coroutine) (L : Layout)
    (hL : L.valid) (fuel : Nat) (s i : Int) (out : Output)
    (hr : S.running = -1) (h0 : 0 ≤ id) (h1 : id < S.cap) (hC : co_at S id = .ok (some C))
    (hp : parked C L (fuel + 1) s i) (hi0 : 0 ≤ i) (hi : i + 1 < 5)
    (hs0 : -INT_MAX - 1 ≤ s + (i + 1)) (hs1 : s + (i + 1) ≤ INT_MAX) :
    ∃ S2 C2, coroutine_resume S id out = .ok (S2, out ++ [Line.coroutine id (s + (i + 1))]) ∧
      Inv S2 ∧ S2.running = -1 ∧ S2.cap = S.cap ∧ S2.nco = S.nco ∧
      co_at S2 id = .ok (some C2) ∧ parked C2 L fuel s (i + 1) ∧
      ∀ j : Int, j ≠ id → co_at S2 j = co_at S j := by
  obtain ⟨-, hlt, hget⟩ := (co_at_ok_iff _ _ _).mp hC
  obtain ⟨-, hz0, hz1, hz2⟩ := hI.susp _ C hget hp.status
  have henter := resume_enter_suspended S id C _ hr h0 h1 hC hp.status hp.ctx hz0 hz1 hz2
  have hI1 := Inv_resume hI id _ _ henter
  have hdis := hL.apart
  have hii := hp.i_saved S.stack
  have hss := hp.start_saved S.stack
  obtain ⟨S2, C2, he, hI2, hr2, hcap2, hnco2, hC2, hp2, hfr⟩ :=
    foo_loop_round id h0 L hL fuel
      ⟨write_int (restore_stack S.stack C) L.i_at (i + 1), S.nco, S.cap, id,
        co_set S id (some ⟨C.func, C.ctx, C.cap, C.size, COROUTINE_RUNNING, C.stack⟩)⟩
      out (Inv_stack hI1 _) rfl s (i + 1)
      (by
        show read_int (write_int (restore_stack S.stack C) L.i_at (i + 1)) L.start_at = s
        rw [read_write_int_other _ _ _ _ (by omega), hss])
      (read_write_int (restore_stack S.stack C) L.i_at (i + 1)
        (small_is_int i hi0 (le_of_lt hi)).1 (small_is_int i hi0 (le_of_lt hi)).2)
      hi hs0 hs1
  refine ⟨S2, C2, ?_, hI2, hr2, hcap2, hnco2, hC2, hp2, fun j hj => ?_⟩
  · rw [coroutine_resume_of_enter henter]
    rw [exec_foo_after id L hL (fuel + 1) _ out
      (by show read_int (restore_stack S.stack C) L.i_at + 1 ≤ INT_MAX
          rw [hii]; exact (small_is_int i hi0 (le_of_lt hi)).2)]
    simp only [hii]
    exact he
  · rw [hfr j hj]
    exact (co_at_co_set S _ S.nco S.cap id id _ h0 hlt j).trans (if_neg hj)

/-- The `coroutine_resume` of a coroutine parked in `foo` after its fifth
round: the body increments `i` to 5, leaves the loop and returns; `mainfunc`
empties the slot. -/
theorem resume_foo_end (S : schedule) (hI : Inv S) (id : Int) (C : coroutine) (L : Layout)
    (hL : L.valid) (fuel : Nat) (s i : Int) (out : Output)
    (hr : S.running = -1) (h0 : 0 ≤ id) (h1 : id < S.cap) (hC : co_at S id = .ok (some C))
    (hp : parked C L (fuel + 1) s i) (hi : 5 ≤ i + 1) (hi1 : i + 1 ≤ INT_MAX) :
    ∃ S2, coroutine_resume S id out = .ok (S2, out) ∧
      Inv S2 ∧ S2.running = -1 ∧ S2.cap = S.cap ∧ S2.nco = S.nco - 1 ∧
      co_at S2 id = .ok none ∧ ∀ j : Int, j ≠ id → co_at S2 j = co_at S j := by
  obtain ⟨-, hlt, hget⟩ := (co_at_ok_iff _ _ _).mp hC
  obtain ⟨-, hz0, hz1, hz2⟩ := hI.susp _ C hget hp.status
  have henter := resume_enter_suspended S id C _ hr h0 h1 hC hp.status hp.ctx hz0 hz1 hz2
  have hI1 := Inv_resume hI id _ _ henter
  have hii := hp.i_saved S.stack
  obtain ⟨S2, he, hI2, hr2, hcap2, hnco2, hC2, hfr⟩ :=
    foo_loop_end id h0 L hL fuel
      ⟨write_int (restore_stack S.stack C) L.i_at (i + 1), S.nco, S.cap, id,
        co_set S id (some ⟨C.func, C.ctx, C.cap, C.size, COROUTINE_RUNNING, C.stack⟩)⟩
      out (Inv_stack hI1 _) rfl
      (by
        show ¬ read_int (write_int (restore_stack S.stack C) L.i_at (i + 1)) L.i_at < 5
        rw [read_write_int _ _ _ (by simp only [INT_MAX]; omega) hi1]
        omega)
  refine ⟨S2, ?_, hI2, hr2, hcap2, hnco2, hC2, fun j hj => ?_⟩
  · rw [coroutine_resume_of_enter henter]
    rw [exec_foo_after id L hL (fuel + 1) _ out
      (by show read_int (restore_stack S.stack C) L.i_at + 1 ≤ INT_MAX
          rw [hii]; exact hi1)]
    simp only [hii]
    exact he
  · rw [hfr j hj]
    exact (co_at_co_set S _ S.nco S.cap id id _ h0 hlt j).trans (if_neg hj)

/-! ## The demo driver -/

theorem test_loop_step (co1 co2 : Int) (fuel : Nat) (S : schedule) (out : Output)
    (s1 s2 : Int) (S1 : schedule) (out1 : Output) (S2 : schedule) (out2 : Output)
    (h1 : coroutine_status S co1 = .ok s1) (hs1 : s1 ≠ 0)
    (h2 : coroutine_status S co2 = .ok s2) (hs2 : s2 ≠ 0)
    (hr1 : coroutine_resume S co1 out = .ok (S1, out1))
    (hr2 : coroutine_resume S1 co2 out1 = .ok (S2, out2)) :
    test_loop co1 co2 (fuel + 1) S out = test_loop co1 co2 fuel S2 out2 := by
  simp only [test_loop, h1, h2, hr1, hr2, if_neg hs1, if_neg hs2]

theorem test_loop_exit (co1 co2 : Int) (fuel : Nat) (S : schedule) (out : Output)
    (h1 : coroutine_status S co1 = .ok 0) :
    test_loop co1 co2 (fuel + 1) S out = .ok (some (S, out)) := by
  simp only [test_loop, h1, if_true]

theorem alternate_step (co1 co2 : Int) (rounds : Nat) (S : schedule) (out : Output)
    (S1 : schedule) (out1 : Output) (S2 : schedule) (out2 : Output)
    (hr1 : coroutine_resume S co1 out = .ok (S1, out1))
    (hr2 : coroutine_resume S1 co2 out1 = .ok (S2, out2)) :
    alternate co1 co2 (rounds + 1) S out = alternate co1 co2 rounds S2 out2 := by
  simp only [alternate, hr1, hr2]

theorem status_occupied (S : schedule) (id : Int) (h0 : 0 ≤ id) (h1 : id < S.cap)
    (C : coroutine) (hC : co_at S id = .ok (some C)) :
    coroutine_status S id = .ok C.status := by
  rw [coroutine_status_eq S id h0 h1, hC]

theorem status_vacant (S : schedule) (id : Int) (h0 : 0 ≤ id) (h1 : id < S.cap)
    (hC : co_at S id = .ok none) :
    coroutine_status S id = .ok COROUTINE_DEAD := by
  rw [coroutine_status_eq S id h0 h1, hC]

/-- Between two rounds both coroutines are `SUSPEND`. -/
theorem Stage.statuses {L : Layout} {fuel : Nat} {i : Int} {S : schedule}
    (h : Stage L fuel i S) :
    coroutine_status S 0 = .ok COROUTINE_SUSPEND ∧
      coroutine_status S 1 = .ok COROUTINE_SUSPEND := by
  obtain ⟨C0, hC0, hp0⟩ := h.co1
  obtain ⟨C1, hC1, hp1⟩ := h.co2
  have hcap := h.cap
  rw [status_occupied S 0 (by decide) (by rw [hcap]; decide) _ hC0,
    status_occupied S 1 (by decide) (by rw [hcap]; decide) _ hC1, hp0.status, hp1.status]
  exact ⟨rfl, rfl⟩

/-- The first round: the caller resumes A and then B for the first time. -/
theorem stage_first (L : Layout) (hL : L.valid) (fuel : Nat) (S : schedule) (out : Output)
    (hS : Spawned L (fuel + 1) S) :
    ∃ S1 S2, coroutine_resume S 0 out = .ok (S1, out ++ [Line.coroutine 0 (0 + 0)]) ∧
      coroutine_resume S1 1 (out ++ [Line.coroutine 0 (0 + 0)]) =
        .ok (S2, out ++ [Line.coroutine 0 (0 + 0)] ++ [Line.coroutine 1 (100 + 0)]) ∧
      Stage L fuel 0 S2 := by
  obtain ⟨C0, hC0, hs0, hf0⟩ := hS.co1
  obtain ⟨C1, hC1, hs1, hf1⟩ := hS.co2
  have hcap := hS.cap
  obtain ⟨S1, D0, hr1, hI1, hrun1, hcap1, -, hD0, hq0, hfr1⟩ :=
    resume_foo_first S hS.inv 0 C0 L hL fuel 0 out hS.idle (by decide) (by rw [hcap]; decide)
      hC0 hs0 hf0 (by decide) (by decide)
  have hC1' : co_at S1 1 = .ok (some C1) := by rw [hfr1 1 (by decide)]; exact hC1
  obtain ⟨S2, D1, hr2, hI2, hrun2, hcap2, -, hD1, hq1, hfr2⟩ :=
    resume_foo_first S1 hI1 1 C1 L hL fuel 100 (out ++ [Line.coroutine 0 (0 + 0)]) hrun1
      (by decide) (by rw [hcap1, hcap]; decide) hC1' hs1 hf1 (by decide) (by decide)
  have hD0' : co_at S2 0 = .ok (some D0) := by rw [hfr2 0 (by decide)]; exact hD0
  exact ⟨S1, S2, hr1, hr2, hI2, hrun2, by omega, ⟨D0, hD0', hq0⟩, ⟨D1, hD1, hq1⟩⟩

/-- A later round in which the loops of A and B go on. -/
theorem stage_round (L : Layout) (hL : L.valid) (fuel : Nat) (i : Int) (S : schedule)
    (out : Output) (hS : Stage L (fuel + 1) i S) (hi0 : 0 ≤ i) (hi : i + 1 < 5) :
    ∃ S1 S2, coroutine_resume S 0 out = .ok (S1, out ++ [Line.coroutine 0 (0 + (i + 1))]) ∧
      coroutine_resume S1 1 (out ++ [Line.coroutine 0 (0 + (i + 1))]) =
        .ok (S2, out ++ [Line.coroutine 0 (0 + (i + 1))] ++ [Line.coroutine 1 (100 + (i + 1))]) ∧
      Stage L fuel (i + 1) S2 := by
  obtain ⟨C0, hC0, hp0⟩ := hS.co1
  obtain ⟨C1, hC1, hp1⟩ := hS.co2
  have hcap := hS.cap
  have hb := small_is_int i hi0 (le_of_lt hi)
  have hb0 : -INT_MAX - 1 ≤ 0 + (i + 1) ∧ 0 + (i + 1) ≤ INT_MAX := by
    rw [zero_add]; exact hb
  have hb1 : -INT_MAX - 1 ≤ 100 + (i + 1) ∧ 100 + (i + 1) ≤ INT_MAX := by
    clear hS hC0 hp0 hC1 hp1 hb hb0
    simp only [INT_MAX]
    omega
  obtain ⟨S1, D0, hr1, hI1, hrun1, hcap1, -, hD0, hq0, hfr1⟩ :=
    resume_foo_round S hS.inv 0 C0 L hL fuel 0 i out hS.idle (by decide) (by rw [hcap]; decide)
      hC0 hp0 hi0 hi hb0.1 hb0.2
  have hC1' : co_at S1 1 = .ok (some C1) := by rw [hfr1 1 (by decide)]; exact hC1
  obtain ⟨S2, D1, hr2, hI2, hrun2, hcap2, -, hD1, hq1, hfr2⟩ :=
    resume_foo_round S1 hI1 1 C1 L hL fuel 100 i (out ++ [Line.coroutine 0 (0 + (i + 1))]) hrun1
      (by decide) (by rw [hcap1, hcap]; decide) hC1' hp1 hi0 hi hb1.1 hb1.2
  have hD0' : co_at S2 0 = .ok (some D0) := by rw [hfr2 0 (by decide)]; exact hD0
  exact ⟨S1, S2, hr1, hr2, hI2, hrun2, by rw [hcap2, hcap1, hcap], ⟨D0, hD0', hq0⟩,
    ⟨D1, hD1, hq1⟩⟩

/-- The round after the fifth print: both bodies return and both slots are
emptied, without output. -/
theorem stage_last (L : Layout) (hL : L.valid) (fuel : Nat) (S : schedule)
    (out : Output) (hS : Stage L (fuel + 1) 4 S) :
    ∃ S1 S2, coroutine_resume S 0 out = .ok (S1, out) ∧
      coroutine_resume S1 1 out = .ok (S2, out) ∧
      Inv S2 ∧ S2.running = -1 ∧ S2.cap = 16 ∧
      co_at S2 0 = .ok none ∧ co_at S2 1 = .ok none := by
  obtain ⟨C0, hC0, hp0⟩ := hS.co1
  obtain ⟨C1, hC1, hp1⟩ := hS.co2
  have hcap := hS.cap
  obtain ⟨S1, hr1, hI1, hrun1, hcap1, -, hE0, hfr1⟩ :=
    resume_foo_end S hS.inv 0 C0 L hL fuel 0 4 out hS.idle (by decide) (by rw [hcap]; decide)
      hC0 hp0 (by decide) (by decide)
  have hC1' : co_at S1 1 = .ok (some C1) := by rw [hfr1 1 (by decide)]; exact hC1
  obtain ⟨S2, hr2, hI2, hrun2, hcap2, -, hE1, hfr2⟩ :=
    resume_foo_end S1 hI1 1 C1 L hL fuel 100 4 out hrun1 (by decide)
      (by rw [hcap1, hcap]; decide) hC1' hp1 (by decide) (by decide)
  have hE0' : co_at S2 0 = .ok none := by rw [hfr2 0 (by decide)]; exact hE0
  exact ⟨S1, S2, hr1, hr2, hI2, hrun2, by rw [hcap2, hcap1, hcap], hE0', hE1⟩

/-- The caller resuming A then B for `m` further rounds in which the loops go
on. -/
theorem alternate_rounds (L : Layout) (hL : L.valid) (e : Nat) :
    ∀ (m : Nat) (i : Int) (S : schedule) (out : Output),
      Stage L (e + m) i S → 0 ≤ i → i + (m : Int) ≤ 4 →
      ∃ S1, alternate 0 1 m S out = .ok (S1, out ++ rounds_lines m (i + 1)) ∧
        Stage L e (i + (m : Int)) S1 := by
  intro m
  induction m with
  | zero =>
    intro i S out hS _ _
    refine ⟨S, ?_, ?_⟩
    · simp only [alternate, rounds_lines, List.append_nil]
    · simpa using hS
  | succ m ih =>
    intro i S out hS hi0 him
    obtain ⟨S1, S2, hr1, hr2, hS2⟩ :=
      stage_round L hL (e + m) i S out hS hi0 (by push_cast at him; omega)
    obtain ⟨S3, h3, hS3⟩ := ih (i + 1) S2 _ hS2 (by omega) (by push_cast at him; omega)
    refine ⟨S3, ?_, ?_⟩
    · rw [alternate_step 0 1 m S out S1 _ S2 _ hr1 hr2, h3]
      simp only [rounds_lines, List.append_assoc, List.singleton_append, List.cons_append,
        List.nil_append]
    · have e1 : i + 1 + (m : Int) = i + ((m + 1 : Nat) : Int) := by push_cast; omega
      rw [← e1]
      exact hS3

/-- The loop of `test` from a scheduler in which both coroutines are parked
with `m` rounds of their loops left: it ends within `m + 2` evaluations of its
condition, having printed the lines of those rounds, with both slots empty. -/
theorem test_loop_rounds (L : Layout) (hL : L.valid) (e : Nat) :
    ∀ (m : Nat) (i : Int) (S : schedule) (out : Output) (fuel : Nat),
      Stage L (e + m + 1) i S → 0 ≤ i → i + (m : Int) = 4 → m + 2 ≤ fuel →
      ∃ S3, test_loop 0 1 fuel S out = .ok (some (S3, out ++ rounds_lines m (i + 1))) ∧
        Inv S3 ∧ S3.running = -1 ∧ S3.cap = 16 ∧
        co_at S3 0 = .ok none ∧ co_at S3 1 = .ok none := by
  intro m
  induction m with
  | zero =>
    intro i S out fuel hS hi0 him hfuel
    obtain ⟨f, rfl⟩ : ∃ f, fuel = f + 1 + 1 := ⟨fuel - 2, by omega⟩
    have hi4 : i = 4 := by simpa using him
    subst hi4
    obtain ⟨S1, S2, hr1, hr2, hI2, hrun2, hcap2, hE0, hE1⟩ := stage_last L hL e S out hS
    have hcap := hS.cap
    refine ⟨S2, ?_, hI2, hrun2, hcap2, hE0, hE1⟩
    rw [test_loop_step 0 1 (f + 1) S out _ _ S1 out S2 out hS.statuses.1 (by decide)
      hS.statuses.2 (by decide) hr1 hr2]
    rw [test_loop_exit 0 1 f S2 out
      (status_vacant S2 0 (by decide) (by rw [hcap2]; decide) hE0)]
    simp only [rounds_lines, List.append_nil]
  | succ m ih =>
    intro i S out fuel hS hi0 him hfuel
    obtain ⟨f, rfl⟩ : ∃ f, fuel = f + 1 := ⟨fuel - 1, by omega⟩
    obtain ⟨S1, S2, hr1, hr2, hS2⟩ :=
      stage_round L hL (e + m + 1) i S out hS hi0 (by push_cast at him; omega)
    obtain ⟨S3, h3, hrest⟩ := ih (i + 1) S2 _ f hS2 (by omega) (by push_cast at him; omega)
      (by omega)
    refine ⟨S3, ?_, hrest⟩
    rw [test_loop_step 0 1 f S out _ _ S1 _ S2 _ hS.statuses.1 (by decide)
      hS.statuses.2 (by decide) hr1 hr2, h3]
    simp only [rounds_lines, List.append_assoc, List.singleton_append, List.cons_append,
      List.nil_append]

theorem demo_lines_eq :
    [Line.coroutine 0 (0 + 0)] ++ [Line.coroutine 1 (100 + 0)] ++ rounds_lines 4 (0 + 1) =
      demo_lines := by decide

/-- The two calls of `coroutine_new` in `test` on a fresh scheduler. -/
theorem spawn_two (mem : Int → Byte) (L : Layout) (unroll : Nat) :
    ∃ S1 S2, coroutine_new (coroutine_open mem) (foo L unroll 0) = .ok (0, S1) ∧
      coroutine_new S1 (foo L unroll 100) = .ok (1, S2) ∧ Spawned L unroll S2 := by
  have hn1 : coroutine_new (coroutine_open mem) (foo L unroll 0) =
      .ok (0, ⟨mem, 1, 16, -1, some (_co_new (foo L unroll 0)) :: List.replicate 15 none⟩) := rfl
  have hn2 : coroutine_new
      ⟨mem, 1, 16, -1, some (_co_new (foo L unroll 0)) :: List.replicate 15 none⟩
      (foo L unroll 100) =
      .ok (1, ⟨mem, 2, 16, -1, some (_co_new (foo L unroll 0)) ::
                    some (_co_new (foo L unroll 100)) :: List.replicate 14 none⟩) := rfl
  have hrun := Run.new _ 1 _ (Run.new _ 0 _ (Run.open mem) hn1) hn2
  exact ⟨_, _, hn1, hn2, hrun.inv, rfl, rfl, ⟨_, rfl, rfl, rfl⟩, ⟨_, rfl, rfl, rfl⟩⟩

theorem demo_frame_valid : demo_frame.valid :=
  ⟨by decide, by decide, by decide, by decide, by decide, by decide⟩

/-- The first five rounds of the caller resuming A then B. -/
theorem five_rounds (L : Layout) (hL : L.valid) (e : Nat) (S : schedule)
    (hS : Spawned L (e + 6) S) :
    ∃ S5, alternate 0 1 5 S [] = .ok (S5, demo_lines) ∧ Stage L (e + 1) 4 S5 := by
  obtain ⟨S1, S2, hr1, hr2, hS2⟩ := stage_first L hL (e + 5) S [] hS
  obtain ⟨S5, h5, hS5⟩ := alternate_rounds L hL (e + 1) 4 0 S2
    ([] ++ [Line.coroutine 0 (0 + 0)] ++ [Line.coroutine 1 (100 + 0)]) hS2 (by decide)
    (by decide)
  refine ⟨S5, ?_, hS5⟩
  rw [alternate_step 0 1 4 S [] S1 _ S2 _ hr1 hr2, h5]
  exact congrArg (fun l => Except.ok (S5, l)) demo_lines_eq

/-- The sixth round and what follows it. -/
theorem sixth_round (L : Layout) (hL : L.valid) (e : Nat) (S5 : schedule) (out : Output)
    (hS : Stage L (e + 1) 4 S5) :
    ∃ S6, alternate 0 1 1 S5 out = .ok (S6, out) ∧
      coroutine_status S6 0 = .ok COROUTINE_DEAD ∧
      coroutine_status S6 1 = .ok COROUTINE_DEAD ∧
      ∀ o : Output, coroutine_resume S6 0 o = .ok (S6, o) ∧
        coroutine_resume S6 1 o = .ok (S6, o) := by
  obtain ⟨S1, S6, hr1, hr2, hI6, hrun6, hcap6, hE0, hE1⟩ := stage_last L hL e S5 out hS
  refine ⟨S6, ?_, status_vacant S6 0 (by decide) (by rw [hcap6]; decide) hE0,
    status_vacant S6 1 (by decide) (by rw [hcap6]; decide) hE1, fun o => ⟨?_, ?_⟩⟩
  · rw [alternate_step 0 1 0 S5 out S1 _ S6 _ hr1 hr2]
    rfl
  · exact coroutine_resume_empty S6 0 o hrun6 (by decide) (by rw [hcap6]; decide) hE0
  · exact coroutine_resume_empty S6 1 o hrun6 (by decide) (by rw [hcap6]; decide) hE1

theorem demo_S2_spawned : Spawned demo_frame 6 demo_S2 :=
  ⟨(Run.new _ 1 _ (Run.new _ 0 _ (Run.open demo_mem) demo_new1) demo_new2).inv, rfl, rfl,
    ⟨_, rfl, rfl, rfl⟩, ⟨_, rfl, rfl, rfl⟩⟩

/-- C6 as stated fails: in the end-to-end scenario both coroutines are
`SUSPEND`, not `DEAD`, after the fifth resume of each.  The scenario is run on
a shared stack of zero bytes with the locals of `foo` laid out as in
`demo_frame`. -/
theorem C6_five_resumes_not_dead :
    coroutine_new (coroutine_open demo_mem) (demo_foo 0) = .ok (0, demo_S1) ∧
    coroutine_new demo_S1 (demo_foo 100) = .ok (1, demo_S2) ∧
    ∃ S5, alternate 0 1 5 demo_S2 [] = .ok (S5, demo_lines) ∧
      coroutine_status S5 0 = .ok COROUTINE_SUSPEND ∧
      coroutine_status S5 1 = .ok COROUTINE_SUSPEND ∧
      COROUTINE_SUSPEND ≠ COROUTINE_DEAD := by
  obtain ⟨S5, h5, hS5⟩ := five_rounds demo_frame demo_frame_valid 0 demo_S2 demo_S2_spawned
  exact ⟨rfl, rfl, S5, h5, hS5.statuses.1, hS5.statuses.2, by decide⟩

/-- C6, amended: in the end-to-end scenario (coroutine A with start 0 and B
with start 100 on a fresh scheduler, the caller resuming A then B in turn),
whatever the shared stack holds at the start and wherever in its frame `foo`
keeps `start` and `i`, the first five resumes of each print
`0, 100, 1, 101, ..., 4, 104` and leave both `SUSPEND`; the sixth resume of each
prints nothing and leaves both `coroutine_status` equal to `DEAD`; after that
any further `coroutine_resume` of either id returns without output and without
changing the scheduler. -/
theorem C6_end_to_end_statuses (mem : Int → Byte) (L : Layout) (unroll : Nat)
    (hL : L.valid) (hu : 6 ≤ unroll) :
    ∃ S1 S2, coroutine_new (coroutine_open mem) (foo L unroll 0) = .ok (0, S1) ∧
      coroutine_new S1 (foo L unroll 100) = .ok (1, S2) ∧
      ∃ S5 S6, alternate 0 1 5 S2 [] = .ok (S5, demo_lines) ∧
        coroutine_status S5 0 = .ok COROUTINE_SUSPEND ∧
        coroutine_status S5 1 = .ok COROUTINE_SUSPEND ∧
        alternate 0 1 1 S5 demo_lines = .ok (S6, demo_lines) ∧
        coroutine_status S6 0 = .ok COROUTINE_DEAD ∧
        coroutine_status S6 1 = .ok COROUTINE_DEAD ∧
        ∀ out : Output, coroutine_resume S6 0 out = .ok (S6, out) ∧
          coroutine_resume S6 1 out = .ok (S6, out) := by
  obtain ⟨e, rfl⟩ : ∃ e, unroll = e + 6 := ⟨unroll - 6, by omega⟩
  obtain ⟨S1, S2, hn1, hn2, hS2⟩ := spawn_two mem L (e + 6)
  obtain ⟨S5, h5, hS5⟩ := five_rounds L hL e S2 hS2
  obtain ⟨S6, h6, hd0, hd1, hno⟩ := sixth_round L hL e S5 demo_lines hS5
  exact ⟨S1, S2, hn1, hn2, S5, S6, h5, hS5.statuses.1, hS5.statuses.2, h6, hd0, hd1, hno⟩

theorem C6_end_to_end_statuses_witness :
    ∃ S1 S2, coroutine_new (coroutine_open demo_mem) (foo demo_frame 6 0) = .ok (0, S1) ∧
      coroutine_new S1 (foo demo_frame 6 100) = .ok (1, S2) ∧
      ∃ S5 S6, alternate 0 1 5 S2 [] = .ok (S5, demo_lines) ∧
        coroutine_status S5 0 = .ok COROUTINE_SUSPEND ∧
        coroutine_status S5 1 = .ok COROUTINE_SUSPEND ∧
        alternate 0 1 1 S5 demo_lines = .ok (S6, demo_lines) ∧
        coroutine_status S6 0 = .ok COROUTINE_DEAD ∧
        coroutine_status S6 1 = .ok COROUTINE_DEAD ∧
        ∀ out : Output, coroutine_resume S6 0 out = .ok (S6, out) ∧
          coroutine_resume S6 1 out = .ok (S6, out) :=
  C6_end_to_end_statuses demo_mem demo_frame 6 demo_frame_valid (by decide)

/-- The function `test` on a fresh scheduler, for any content of the shared
stack and any layout of the frame of `foo`. -/
theorem test_spec (mem : Int → Byte) (L : Layout) (unroll fuel : Nat) (hL : L.valid)
    (hu : 6 ≤ unroll) (hfuel : 7 ≤ fuel) :
    ∃ S3, test L unroll fuel (coroutine_open mem) =
        .ok (some (S3, Line.main_start :: demo_lines ++ [Line.main_end])) ∧
      S3.running = -1 ∧ coroutine_status S3 0 = .ok COROUTINE_DEAD ∧
      coroutine_status S3 1 = .ok COROUTINE_DEAD := by
  obtain ⟨e, rfl⟩ : ∃ e, unroll = e + 6 := ⟨unroll - 6, by omega⟩
  obtain ⟨f, rfl⟩ : ∃ f, fuel = f + 1 := ⟨fuel - 1, by omega⟩
  obtain ⟨S1, S2, hn1, hn2, hS2⟩ := spawn_two mem L (e + 6)
  obtain ⟨C0, hC0, hs0, -⟩ := hS2.co1
  obtain ⟨C1, hC1, hs1, -⟩ := hS2.co2
  have hcap := hS2.cap
  obtain ⟨T1, T2, hr1, hr2, hT2⟩ := stage_first L hL (e + 5) S2 [Line.main_start] hS2
  obtain ⟨S3, hloop, hI3, hrun3, hcap3, hE0, hE1⟩ :=
    test_loop_rounds L hL e 4 0 T2 _ f hT2 (by decide) (by decide) (by omega)
  refine ⟨S3, ?_, hrun3,
    status_vacant S3 0 (by decide) (by rw [hcap3]; decide) hE0,
    status_vacant S3 1 (by decide) (by rw [hcap3]; decide) hE1⟩
  unfold test
  rw [hn1]
  simp only
  rw [hn2]
  simp only
  rw [test_loop_step 0 1 f S2 [Line.main_start] _ _ T1 _ T2 _
    (status_occupied S2 0 (by decide) (by rw [hcap]; decide) _ hC0) (by rw [hs0]; decide)
    (status_occupied S2 1 (by decide) (by rw [hcap]; decide) _ hC1) (by rw [hs1]; decide)
    hr1 hr2, hloop]
  rw [← demo_lines_eq]
  simp only [List.append_assoc, List.singleton_append, List.cons_append, List.nil_append]

/-- C14: the demo driver.  `test` of `main.c` on a fresh scheduler, whatever
the shared stack holds at the start and wherever in its frame `foo` keeps its
locals `start` and `i` (which it reads back from the shared stack after every
`coroutine_yield`), spawns A with id 0 and B with id 1, prints `main start`,
then the values `0, 100, 1, 101, 2, 102, 3, 103, 4, 104` in exactly that order,
tagged with the ids 0 and 1 alternately, then `main end`; its loop ends within
seven evaluations of its condition, the loop of `foo` within six of its own,
and then `coroutine_status(A)` and `coroutine_status(B)` are both `DEAD`. -/
theorem C14_demo_driver_output (mem : Int → Byte) (L : Layout) (unroll fuel : Nat)
    (hL : L.valid) (hu : 6 ≤ unroll) (hfuel : 7 ≤ fuel) :
    ∃ S3, test L unroll fuel (coroutine_open mem) =
        .ok (some (S3, Line.main_start :: demo_lines ++ [Line.main_end])) ∧
      S3.running = -1 ∧ coroutine_status S3 0 = .ok COROUTINE_DEAD ∧
      coroutine_status S3 1 = .ok COROUTINE_DEAD :=
  test_spec mem L unroll fuel hL hu hfuel

theorem C14_demo_driver_output_witness :
    ∃ S3, test demo_frame 6 7 (coroutine_open demo_mem) =
        .ok (some (S3, Line.main_start :: demo_lines ++ [Line.main_end])) ∧
      S3.running = -1 ∧ coroutine_status S3 0 = .ok COROUTINE_DEAD ∧
      coroutine_status S3 1 = .ok COROUTINE_DEAD :=
  C14_demo_driver_output demo_mem demo_frame 6 7 demo_frame_valid (by decide) (by decide)

/-! ## The stack below the running frame -/

theorem coroutine_yield_room_ok (room : Int) (S S1 : schedule) (n : Int) (k : Prog)
    (h : coroutine_yield S n k = .ok S1) (hroom : room ≤ STACK_SIZE - n) :
    coroutine_yield_room room S n k = .ok S1 := by
  unfold coroutine_yield_room
  rw [h]
  simp only
  rw [if_pos (by omega)]

theorem coroutine_yield_room_short (room : Int) (S S1 : schedule) (n : Int) (k : Prog)
    (h : coroutine_yield S n k = .ok S1) (hroom : STACK_SIZE - n < room) :
    coroutine_yield_room room S n k = .error .undefined := by
  unfold coroutine_yield_room
  rw [h]
  simp only
  rw [if_neg (by omega)]

/-- With the running coroutine of `demo_S3` so deep in the shared stack that
fewer bytes than its callees need are left below `dummy`, `coroutine_yield`
does not return. -/
theorem demo_yield_short (n room : Int) (hn0 : 0 ≤ n) (hn1 : n ≤ STACK_SIZE)
    (hroom : STACK_SIZE - n < room) :
    coroutine_yield_room room demo_S3 n Prog.ret = .error .undefined := by
  obtain ⟨C3, hC3, hb3, -⟩ := demo_run3.inv.running_slot (by decide)
  obtain ⟨S4, C4, hy4, -⟩ :=
    coroutine_yield_total demo_S3 n Prog.ret C3 (by decide) hC3 hb3 hn0 hn1
  exact coroutine_yield_room_short room demo_S3 S4 n Prog.ret hy4 hroom

/-- C10 as stated fails near the base of the shared stack: `0 <= n <=
STACK_SIZE` does not make `coroutine_yield` save the stack and return.  In the
reachable scheduler `demo_S3`, where coroutine 0 runs, a call with `dummy` 15
bytes above the base of `S->stack` (`n = STACK_SIZE - 15`) has undefined
behaviour whenever the frames below `dummy` take 16 bytes or more, and so has
every call with a footprint `n <= STACK_SIZE` that leaves less room than these
frames take: `_save_stack` and the functions it calls run on the shared stack
themselves. -/
theorem C10_yield_near_stack_base :
    Reachable demo_S3 ∧ 0 ≤ demo_S3.running ∧ (0 : Int) ≤ 1048561 ∧ (1048561 : Int) ≤ STACK_SIZE ∧
    (∀ room : Int, 16 ≤ room →
      coroutine_yield_room room demo_S3 1048561 Prog.ret = .error .undefined) ∧
    (∀ n room : Int, 0 ≤ n → n ≤ STACK_SIZE → STACK_SIZE - n < room →
      coroutine_yield_room room demo_S3 n Prog.ret = .error .undefined) :=
  ⟨⟨_, demo_run3⟩, by decide, by decide, by decide,
    fun room h => demo_yield_short 1048561 room (by decide) (by decide)
      (lt_of_lt_of_le (by decide) h),
    fun n room h0 h1 h => demo_yield_short n room h0 h1 h⟩

/-- C10, amended: when `coroutine_yield` is called in a reachable scheduler
with `S->running = id >= 0` and the stack pointer `n >= 0` bytes below the top
of the shared stack, and the `room` bytes that the frames of its callees take
below that fit into the shared stack as well (`n + room <= STACK_SIZE`), it
returns; the saved size of the running coroutine becomes exactly `n`, its saved
buffer holds the `n` bytes at offsets `[STACK_SIZE-n, STACK_SIZE)`, its status
becomes `SUSPEND`, `S->running` becomes `-1`, and `cap`, `nco` and every other
slot are unchanged. -/
theorem C10_yield_transition (room : Int) (S : schedule) (h : Reachable S) (n : Int) (k : Prog)
    (hr : 0 ≤ S.running) (hn0 : 0 ≤ n) (hroom0 : 0 ≤ room) (hroom : n + room ≤ STACK_SIZE) :
    ∃ S1 C1, coroutine_yield_room room S n k = .ok S1 ∧ co_at S1 S.running = .ok (some C1) ∧
      C1.size = n ∧
      (∀ i : Nat, (i : Int) < n → C1.stack[i]? = some (S.stack (STACK_SIZE - n + i))) ∧
      C1.status = COROUTINE_SUSPEND ∧ S1.running = -1 ∧ S1.cap = S.cap ∧ S1.nco = S.nco ∧
      (∀ j, j ≠ S.running → co_at S1 j = co_at S j) := by
  have hI := h.to_inv
  rcases hI.cur with hr1 | ⟨-, C, hget⟩
  · omega
  have hlt := (List.getElem?_eq_some_iff.mp hget).1
  have hlen := hI.len
  have hC : co_at S S.running = .ok (some C) := (co_at_ok_iff _ _ _).mpr ⟨hr, by omega, hget⟩
  obtain ⟨S1, C1, h1, h2, h3, h4, h5, -, -, -, -, h6, h7, h8, h9, -⟩ :=
    coroutine_yield_total S n k C hr hC (hI.buf _ C hget) hn0 (by omega)
  exact ⟨S1, C1, coroutine_yield_room_ok room S S1 n k h1 (by omega), h2, h3, h4, h5, h6, h7,
    h8, h9⟩

theorem C10_yield_transition_witness :
    ∃ S1 C1, coroutine_yield_room 4096 demo_S3 64 Prog.ret = .ok S1 ∧
      co_at S1 0 = .ok (some C1) ∧
      C1.size = 64 ∧ C1.status = COROUTINE_SUSPEND ∧ S1.running = -1 :=
  (C10_yield_transition 4096 demo_S3 ⟨_, demo_run3⟩ 64 Prog.ret (by decide) (by decide)
    (by decide) (by decide)).imp
    fun _ h => h.imp fun _ h => ⟨h.1, h.2.1, h.2.2.1, h.2.2.2.2.1, h.2.2.2.2.2.1⟩

end Coroutine
